import Mathlib

/-! # c4core `format.hpp`: base64 codec, binary codec, composition layer, resizing adapters

A shallow embedding of `src/c4/format.hpp`.

Modelling conventions

* Mutable memory is a total map from addresses to bytes (`Mem`).  A destination view
  (`substr`, `base64_wrapper`) is an address and a length; a store through a view at index
  `i` goes to address `str + i`.
* Sources read through a `C4_RESTRICT` pointer do not alias the destination.  The raw bytes
  given to `encode` are the list of the `len` bytes behind `data.data`.  `decode` indexes the
  raw pointer `encoded.str` without consulting `encoded.len`, so its source view carries the
  storage that lies behind the pointer (to the end of the array holding the text) together
  with the length of the view.
* `uint32_t` values are naturals reduced modulo `2 ^ 32` where the source can overflow;
  `char` is a byte `0 .. 255` in memory, read as a signed value where the source does
  arithmetic on it; the host is little-endian (the `reinterpret_cast` in `encode`).
* `C4_CHECK` is always checked; `C4_ASSERT` is checked only when assertions are compiled
  in, which is a parameter of the functions that contain one; `C4_NEVER_REACH` is an error.
-/

namespace c4

/-! ## Memory and views -/

/-- Byte-addressed memory: the byte stored at each address. -/
abbrev Mem := Nat → Nat

/-- Memory after storing byte `c` at address `a`. -/
def Mem.write (m : Mem) (a c : Nat) : Mem := fun j => if j = a then c else m j

/-- The `n` bytes stored from address `a` on. -/
def Mem.slice (m : Mem) (a n : Nat) : List Nat := (List.range n).map fun i => m (a + i)

/-- Memory after storing the bytes `cs` from address `a` on (`memcpy`). -/
def Mem.write_list (m : Mem) (a : Nat) : List Nat → Mem
  | [] => m
  | c :: cs => Mem.write_list (m.write a c) (a + 1) cs

/-- The mutable view `c4::substr`: start address and length. -/
structure substr where
  str : Nat
  len : Nat
deriving DecidableEq, Repr

/-- The view `substr::sub(first)`: from index `first` to the end of the view. -/
def substr.sub (buf : substr) (first : Nat) : substr := ⟨buf.str + first, buf.len - first⟩

/-- The empty view `substr{}` (null pointer, length zero). -/
def substr.empty : substr := ⟨0, 0⟩

/-- The ways in which a call can fail to return. -/
inductive Err where
  | check          -- a `C4_CHECK` failed
  | assert         -- a `C4_ASSERT` failed (assertions compiled in)
  | never_reach    -- `C4_NEVER_REACH()` was reached
  | out_of_bounds  -- a read outside the storage behind a pointer
  | fuel           -- loop fuel exhausted (excluded by the theorem `decode_loop_fuel`)
deriving DecidableEq, Repr

/-! ## base64 -/

namespace detail.base64

/-- The constant `sextet_mask = uint32_t(1 << 6) - 1`. -/
def sextet_mask : Nat := (1 <<< 6) - 1

/-- The table `index_table[64]`. -/
def index_table : List Nat :=
  [ 65, 66, 67, 68, 69, 70, 71, 72,        -- A .. H
    73, 74, 75, 76, 77, 78, 79, 80,        -- I .. P
    81, 82, 83, 84, 85, 86, 87, 88,        -- Q .. X
    89, 90, 97, 98, 99, 100, 101, 102,     -- Y Z a .. f
    103, 104, 105, 106, 107, 108, 109, 110, -- g .. n
    111, 112, 113, 114, 115, 116, 117, 118, -- o .. v
    119, 120, 121, 122, 48, 49, 50, 51,    -- w x y z 0 .. 3
    52, 53, 54, 55, 56, 57, 43, 47 ]       -- 4 .. 9 + /

/-- The padding character `=`. -/
def pad : Nat := 61

/-- The function `table_idx(char c)`.  The byte `c` is compared as the source compares the
`char`: every constant is below 128, so the outcome of each test is the same whether `char`
is signed or not.  The result is the value of the returned expression; `.error never_reach`
is the `C4_NEVER_REACH()` branch. -/
def table_idx (c : Nat) : Except Err Int :=
  if 64 ≤ c ∧ c ≤ 90 then pure ((c : Int) - 65)
  else if 97 ≤ c ∧ c ≤ 122 then pure (26 + ((c : Int) - 97))
  else if 48 ≤ c ∧ c ≤ 57 then pure (52 + ((c : Int) - 48))
  else if c = 43 then pure 62
  else if c = 47 then pure 63
  else throw Err.never_reach

/-- Conversion of an `int` to `uint32_t`. -/
def to_u32 (x : Int) : Nat := (x % 4294967296).toNat

/-- The little-endian `uint32_t` read from the `char[4]` array `{b0, b1, b2, b3}`. -/
def load_u32 (b0 b1 b2 b3 : Nat) : Nat :=
  b0 % 256 + 256 * (b1 % 256) + 65536 * (b2 % 256) + 16777216 * (b3 % 256)

/-- The macro `c4append_(c)` of `encode`: a store guarded by `pos < buf.len`, then `++pos`. -/
def append_ (m : Mem) (buf : substr) (pos c : Nat) : Mem × Nat :=
  (if pos < buf.len then m.write (buf.str + pos) c else m, pos + 1)

/-- The macro `c4append_idx_(char_idx)`: `c4append_(index_table[char_idx])`.  Its assertion
`char_idx < sizeof(index_table)` holds at every use, the index being masked with
`sextet_mask`. -/
def append_idx_ (m : Mem) (buf : substr) (pos char_idx : Nat) : Mem × Nat :=
  append_ m buf pos (index_table.getD char_idx 0)

/-- The body of `encode` from the state `(d, rem, pos)`, the list being the `rem` bytes
`d[0 .. rem)`: the loop over full triplets, then the branches `rem == 2` and `rem == 1`. -/
def encode_from : List Nat → Mem → substr → Nat → Mem × Nat
  | d0 :: d1 :: d2 :: rest, m, buf, pos =>
    let val := load_u32 d2 d1 d0 0
    let (m, pos) := append_idx_ m buf pos ((val >>> (3 * 6)) &&& sextet_mask)
    let (m, pos) := append_idx_ m buf pos ((val >>> (2 * 6)) &&& sextet_mask)
    let (m, pos) := append_idx_ m buf pos ((val >>> (1 * 6)) &&& sextet_mask)
    let (m, pos) := append_idx_ m buf pos (val &&& sextet_mask)
    encode_from rest m buf pos
  | [d0, d1], m, buf, pos =>
    let val := load_u32 0 d1 d0 0
    let (m, pos) := append_idx_ m buf pos ((val >>> (3 * 6)) &&& sextet_mask)
    let (m, pos) := append_idx_ m buf pos ((val >>> (2 * 6)) &&& sextet_mask)
    let (m, pos) := append_idx_ m buf pos ((val >>> (1 * 6)) &&& sextet_mask)
    append_ m buf pos pad
  | [d0], m, buf, pos =>
    let val := load_u32 0 0 d0 0
    let (m, pos) := append_idx_ m buf pos ((val >>> (3 * 6)) &&& sextet_mask)
    let (m, pos) := append_idx_ m buf pos ((val >>> (2 * 6)) &&& sextet_mask)
    let (m, pos) := append_ m buf pos pad
    append_ m buf pos pad
  | [], m, _, pos => (m, pos)

/-- The function `encode(substr buf, const_base64_wrapper data)`: the memory it leaves and
the value it returns. -/
def encode (m : Mem) (buf : substr) (data : List Nat) : Mem × Nat :=
  encode_from data m buf 0

end detail.base64

/-- The read-only view `c4::csubstr` as `decode` uses it: `str` is the storage behind the
pointer, `len` the length of the view (`len ≤ str.length` for a view inside its array). -/
structure csubstr where
  str : List Nat
  len : Nat
deriving DecidableEq, Repr

/-- The destination `base64_wrapper` of `decode`: start address and length. -/
structure base64_wrapper where
  data : Nat
  len : Nat
deriving DecidableEq, Repr

namespace detail.base64

/-- The read `d[k]` with `d == encoded.str + rpos`. -/
def rd (encoded : csubstr) (i : Nat) : Except Err Nat :=
  match encoded.str[i]? with
  | some c => pure c
  | none => throw Err.out_of_bounds

/-- A `C4_ASSERT(cond)`. -/
def c4_assert (asserts : Bool) (cond : Bool) : Except Err Unit :=
  if asserts && !cond then throw Err.assert else pure ()

/-- The macro `c4append_(c)` of `decode`: a store guarded by `wpos < buf.len`, then
`++wpos`. -/
def dappend_ (m : Mem) (buf : base64_wrapper) (wpos c : Nat) : Mem × Nat :=
  (if wpos < buf.len then m.write (buf.data + wpos) c else m, wpos + 1)

/-- The loop of `decode` from the state `(rpos, wpos)`; it returns the memory, `wpos` and
the offset `rpos` of `d` at the exit (a `break` leaves `d` on the padded quartet).
`fuel` bounds the number of iterations. -/
def decode_loop (asserts : Bool) (encoded : csubstr) (buf : base64_wrapper) :
    Nat → Nat → Nat → Mem → Except Err (Mem × Nat × Nat)
  | 0, rpos, wpos, m =>
    if rpos < encoded.len then throw Err.fuel else pure (m, wpos, rpos)
  | fuel + 1, rpos, wpos, m =>
    if rpos < encoded.len then do
      let d2 ← rd encoded (rpos + 2)
      let padded ← (if d2 = pad then pure true else do
        let d3 ← rd encoded (rpos + 3)
        pure (decide (d3 = pad)))
      if padded then do
        c4_assert asserts (decide (rpos + 4 = encoded.len))
        pure (m, wpos, rpos)
      else do
        let val : Nat := 0
        let t3 ← table_idx (← rd encoded (rpos + 3))
        let val := val ||| to_u32 t3
        let t2 ← table_idx (← rd encoded (rpos + 2))
        let val := val ||| to_u32 (t2 * 2 ^ (1 * 6))
        let t1 ← table_idx (← rd encoded (rpos + 1))
        let val := val ||| to_u32 (t1 * 2 ^ (2 * 6))
        let t0 ← table_idx (← rd encoded rpos)
        let val := val ||| to_u32 (t0 * 2 ^ (3 * 6))
        let (m, wpos) := dappend_ m buf wpos ((val >>> (2 * 8)) &&& 255)
        let (m, wpos) := dappend_ m buf wpos ((val >>> (1 * 8)) &&& 255)
        let (m, wpos) := dappend_ m buf wpos (val &&& 255)
        decode_loop asserts encoded buf fuel (rpos + 4) wpos m
    else pure (m, wpos, rpos)

/-- The part of `decode` after the loop, "deal with the last quartet when it is padded",
from the offset `rpos` of `d` and the position `wpos` that the loop left.  In the source
`x << k` on the `int` value of `table_idx` is `x * 2 ^ k`. -/
def decode_padded (asserts : Bool) (encoded : csubstr) (buf : base64_wrapper)
    (rpos wpos : Nat) (m : Mem) : Except Err (Mem × Nat) := do
  let d2 ← rd encoded (rpos + 2)
  if d2 = pad then do
    c4_assert asserts (decide (rpos + 4 = encoded.len))
    if asserts then do
      let d3 ← rd encoded (rpos + 3)
      c4_assert asserts (decide (d3 = pad))
    let val : Nat := 0
    let t1 ← table_idx (← rd encoded (rpos + 1))
    let val := val ||| to_u32 (t1 * 2 ^ (2 * 6))
    let t0 ← table_idx (← rd encoded rpos)
    let val := val ||| to_u32 (t0 * 2 ^ (3 * 6))
    let (m, wpos) := dappend_ m buf wpos ((val >>> (2 * 8)) &&& 255)
    pure (m, wpos)
  else do
    let d3 ← rd encoded (rpos + 3)
    if d3 = pad then do
      c4_assert asserts (decide (rpos + 4 = encoded.len))
      let val : Nat := 0
      let t2 ← table_idx (← rd encoded (rpos + 2))
      let val := val ||| to_u32 (t2 * 2 ^ (1 * 6))
      let t1 ← table_idx (← rd encoded (rpos + 1))
      let val := val ||| to_u32 (t1 * 2 ^ (2 * 6))
      let t0 ← table_idx (← rd encoded rpos)
      let val := val ||| to_u32 (t0 * 2 ^ (3 * 6))
      let (m, wpos) := dappend_ m buf wpos ((val >>> (2 * 8)) &&& 255)
      let (m, wpos) := dappend_ m buf wpos ((val >>> (1 * 8)) &&& 255)
      pure (m, wpos)
    else pure (m, wpos)

/-- The function `decode(csubstr encoded, base64_wrapper buf)`: the memory it leaves and the
value it returns, or the error that stops it: the `C4_CHECK` on the length, the loop over
the quartets, then the padded last quartet. -/
def decode (asserts : Bool) (m : Mem) (encoded : csubstr) (buf : base64_wrapper) :
    Except Err (Mem × Nat) := do
  if encoded.len % 4 ≠ 0 then throw Err.check
  let (m, wpos, rpos) ← decode_loop asserts encoded buf (encoded.len / 4) 0 0 m
  decode_padded asserts encoded buf rpos wpos m

end detail.base64

/-! ## The composition layer -/

/-- What the overload `to_chars(substr buf, a)` selected for an argument `a` does: from the
memory and the view it is given, the memory it leaves and the length it returns.  The
overloads live in `to_chars.hpp`; `cat`, `catsep` and `format` are generic in them. -/
abbrev Ser := Mem → substr → Mem × Nat

/-- Modelled from the spec: the scalar and string overloads of `to_chars` (in
`to_chars.hpp`, not part of `format.hpp`) write as many of the converted characters as fit
in the view and return the full required length.  This is the overload for an argument
whose converted characters are `text`; for a `csubstr` argument they are its characters. -/
def to_chars_text (text : List Nat) : Ser :=
  fun m buf => (m.write_list buf.str (text.take buf.len), text.length)

/-- Modelled from the spec: the decimal characters that the scalar conversion layer (`itoa`,
not part of `format.hpp`) produces for an integer. -/
def itoa_text (v : Int) : List Nat :=
  (if v < 0 then [45] else []) ++ (Nat.toDigits 10 v.natAbs).map Char.toNat

/-- The characters of a string literal. -/
def chars (s : String) : List Nat := s.toList.map Char.toNat

/-- The function `cat(substr buf, Arg const& a, Args const& ...more)` with its terminating
overload `cat(substr)`. -/
def cat (m : Mem) (buf : substr) : List Ser → Mem × Nat
  | [] => (m, 0)
  | a :: more =>
    let (m, num) := a m buf
    let buf := if buf.len ≥ num then buf.sub num else substr.empty
    let (m, rest) := cat m buf more
    (m, num + rest)

/-- The views that `cat` passes to `to_chars`, one for each argument in order (the same
recursion as `cat`, recording `buf` at each call). -/
def cat_views (m : Mem) (buf : substr) : List Ser → List substr
  | [] => []
  | a :: more =>
    let (m, num) := a m buf
    buf :: cat_views m (if buf.len ≥ num then buf.sub num else substr.empty) more

namespace detail

/-- The function `detail::catsep_more(substr buf, Sep const& sep, Arg const& a,
Args const& ...more)` with its terminating overload. -/
def catsep_more (m : Mem) (buf : substr) (sep : Ser) : List Ser → Mem × Nat
  | [] => (m, 0)
  | a :: more =>
    let (m, ret) := sep m buf
    let num := ret
    let buf := if buf.len ≥ ret then buf.sub ret else substr.empty
    let (m, ret) := a m buf
    let num := num + ret
    let buf := if buf.len ≥ ret then buf.sub ret else substr.empty
    let (m, ret) := catsep_more m buf sep more
    (m, num + ret)

end detail

/-- The function `catsep(substr buf, Sep const& sep, Arg const& a, Args const& ...more)`. -/
def catsep (m : Mem) (buf : substr) (sep : Ser) (a : Ser) (more : List Ser) : Mem × Nat :=
  let (m, num) := a m buf
  let buf := if buf.len ≥ num then buf.sub num else substr.empty
  let (m, rest) := detail.catsep_more m buf sep more
  (m, num + rest)

/-- Modelled from the spec: `csubstr::find("{}")` (in `substr.hpp`, not part of
`format.hpp`) gives the index of the first occurrence of the placeholder in the template,
`none` standing for `csubstr::npos`. -/
def find_placeholder : List Nat → Option Nat
  | 123 :: 125 :: _ => some 0
  | _ :: rest => (find_placeholder rest).map (· + 1)
  | [] => none

/-- The function `format(substr buf, csubstr fmt, Arg const& a, Args const& ...more)` with
its terminating overload `format(substr buf, csubstr fmt)`.  The template is the list of
its characters: `fmt.sub(0, pos)` is `fmt.take pos` and `fmt.sub(pos + 2)` is
`fmt.drop (pos + 2)`. -/
def format (m : Mem) (buf : substr) (fmt : List Nat) : List Ser → Mem × Nat
  | [] => to_chars_text fmt m buf
  | a :: more =>
    match find_placeholder fmt with
    | some pos =>
      let (m, num) := to_chars_text (fmt.take pos) m buf
      let out := num
      let buf := if buf.len ≥ num then buf.sub num else substr.empty
      let (m, num) := a m buf
      let out := out + num
      let buf := if buf.len ≥ num then buf.sub num else substr.empty
      let (m, num) := format m buf (fmt.drop (pos + 2)) more
      (m, out + num)
    | none => to_chars_text fmt m buf

/-- The number of placeholders of a template, scanning left to right without overlap. -/
def count_placeholders : List Nat → Nat
  | 123 :: 125 :: rest => count_placeholders rest + 1
  | _ :: rest => count_placeholders rest
  | [] => 0

/-- The template with its placeholders replaced, scanning left to right without overlap, by
the given texts in order; all other characters are kept, and so is every placeholder for
which no text is left. -/
def substitute : List Nat → List (List Nat) → List Nat
  | fmt, [] => fmt
  | 123 :: 125 :: rest, t :: ts => t ++ substitute rest ts
  | c :: rest, t :: ts => c :: substitute rest (t :: ts)
  | [], _ :: _ => []

/-! ## RFC 4648 reference encoding -/

/-- The basic alphabet of RFC 4648: `A`-`Z`, `a`-`z`, `0`-`9`, `+`, `/`. -/
def rfc_alphabet : List Nat :=
  chars "ABCDEFGHIJKLMNOPQRSTUVWXYZabcdefghijklmnopqrstuvwxyz0123456789+/"

/-- The alphabet symbol for the 6-bit slice number `k` (slice 0 is the least significant)
of the 24-bit group `v`. -/
def rfc_symbol (v k : Nat) : Nat := rfc_alphabet.getD (v / 64 ^ k % 64) 0

/-- The RFC 4648 encoding as the specification words it: every full group `b0 b1 b2` gives
the four symbols of the slices of `b0 << 16 | b1 << 8 | b2`, most significant first; two
leftover bytes give three symbols and one `=`; one leftover byte gives two symbols and two
`=`; no leftover byte gives no padding. -/
def rfc4648_encode : List Nat → List Nat
  | b0 :: b1 :: b2 :: rest =>
    let v := b0 * 65536 + b1 * 256 + b2
    rfc_symbol v 3 :: rfc_symbol v 2 :: rfc_symbol v 1 :: rfc_symbol v 0 :: rfc4648_encode rest
  | [b0, b1] =>
    let v := b0 * 65536 + b1 * 256
    [rfc_symbol v 3, rfc_symbol v 2, rfc_symbol v 1, 61]
  | [b0] =>
    let v := b0 * 65536
    [rfc_symbol v 3, rfc_symbol v 2, 61, 61]
  | [] => []

/-! ## Auxiliary definitions for the proofs -/

namespace detail.base64

/-- A run of `c4append_` calls, one for each character of the list. -/
def append_list (m : Mem) (buf : substr) (pos : Nat) : List Nat → Mem × Nat
  | [] => (m, pos)
  | c :: cs => append_list (append_ m buf pos c).1 buf (append_ m buf pos c).2 cs

/-- The characters that `encode` hands to `c4append_`, in order. -/
def encode_syms : List Nat → List Nat
  | d0 :: d1 :: d2 :: rest =>
    let val := load_u32 d2 d1 d0 0
    index_table.getD ((val >>> (3 * 6)) &&& sextet_mask) 0 ::
    index_table.getD ((val >>> (2 * 6)) &&& sextet_mask) 0 ::
    index_table.getD ((val >>> (1 * 6)) &&& sextet_mask) 0 ::
    index_table.getD (val &&& sextet_mask) 0 :: encode_syms rest
  | [d0, d1] =>
    let val := load_u32 0 d1 d0 0
    [index_table.getD ((val >>> (3 * 6)) &&& sextet_mask) 0,
     index_table.getD ((val >>> (2 * 6)) &&& sextet_mask) 0,
     index_table.getD ((val >>> (1 * 6)) &&& sextet_mask) 0, pad]
  | [d0] =>
    let val := load_u32 0 0 d0 0
    [index_table.getD ((val >>> (3 * 6)) &&& sextet_mask) 0,
     index_table.getD ((val >>> (2 * 6)) &&& sextet_mask) 0, pad, pad]
  | [] => []

end detail.base64

/-- The serializer `a` produces the text `t`: into every view that holds `t` it stores `t`
at the start of the view, changes nothing else, and returns the length of `t`. -/
def Ser.has_text (a : Ser) (t : List Nat) : Prop :=
  ∀ (m : Mem) (buf : substr), t.length ≤ buf.len → a m buf = (m.write_list buf.str t, t.length)

/-- The serializer `a` writes only inside the view it receives. -/
def Ser.confined (a : Ser) : Prop :=
  ∀ (m : Mem) (buf : substr) (j : Nat), ¬ (buf.str ≤ j ∧ j < buf.str + buf.len) →
    (a m buf).1 j = m j

/-- The serializer `a` returns the required length `n` whatever view it receives. -/
def Ser.requires (a : Ser) (n : Nat) : Prop :=
  ∀ (m : Mem) (buf : substr), (a m buf).2 = n

namespace detail.base64

/-- A run of the `c4append_` calls of `decode`, one for each byte of the list. -/
def dappend_list (m : Mem) (buf : base64_wrapper) (wpos : Nat) : List Nat → Mem × Nat
  | [] => (m, wpos)
  | c :: cs => dappend_list (dappend_ m buf wpos c).1 buf (dappend_ m buf wpos c).2 cs

/-- The four alphabet symbols of a quartet of 6-bit values. -/
def quartet_syms (q : Nat × Nat × Nat × Nat) : List Nat :=
  [index_table.getD q.1 0, index_table.getD q.2.1 0, index_table.getD q.2.2.1 0,
    index_table.getD q.2.2.2 0]

/-- The text of a list of quartets of 6-bit values. -/
def quartets_text : List (Nat × Nat × Nat × Nat) → List Nat
  | [] => []
  | q :: qs => quartet_syms q ++ quartets_text qs

/-- The four values of a quartet are 6-bit values. -/
def quartet_ok (q : Nat × Nat × Nat × Nat) : Prop :=
  q.1 < 64 ∧ q.2.1 < 64 ∧ q.2.2.1 < 64 ∧ q.2.2.2 < 64

end detail.base64

/-! ## Templates with more placeholders than arguments -/

/-- The start of a template up to and including its `k`-th placeholder (all of it when it
has fewer). -/
def before_placeholders : List Nat → Nat → List Nat
  | _, 0 => []
  | 123 :: 125 :: rest, k + 1 => 123 :: 125 :: before_placeholders rest k
  | c :: rest, k + 1 => c :: before_placeholders rest (k + 1)
  | [], _ + 1 => []

/-- The rest of a template after its `k`-th placeholder. -/
def after_placeholders : List Nat → Nat → List Nat
  | fmt, 0 => fmt
  | 123 :: 125 :: rest, k + 1 => after_placeholders rest k
  | _ :: rest, k + 1 => after_placeholders rest (k + 1)
  | [], _ + 1 => []

/-! ## Binary pass-through -/

/-- The function `to_chars(substr buf, binary_wrapper<T> b)`: `rep` is the raw
representation of `b.val`, the `sizeof(T)` bytes that `memcpy` reads. -/
def to_chars_binary (rep : List Nat) : Ser :=
  fun m buf => (if rep.length ≤ buf.len then m.write_list buf.str rep else m, rep.length)

/-- What the overload `from_chars_first(csubstr buf, &a)` (or `from_chars`) selected for a
target `a` does: from the characters of the view and the value that the target holds, the
value that the target holds afterwards and the result, `none` standing for
`csubstr::npos`.  A read-only view that is used inside its bounds only is the list of its
characters; lengths are naturals. -/
abbrev De (V : Type) := List Nat → V → V × Option Nat

/-- The function `from_chars(csubstr buf, binary_wrapper<T>* b)` for a type of `size`
bytes: the target is the raw representation of `b->val`. -/
def from_chars_binary (size : Nat) : De (List Nat) :=
  fun buf val => if size > buf.length then (val, none) else (buf.take size, some size)

/-! ## The inverse operations -/

/-- The function `uncat(csubstr buf, Arg& a, Args& ...more)` with its terminating overload:
each argument is the overload of `from_chars_first` for the target and the value the
target holds; the result is the values the targets hold afterwards and the returned
length. -/
def uncat {V : Type} (buf : List Nat) : List (De V × V) → List V × Option Nat
  | [] => ([], some 0)
  | (d, a) :: more =>
    let (a, out) := d buf a
    match out with
    | none => (a :: more.map Prod.snd, none)
    | some out =>
      let buf := if buf.length ≥ out then buf.drop out else []
      let (vs, num) := uncat buf more
      match num with
      | none => (a :: vs, none)
      | some num => (a :: vs, some (out + num))

namespace detail

/-- The function `detail::uncatsep_more(csubstr buf, Sep& sep, Arg& a, Args& ...more)` with
its terminating overload: `dsep` is the overload of `from_chars_first` for the separator
and `sep` the value the separator variable holds; the result is the value of the separator
variable, the values of the targets and the returned length. -/
def uncatsep_more {V : Type} (buf : List Nat) (dsep : De V) (sep : V) :
    List (De V × V) → V × List V × Option Nat
  | [] => (sep, [], some 0)
  | (d, a) :: more =>
    let (sep, ret) := dsep buf sep
    match ret with
    | none => (sep, a :: more.map Prod.snd, none)
    | some ret =>
      let num := ret
      let buf := if buf.length ≥ ret then buf.drop ret else []
      let (a, ret) := d buf a
      match ret with
      | none => (sep, a :: more.map Prod.snd, none)
      | some ret =>
        let num := num + ret
        let buf := if buf.length ≥ ret then buf.drop ret else []
        let (sep, vs, ret) := uncatsep_more buf dsep sep more
        match ret with
        | none => (sep, a :: vs, none)
        | some ret => (sep, a :: vs, some (num + ret))

end detail

/-- The function `uncatsep(csubstr buf, Sep& sep, Arg& a, Args& ...more)`: the value of the
separator variable, the value of the first target, the values of the other targets and the
returned length. -/
def uncatsep {V : Type} (buf : List Nat) (dsep : De V) (sep : V) (first : De V × V)
    (more : List (De V × V)) : V × V × List V × Option Nat :=
  let (a, ret) := first.1 buf first.2
  match ret with
  | none => (sep, a, more.map Prod.snd, none)
  | some ret =>
    let num := ret
    let buf := if buf.length ≥ ret then buf.drop ret else []
    let (sep, vs, ret) := detail.uncatsep_more buf dsep sep more
    match ret with
    | none => (sep, a, vs, none)
    | some ret => (sep, a, vs, some (num + ret))

/-- The function `unformat(csubstr buf, csubstr fmt, Arg& a, Args& ...more)` with its
terminating overload `unformat(csubstr buf, csubstr fmt)`, which returns 0. -/
def unformat {V : Type} (buf : List Nat) (fmt : List Nat) :
    List (De V × V) → List V × Option Nat
  | [] => ([], some 0)
  | (d, a) :: more =>
    match find_placeholder fmt with
    | some pos =>
      let num := pos
      let out := num
      let buf := if buf.length ≥ num then buf.drop num else []
      let (a, num) := d buf a
      match num with
      | none => (a :: more.map Prod.snd, none)
      | some num =>
        let out := out + num
        let buf := if buf.length ≥ num then buf.drop num else []
        let (vs, num) := unformat buf (fmt.drop (pos + 2)) more
        match num with
        | none => (a :: vs, none)
        | some num => (a :: vs, some (out + num))
    | none => (a :: more.map Prod.snd, some 0)

/-- Modelled from the spec: the overload of `from_chars_first` for a decimal integer target
(in `to_chars.hpp`, not part of `format.hpp`) gives the value and the number of characters
consumed, or the failure sentinel if the content of the view does not parse as a scalar.
Here: an optional `-`, then the longest run of decimal digits, of which there must be one;
on failure the target keeps its value. -/
def from_chars_int : De Int :=
  fun buf v =>
    let neg : Bool := buf.head? = some 45
    let body := if neg then buf.tail else buf
    let digits := body.takeWhile fun c => decide (48 ≤ c ∧ c ≤ 57)
    if digits = [] then (v, none)
    else
      let n : Nat := digits.foldl (fun acc c => 10 * acc + (c - 48)) 0
      (if neg then -(n : Int) else (n : Int), some (digits.length + if neg then 1 else 0))

/-- Each deserializer stops at the end of its own text: for arguments given by their text,
the deserializer of their target, the value the target holds and the value of the argument,
every deserializer applied to the concatenated texts from its own text on gives the value
of the argument and consumes exactly the length of its text. -/
def reads_back {V : Type} : List (List Nat × De V × V × V) → Prop
  | [] => True
  | (t, d, a, v) :: more =>
    d (t ++ (more.map fun p => p.1).flatten) a = (v, some t.length) ∧ reads_back more

/-- The same for the text that `format` writes with a template: every argument has a
placeholder, and its deserializer, applied to the written text from its own text on, gives
the value of the argument and consumes exactly the length of its text. -/
def reads_back_format {V : Type} : List Nat → List (List Nat × De V × V × V) → Prop
  | _, [] => True
  | fmt, (t, d, a, v) :: more =>
    match find_placeholder fmt with
    | some pos =>
      d (t ++ substitute (fmt.drop (pos + 2)) (more.map fun p => p.1)) a = (v, some t.length) ∧
        reads_back_format (fmt.drop (pos + 2)) more
    | none => False

/-! ## The resizing adapters -/

/-- The serializer `a` is well behaved for the text `t`: it stores `t` in a view that holds
it, returns the length of `t` whatever the view, and writes only inside the view. -/
def Ser.well_behaved (a : Ser) (t : List Nat) : Prop :=
  a.has_text t ∧ a.requires t.length ∧ a.confined

/-- Modelled from the spec: the growable container (not part of `format.hpp`) exposes its
current size, `resize` and a view of its backing memory.  A container is the list of its
characters; this is the memory seen through `to_substr(*cont)`, whose view starts at
address 0 and has the length of the list. -/
def container_mem (cont : List Nat) : Mem := fun i => cont.getD i 0

/-- Modelled from the spec: `cont->resize(n)` keeps the first `n` characters and, when the
container grows, adds characters of value `fill`. -/
def resize (fill : Nat) (cont : List Nat) (n : Nat) : List Nat :=
  cont.take n ++ List.replicate (n - cont.length) fill

/-- The body shared by `catrs`, `catseprs` and `formatrs` in overwrite mode, `op` being the
call `cat(buf, args...)`, `catsep(buf, sep, args...)` or `format(buf, fmt, args...)`: the
characters of the container after the call. -/
def rs_overwrite (fill : Nat) (op : Mem → substr → Mem × Nat) (cont : List Nat) : List Nat :=
  let buf : substr := ⟨0, cont.length⟩
  let (m, ret) := op (container_mem cont) buf
  let cont := resize fill (m.slice 0 cont.length) ret
  if ret > buf.len then
    let buf : substr := ⟨0, cont.length⟩
    let (m, ret) := op (container_mem cont) buf
    let cont := m.slice 0 cont.length
    if ret ≠ buf.len then resize fill cont ret else cont
  else cont

/-- The body shared by `catrs`, `catseprs` and `formatrs` in append mode: the characters of
the container after the call and the returned view
`to_csubstr(*cont).range(pos, cont->size())`, as its start and its length. -/
def rs_append (fill : Nat) (op : Mem → substr → Mem × Nat) (cont : List Nat) :
    List Nat × substr :=
  let pos := cont.length
  let buf : substr := (⟨0, cont.length⟩ : substr).sub pos
  let (m, ret) := op (container_mem cont) buf
  let cont := resize fill (m.slice 0 cont.length) (pos + ret)
  let cont :=
    if ret > buf.len then
      let buf : substr := (⟨0, cont.length⟩ : substr).sub pos
      let (m, ret) := op (container_mem cont) buf
      let cont := m.slice 0 cont.length
      if ret ≠ buf.len then resize fill cont (pos + ret) else cont
    else cont
  (cont, ⟨pos, cont.length - pos⟩)

/-- The function `catrs(CharOwningContainer* cont, Args const& ...args)`. -/
def catrs (fill : Nat) (cont : List Nat) (args : List Ser) : List Nat :=
  rs_overwrite fill (fun m buf => cat m buf args) cont

/-- The function `catrs(append_t, CharOwningContainer* cont, Args const& ...args)`. -/
def catrs_append (fill : Nat) (cont : List Nat) (args : List Ser) : List Nat × substr :=
  rs_append fill (fun m buf => cat m buf args) cont

/-- The function `catseprs(CharOwningContainer* cont, Sep const& sep, Args const& ...args)`;
`catsep` takes at least one argument. -/
def catseprs (fill : Nat) (cont : List Nat) (sep : Ser) (a : Ser) (more : List Ser) :
    List Nat :=
  rs_overwrite fill (fun m buf => catsep m buf sep a more) cont

/-- The function `catseprs(append_t, CharOwningContainer* cont, Sep const& sep,
Args const& ...args)`. -/
def catseprs_append (fill : Nat) (cont : List Nat) (sep : Ser) (a : Ser) (more : List Ser) :
    List Nat × substr :=
  rs_append fill (fun m buf => catsep m buf sep a more) cont

/-- The function `formatrs(CharOwningContainer* cont, csubstr fmt, Args const& ...args)`. -/
def formatrs (fill : Nat) (cont : List Nat) (fmt : List Nat) (args : List Ser) : List Nat :=
  rs_overwrite fill (fun m buf => format m buf fmt args) cont

/-- The function `formatrs(append_t, CharOwningContainer* cont, csubstr fmt,
Args const& ...args)`. -/
def formatrs_append (fill : Nat) (cont : List Nat) (fmt : List Nat) (args : List Ser) :
    List Nat × substr :=
  rs_append fill (fun m buf => format m buf fmt args) cont

/-- The function `from_chars(csubstr buf, base64_wrapper* b)`: it returns
`detail::base64::decode(buf, *b)`. -/
def from_chars_base64 (asserts : Bool) (m : Mem) (buf : csubstr) (b : base64_wrapper) :
    Except Err (Mem × Nat) :=
  detail.base64.decode asserts m buf b

/-! ## The variants that return a view -/

/-- The function `cat_sub(substr buf, Args&& ...args)`: the memory that `cat` leaves and the
view `{buf.str, sz <= buf.len ? sz : buf.len}` that it returns. -/
def cat_sub (m : Mem) (buf : substr) (args : List Ser) : Mem × substr :=
  let (m, sz) := cat m buf args
  (m, ⟨buf.str, if sz ≤ buf.len then sz else buf.len⟩)

/-- The function `catsep_sub(substr buf, Args&& ...args)`, whose arguments are those of
`catsep`: the separator and at least one argument. -/
def catsep_sub (m : Mem) (buf : substr) (sep : Ser) (a : Ser) (more : List Ser) :
    Mem × substr :=
  let (m, sz) := catsep m buf sep a more
  (m, ⟨buf.str, if sz ≤ buf.len then sz else buf.len⟩)

/-- The function `format_sub(substr buf, Args&& ...args)`, whose arguments are those of
`format`: the template and the arguments. -/
def format_sub (m : Mem) (buf : substr) (fmt : List Nat) (args : List Ser) : Mem × substr :=
  let (m, sz) := format m buf fmt args
  (m, ⟨buf.str, if sz ≤ buf.len then sz else buf.len⟩)

/-! ## Placeholder positions and the calls of the adapters -/

/-- The positions of the placeholders of a template, scanning left to right without
overlap; `i` is the position in the template of the first character of the list. -/
def placeholder_positions : List Nat → Nat → List Nat
  | 123 :: 125 :: rest, i => i :: placeholder_positions rest (i + 2)
  | _ :: rest, i => placeholder_positions rest (i + 1)
  | [], _ => []

/-- The body of the overwrite adapters with its calls recorded: the characters of the
container after the call, the number of calls of `op`, and the sizes given to
`cont->resize`, in order. -/
def rs_overwrite_trace (fill : Nat) (op : Mem → substr → Mem × Nat) (cont : List Nat) :
    List Nat × Nat × List Nat :=
  let buf : substr := ⟨0, cont.length⟩
  let (m, ret) := op (container_mem cont) buf
  let first := ret
  let cont := resize fill (m.slice 0 cont.length) ret
  if ret > buf.len then
    let buf : substr := ⟨0, cont.length⟩
    let (m, ret) := op (container_mem cont) buf
    let cont := m.slice 0 cont.length
    if ret ≠ buf.len then (resize fill cont ret, 2, [first, ret]) else (cont, 2, [first])
  else (cont, 1, [first])

/-- The body of the append adapters with its calls recorded: the result of the call, the
number of calls of `op`, and the sizes given to `cont->resize`, in order. -/
def rs_append_trace (fill : Nat) (op : Mem → substr → Mem × Nat) (cont : List Nat) :
    (List Nat × substr) × Nat × List Nat :=
  let pos := cont.length
  let buf : substr := (⟨0, cont.length⟩ : substr).sub pos
  let (m, ret) := op (container_mem cont) buf
  let first := pos + ret
  let cont := resize fill (m.slice 0 cont.length) (pos + ret)
  if ret > buf.len then
    let buf : substr := (⟨0, cont.length⟩ : substr).sub pos
    let (m, ret) := op (container_mem cont) buf
    let cont := m.slice 0 cont.length
    if ret ≠ buf.len then
      let cont := resize fill cont (pos + ret)
      ((cont, ⟨pos, cont.length - pos⟩), 2, [first, pos + ret])
    else ((cont, ⟨pos, cont.length - pos⟩), 2, [first])
  else ((cont, ⟨pos, cont.length - pos⟩), 1, [first])

/-! ## The calls of `cat` and the accesses of `decode` -/

/-- The calls `to_chars(buf, a)` of a run of `cat`, given as the list of the arguments with
the view each one is called on: the memory after the last call and the sum of the returned
lengths. -/
def cat_calls (m : Mem) : List (Ser × substr) → Mem × Nat
  | [] => (m, 0)
  | (a, view) :: more =>
    let (m, num) := a m view
    let (m, rest) := cat_calls m more
    (m, num + rest)

namespace detail.base64

/-- An access of `decode` to the arrays it is given: the read of the character `d[k]` at
an offset of the text, or the store `buf.data[wpos] = c` at an address of the
destination. -/
inductive Access where
  | read (offset : Nat)
  | store (addr c : Nat)
deriving DecidableEq, Repr

/-- A part of the body of `decode` with the accesses it makes, in order, until it returns
or stops at an error. -/
structure Traced (α : Type) where
  log : List Access
  res : Except Err α

/-- A part that accesses neither array: `table_idx`, `C4_CHECK`, `C4_ASSERT`. -/
def Traced.lift {α : Type} (x : Except Err α) : Traced α := ⟨[], x⟩

instance : Monad Traced where
  pure a := ⟨[], .ok a⟩
  bind x f :=
    match x.res with
    | .error e => ⟨x.log, .error e⟩
    | .ok a => ⟨x.log ++ (f a).log, (f a).res⟩

/-- The read `d[k]`, recorded. -/
def rd_traced (encoded : csubstr) (i : Nat) : Traced Nat := ⟨[Access.read i], rd encoded i⟩

/-- The macro `c4append_(c)` of `decode`, its store recorded when the guard lets it
happen. -/
def dappend_traced (m : Mem) (buf : base64_wrapper) (wpos c : Nat) : Traced (Mem × Nat) :=
  ⟨if wpos < buf.len then [Access.store (buf.data + wpos) c] else [],
    .ok (dappend_ m buf wpos c)⟩

/-- The loop of `decode` with its accesses recorded. -/
def decode_loop_traced (asserts : Bool) (encoded : csubstr) (buf : base64_wrapper) :
    Nat → Nat → Nat → Mem → Traced (Mem × Nat × Nat)
  | 0, rpos, wpos, m =>
    if rpos < encoded.len then Traced.lift (throw Err.fuel) else pure (m, wpos, rpos)
  | fuel + 1, rpos, wpos, m =>
    if rpos < encoded.len then do
      let d2 ← rd_traced encoded (rpos + 2)
      let padded ← (if d2 = pad then pure true else do
        let d3 ← rd_traced encoded (rpos + 3)
        pure (decide (d3 = pad)))
      if padded then do
        Traced.lift (c4_assert asserts (decide (rpos + 4 = encoded.len)))
        pure (m, wpos, rpos)
      else do
        let val : Nat := 0
        let t3 ← Traced.lift (table_idx (← rd_traced encoded (rpos + 3)))
        let val := val ||| to_u32 t3
        let t2 ← Traced.lift (table_idx (← rd_traced encoded (rpos + 2)))
        let val := val ||| to_u32 (t2 * 2 ^ (1 * 6))
        let t1 ← Traced.lift (table_idx (← rd_traced encoded (rpos + 1)))
        let val := val ||| to_u32 (t1 * 2 ^ (2 * 6))
        let t0 ← Traced.lift (table_idx (← rd_traced encoded rpos))
        let val := val ||| to_u32 (t0 * 2 ^ (3 * 6))
        let (m, wpos) ← dappend_traced m buf wpos ((val >>> (2 * 8)) &&& 255)
        let (m, wpos) ← dappend_traced m buf wpos ((val >>> (1 * 8)) &&& 255)
        let (m, wpos) ← dappend_traced m buf wpos (val &&& 255)
        decode_loop_traced asserts encoded buf fuel (rpos + 4) wpos m
    else pure (m, wpos, rpos)

/-- The part of `decode` after the loop with its accesses recorded. -/
def decode_padded_traced (asserts : Bool) (encoded : csubstr) (buf : base64_wrapper)
    (rpos wpos : Nat) (m : Mem) : Traced (Mem × Nat) := do
  let d2 ← rd_traced encoded (rpos + 2)
  if d2 = pad then do
    Traced.lift (c4_assert asserts (decide (rpos + 4 = encoded.len)))
    if asserts then do
      let d3 ← rd_traced encoded (rpos + 3)
      Traced.lift (c4_assert asserts (decide (d3 = pad)))
    let val : Nat := 0
    let t1 ← Traced.lift (table_idx (← rd_traced encoded (rpos + 1)))
    let val := val ||| to_u32 (t1 * 2 ^ (2 * 6))
    let t0 ← Traced.lift (table_idx (← rd_traced encoded rpos))
    let val := val ||| to_u32 (t0 * 2 ^ (3 * 6))
    let (m, wpos) ← dappend_traced m buf wpos ((val >>> (2 * 8)) &&& 255)
    pure (m, wpos)
  else do
    let d3 ← rd_traced encoded (rpos + 3)
    if d3 = pad then do
      Traced.lift (c4_assert asserts (decide (rpos + 4 = encoded.len)))
      let val : Nat := 0
      let t2 ← Traced.lift (table_idx (← rd_traced encoded (rpos + 2)))
      let val := val ||| to_u32 (t2 * 2 ^ (1 * 6))
      let t1 ← Traced.lift (table_idx (← rd_traced encoded (rpos + 1)))
      let val := val ||| to_u32 (t1 * 2 ^ (2 * 6))
      let t0 ← Traced.lift (table_idx (← rd_traced encoded rpos))
      let val := val ||| to_u32 (t0 * 2 ^ (3 * 6))
      let (m, wpos) ← dappend_traced m buf wpos ((val >>> (2 * 8)) &&& 255)
      let (m, wpos) ← dappend_traced m buf wpos ((val >>> (1 * 8)) &&& 255)
      pure (m, wpos)
    else pure (m, wpos)

/-- The function `decode` with its accesses recorded: the `C4_CHECK` on the length, the
loop over the quartets, then the padded last quartet. -/
def decode_traced (asserts : Bool) (m : Mem) (encoded : csubstr) (buf : base64_wrapper) :
    Traced (Mem × Nat) := do
  if encoded.len % 4 ≠ 0 then Traced.lift (throw Err.check)
  let (m, wpos, rpos) ← decode_loop_traced asserts encoded buf (encoded.len / 4) 0 0 m
  decode_padded_traced asserts encoded buf rpos wpos m

/-- The memory after the stores of a list of accesses, in order. -/
def replay (m : Mem) : List Access → Mem
  | [] => m
  | Access.read _ :: rest => replay m rest
  | Access.store addr c :: rest => replay (m.write addr c) rest

/-- The stores recorded by a part of `decode` that starts in the memory `m` are the whole
change of the memory: when the part returns `r`, replaying them on `m` gives the memory
`g r` that it returns. -/
structure Traced.stores_to {α : Type} (m : Mem) (x : Traced α) (g : α → Mem) : Prop where
  replayed : ∀ r, x.res = .ok r → replay m x.log = g r

end detail.base64

end c4

/-! # Theorems -/

namespace c4

/-! ## Memory lemmas -/

theorem Mem.write_list_outside (l : List Nat) (m : Mem) (a j : Nat)
    (h : j < a ∨ a + l.length ≤ j) : m.write_list a l j = m j := by
  induction l generalizing m a with
  | nil => rfl
  | cons c cs ih =>
    simp only [Mem.write_list, List.length_cons] at h ⊢
    rw [ih _ _ (by omega)]
    simp only [Mem.write]
    rw [if_neg (by omega)]

theorem Mem.write_list_inside (l : List Nat) (m : Mem) (a i : Nat) (h : i < l.length) :
    m.write_list a l (a + i) = l.getD i 0 := by
  induction l generalizing m a i with
  | nil => simp at h
  | cons c cs ih =>
    simp only [Mem.write_list]
    cases i with
    | zero =>
      rw [Mem.write_list_outside _ _ _ _ (by omega)]
      simp [Mem.write]
    | succ k =>
      have := ih (m.write a c) (a + 1) k (by simpa using h)
      rw [show a + (k + 1) = a + 1 + k by omega, this]
      simp

theorem Mem.write_list_append (l₁ l₂ : List Nat) (m : Mem) (a : Nat) :
    m.write_list a (l₁ ++ l₂) = (m.write_list a l₁).write_list (a + l₁.length) l₂ := by
  induction l₁ generalizing m a with
  | nil => simp [Mem.write_list]
  | cons c cs ih =>
    simp only [List.cons_append, Mem.write_list, List.length_cons]
    show (m.write a c).write_list (a + 1) (cs ++ l₂) = _
    rw [ih, show a + 1 + cs.length = a + (cs.length + 1) by omega]

theorem Mem.slice_write_list (l : List Nat) (m : Mem) (a : Nat) :
    (m.write_list a l).slice a l.length = l := by
  apply List.ext_getElem
  · simp [Mem.slice]
  · intro i h₁ h₂
    simp only [Mem.slice, List.getElem_map, List.getElem_range]
    rw [Mem.write_list_inside _ _ _ _ h₂]
    simp [List.getD_eq_getElem?_getD, h₂]

theorem Mem.slice_length (m : Mem) (a n : Nat) : (m.slice a n).length = n := by
  simp [Mem.slice]

namespace detail.base64

/-! ## base64 `encode` -/

theorem append_list_snd (l : List Nat) (m : Mem) (buf : substr) (pos : Nat) :
    (append_list m buf pos l).2 = pos + l.length := by
  induction l generalizing m pos with
  | nil => rfl
  | cons c cs ih =>
    simp only [append_list, ih, append_, List.length_cons]
    omega

theorem append_list_fst (l : List Nat) (m : Mem) (buf : substr) (pos : Nat) :
    (append_list m buf pos l).1 = m.write_list (buf.str + pos) (l.take (buf.len - pos)) := by
  induction l generalizing m pos with
  | nil => simp [append_list, Mem.write_list]
  | cons c cs ih =>
    simp only [append_list, ih, append_]
    by_cases h : pos < buf.len
    · rw [if_pos h]
      obtain ⟨k, hk⟩ : ∃ k, buf.len - pos = k + 1 := ⟨buf.len - pos - 1, by omega⟩
      rw [hk, List.take_succ_cons, Mem.write_list]
      rw [show buf.len - (pos + 1) = k by omega, show buf.str + (pos + 1) = buf.str + pos + 1 by omega]
    · rw [if_neg h]
      rw [show buf.len - (pos + 1) = 0 by omega, show buf.len - pos = 0 by omega]
      simp [Mem.write_list]

theorem encode_from_eq : ∀ (data : List Nat) (m : Mem) (buf : substr) (pos : Nat),
    encode_from data m buf pos = append_list m buf pos (encode_syms data)
  | d0 :: d1 :: d2 :: rest, m, buf, pos => by
    simp only [encode_from, encode_syms, append_list, append_idx_]
    exact encode_from_eq rest _ _ _
  | [d0, d1], m, buf, pos => by
    simp only [encode_from, encode_syms, append_list, append_idx_]
  | [d0], m, buf, pos => by
    simp only [encode_from, encode_syms, append_list, append_idx_]
  | [], m, buf, pos => by
    simp only [encode_from, encode_syms, append_list]

theorem encode_syms_length : ∀ data : List Nat,
    (encode_syms data).length = 4 * ((data.length + 2) / 3)
  | d0 :: d1 :: d2 :: rest => by
    simp only [encode_syms, List.length_cons, encode_syms_length rest]
    omega
  | [d0, d1] => by simp [encode_syms]
  | [d0] => by simp [encode_syms]
  | [] => by simp [encode_syms]

theorem encode_fst (m : Mem) (buf : substr) (data : List Nat) :
    (encode m buf data).1 = m.write_list buf.str ((encode_syms data).take buf.len) := by
  rw [encode, encode_from_eq, append_list_fst]
  simp

theorem encode_snd (m : Mem) (buf : substr) (data : List Nat) :
    (encode m buf data).2 = 4 * ((data.length + 2) / 3) := by
  rw [encode, encode_from_eq, append_list_snd, encode_syms_length]
  omega

theorem index_table_eq : index_table = rfc_alphabet := by decide

theorem and_sextet_mask (x : Nat) : x &&& sextet_mask = x % 64 :=
  Nat.and_pow_two_sub_one_eq_mod x 6

theorem and_255 (x : Nat) : x &&& 255 = x % 256 :=
  Nat.and_pow_two_sub_one_eq_mod x 8

theorem encode_syms_eq_rfc : ∀ data : List Nat, (∀ b ∈ data, b < 256) →
    encode_syms data = rfc4648_encode data
  | d0 :: d1 :: d2 :: rest, h => by
    have h0 : d0 < 256 := h d0 (by simp)
    have h1 : d1 < 256 := h d1 (by simp)
    have h2 : d2 < 256 := h d2 (by simp)
    have ih := encode_syms_eq_rfc rest (fun b hb => h b (by simp [hb]))
    simp only [encode_syms, rfc4648_encode, rfc_symbol, ih, load_u32, index_table_eq,
      and_sextet_mask, Nat.shiftRight_eq_div_pow, Nat.mod_eq_of_lt h0, Nat.mod_eq_of_lt h1,
      Nat.mod_eq_of_lt h2]
    refine congrArg₂ _ (congrArg₂ _ (by omega) rfl) (congrArg₂ _ (congrArg₂ _ (by omega) rfl)
      (congrArg₂ _ (congrArg₂ _ (by omega) rfl) (congrArg₂ _ (congrArg₂ _ (by omega) rfl) rfl)))
  | [d0, d1], h => by
    have h0 : d0 < 256 := h d0 (by simp)
    have h1 : d1 < 256 := h d1 (by simp)
    simp only [encode_syms, rfc4648_encode, rfc_symbol, load_u32, index_table_eq,
      and_sextet_mask, Nat.shiftRight_eq_div_pow, Nat.mod_eq_of_lt h0, Nat.mod_eq_of_lt h1, pad]
    refine congrArg₂ _ (congrArg₂ _ (by omega) rfl) (congrArg₂ _ (congrArg₂ _ (by omega) rfl)
      (congrArg₂ _ (congrArg₂ _ (by omega) rfl) rfl))
  | [d0], h => by
    have h0 : d0 < 256 := h d0 (by simp)
    simp only [encode_syms, rfc4648_encode, rfc_symbol, load_u32, index_table_eq,
      and_sextet_mask, Nat.shiftRight_eq_div_pow, Nat.mod_eq_of_lt h0, pad]
    refine congrArg₂ _ (congrArg₂ _ (by omega) rfl) (congrArg₂ _ (congrArg₂ _ (by omega) rfl) rfl)
  | [], _ => by simp [encode_syms, rfc4648_encode]

theorem ceil_third (n : Nat) : ⌈(n : ℚ) / 3⌉₊ = (n + 2) / 3 := by
  apply le_antisymm
  · rw [Nat.ceil_le, div_le_iff₀ (by norm_num)]
    have h : n ≤ (n + 2) / 3 * 3 := by omega
    exact_mod_cast h
  · by_contra hlt
    push_neg at hlt
    have h1 : ⌈(n : ℚ) / 3⌉₊ + 1 ≤ (n + 2) / 3 := hlt
    have h2 : (n : ℚ) / 3 ≤ ⌈(n : ℚ) / 3⌉₊ := Nat.le_ceil _
    rw [div_le_iff₀ (by norm_num)] at h2
    have h3 : n ≤ ⌈(n : ℚ) / 3⌉₊ * 3 := by exact_mod_cast h2
    omega

/-- C2: for every input of `n` raw bytes, every memory and every destination view (of any
length, zero included), `encode` returns `4 * ceil(n / 3)`; the value is the same for any
two destinations. -/
theorem encode_returns_required_length (data : List Nat) :
    (∀ (m : Mem) (buf : substr), (encode m buf data).2 = 4 * ⌈(data.length : ℚ) / 3⌉₊) ∧
    (∀ (m m' : Mem) (buf buf' : substr), (encode m buf data).2 = (encode m' buf' data).2) := by
  constructor
  · intro m buf
    rw [encode_snd, ceil_third]
  · intro m m' buf buf'
    rw [encode_snd, encode_snd]

/-- C3: for every byte sequence and every destination view that holds the required
`4 * ceil(n / 3)` characters, `encode` leaves in the view the RFC 4648 encoding of the
bytes: four alphabet symbols for each full group, three symbols and one `=` for two
leftover bytes, two symbols and two `=` for one leftover byte. -/
theorem encode_is_rfc4648 (m : Mem) (buf : substr) (data : List Nat)
    (hbytes : ∀ b ∈ data, b < 256) (hsuff : 4 * ((data.length + 2) / 3) ≤ buf.len) :
    (encode m buf data).1.slice buf.str (4 * ((data.length + 2) / 3)) = rfc4648_encode data := by
  have hlen := encode_syms_length data
  rw [encode_fst, List.take_of_length_le (by omega), ← hlen, Mem.slice_write_list,
    encode_syms_eq_rfc data hbytes]

/-- The examples of C3: `Man` gives `TWFu`, `Ma` gives `TWE=`, `M` gives `TQ==`. -/
theorem encode_is_rfc4648_witness :
    ((∀ b ∈ chars "Man", b < 256) ∧ 4 * (((chars "Man").length + 2) / 3) ≤ 4 ∧
      (encode (fun _ => 0) ⟨0, 4⟩ (chars "Man")).1.slice 0 4 = chars "TWFu") ∧
    ((∀ b ∈ chars "Ma", b < 256) ∧ 4 * (((chars "Ma").length + 2) / 3) ≤ 6 ∧
      (encode (fun _ => 0) ⟨10, 6⟩ (chars "Ma")).1.slice 10 4 = chars "TWE=") ∧
    ((∀ b ∈ chars "M", b < 256) ∧ 4 * (((chars "M").length + 2) / 3) ≤ 4 ∧
      (encode (fun _ => 0) ⟨0, 4⟩ (chars "M")).1.slice 0 4 = chars "TQ==") :=
  ⟨⟨by decide, by decide,
      (encode_is_rfc4648 (fun _ => 0) ⟨0, 4⟩ (chars "Man") (by decide) (by decide)).trans
        (by decide)⟩,
   ⟨by decide, by decide,
      (encode_is_rfc4648 (fun _ => 0) ⟨10, 6⟩ (chars "Ma") (by decide) (by decide)).trans
        (by decide)⟩,
   ⟨by decide, by decide,
      (encode_is_rfc4648 (fun _ => 0) ⟨0, 4⟩ (chars "M") (by decide) (by decide)).trans
        (by decide)⟩⟩

/-- C4: for every input and every destination view of length `L`, `encode` changes no
address outside the `L` positions of the view, and the first `min L required` positions of
the view hold what the same positions hold after encoding into any view that is long
enough: the truncated output is the start of the full output. -/
theorem encode_truncates_inside_view (m : Mem) (buf : substr) (data : List Nat) :
    (∀ j, ¬ (buf.str ≤ j ∧ j < buf.str + buf.len) → (encode m buf data).1 j = m j) ∧
    (∀ (m' : Mem) (big : substr) (i : Nat), (encode m' big data).2 ≤ big.len →
      i < min buf.len (encode m buf data).2 →
      (encode m buf data).1 (buf.str + i) = (encode m' big data).1 (big.str + i)) := by
  constructor
  · intro j hj
    rw [encode_fst]
    apply Mem.write_list_outside
    rw [List.length_take]
    omega
  · intro m' big i hbig hi
    rw [encode_snd] at hbig hi
    have hlen := encode_syms_length data
    rw [encode_fst, encode_fst, Mem.write_list_inside _ _ _ _ (by rw [List.length_take]; omega),
      Mem.write_list_inside _ _ _ _ (by rw [List.length_take]; omega)]
    simp only [List.getD_eq_getElem?_getD]
    rw [List.getElem?_take_of_lt (by omega), List.getElem?_take_of_lt (by omega)]

/-- A view of two characters receives `TW`, the start of `TWFu`, and the characters after
the view keep their value. -/
theorem encode_truncates_inside_view_witness :
    (encode (fun _ => 0) ⟨0, 4⟩ (chars "Man")).2 ≤ 4 ∧
    0 < min 2 (encode (fun _ => 7) ⟨20, 2⟩ (chars "Man")).2 ∧
    (encode (fun _ => 7) ⟨20, 2⟩ (chars "Man")).1 (20 + 0)
      = (encode (fun _ => 0) ⟨0, 4⟩ (chars "Man")).1 (0 + 0) ∧
    (encode (fun _ => 7) ⟨20, 2⟩ (chars "Man")).1.slice 20 4 = [84, 87, 7, 7] :=
  ⟨by decide, by decide,
    (encode_truncates_inside_view (fun _ => 7) ⟨20, 2⟩ (chars "Man")).2 (fun _ => 0) ⟨0, 4⟩ 0
      (by decide) (by decide),
    by decide⟩

end detail.base64

/-! ## The composition layer -/

theorem to_chars_text_has_text (t : List Nat) : (to_chars_text t).has_text t := by
  intro m buf h
  simp only [to_chars_text, List.take_of_length_le h]

theorem to_chars_text_confined (t : List Nat) : (to_chars_text t).confined := by
  intro m buf j hj
  simp only [to_chars_text]
  apply Mem.write_list_outside
  rw [List.length_take]
  omega

theorem to_chars_text_requires (t : List Nat) : (to_chars_text t).requires t.length := by
  intro m buf
  rfl

theorem cat_eq_write (args : List (Ser × List Nat)) :
    ∀ (m : Mem) (buf : substr), (∀ p ∈ args, p.1.has_text p.2) →
      (args.map fun p => p.2.length).sum ≤ buf.len →
      cat m buf (args.map fun p => p.1)
        = (m.write_list buf.str (args.map fun p => p.2).flatten,
            (args.map fun p => p.2.length).sum) := by
  induction args with
  | nil => intro m buf _ _; rfl
  | cons p ps ih =>
    intro m buf h hsuff
    simp only [List.map_cons, List.sum_cons] at hsuff
    have hp := h p (by simp) m buf (by omega)
    have hps : ∀ q ∈ ps, q.1.has_text q.2 := fun q hq => h q (by simp [hq])
    simp only [List.map_cons, cat, hp, List.flatten_cons, List.sum_cons]
    rw [if_pos (by omega)]
    have := ih (m.write_list buf.str p.2) (buf.sub p.2.length) hps (by simp only [substr.sub]; omega)
    rw [this]
    simp only [substr.sub, Mem.write_list_append]

/-- C6: for every list of arguments, each with its text, and every destination view at
least as long as the sum of the lengths of the texts, `cat` stores the texts one after
another in argument order, with nothing between them, from the start of the view, changes
nothing else, and returns that sum; with no argument it returns 0. -/
theorem cat_concatenates (m : Mem) (buf : substr) (args : List (Ser × List Nat))
    (htext : ∀ p ∈ args, p.1.has_text p.2)
    (hsuff : (args.map fun p => p.2.length).sum ≤ buf.len) :
    cat m buf (args.map fun p => p.1)
      = (m.write_list buf.str (args.map fun p => p.2).flatten,
          (args.map fun p => p.2.length).sum) :=
  cat_eq_write args m buf htext hsuff

/-- The example of C6: `cat(buf, "a", 1, "b")` leaves `a1b` at the start of `buf` and
returns 3; `cat(buf)` returns 0. -/
theorem cat_concatenates_witness :
    (∀ p ∈ [(to_chars_text (chars "a"), chars "a"), (to_chars_text (itoa_text 1), itoa_text 1),
        (to_chars_text (chars "b"), chars "b")], p.1.has_text p.2) ∧
    ([(to_chars_text (chars "a"), chars "a"), (to_chars_text (itoa_text 1), itoa_text 1),
        (to_chars_text (chars "b"), chars "b")].map fun p => p.2.length).sum ≤ 8 ∧
    cat (fun _ => 0) ⟨0, 8⟩
        [to_chars_text (chars "a"), to_chars_text (itoa_text 1), to_chars_text (chars "b")]
      = (Mem.write_list (fun _ => 0) 0 (chars "a1b"), 3) ∧
    (cat (fun _ => 0) ⟨0, 8⟩ []).2 = 0 :=
  ⟨by
      intro p hp
      simp only [List.mem_cons, List.mem_singleton, List.not_mem_nil, or_false] at hp
      rcases hp with rfl | rfl | rfl <;> exact to_chars_text_has_text _,
    by decide,
    cat_concatenates (fun _ => 0) ⟨0, 8⟩
      [(to_chars_text (chars "a"), chars "a"), (to_chars_text (itoa_text 1), itoa_text 1),
        (to_chars_text (chars "b"), chars "b")]
      (by
        intro p hp
        simp only [List.mem_cons, List.mem_singleton, List.not_mem_nil, or_false] at hp
        rcases hp with rfl | rfl | rfl <;> exact to_chars_text_has_text _)
      (by decide),
    rfl⟩

theorem cat_snd (args : List (Ser × Nat)) :
    ∀ (m : Mem) (buf : substr), (∀ p ∈ args, p.1.requires p.2) →
      (cat m buf (args.map fun p => p.1)).2 = (args.map fun p => p.2).sum := by
  induction args with
  | nil => intro m buf _; rfl
  | cons p ps ih =>
    intro m buf h
    simp only [List.map_cons, cat, List.sum_cons]
    rw [ih _ _ (fun q hq => h q (by simp [hq])), h p (by simp) m buf]

theorem cat_frame (args : List Ser) :
    ∀ (m : Mem) (buf : substr), (∀ a ∈ args, a.confined) →
      ∀ j, ¬ (buf.str ≤ j ∧ j < buf.str + buf.len) → (cat m buf args).1 j = m j := by
  induction args with
  | nil => intro m buf _ j _; rfl
  | cons a more ih =>
    intro m buf h j hj
    simp only [cat]
    rw [ih _ _ (fun q hq => h q (by simp [hq])) j, h a (by simp) m buf j hj]
    split
    · simp only [substr.sub]; omega
    · simp only [substr.empty]; omega

theorem cat_views_length (args : List Ser) :
    ∀ (m : Mem) (buf : substr), (cat_views m buf args).length = args.length := by
  induction args with
  | nil => intro m buf; rfl
  | cons a more ih => intro m buf; simp only [cat_views, List.length_cons, ih]

theorem cat_views_of_empty (args : List Ser) :
    ∀ (m : Mem) (buf : substr), buf.len = 0 → ∀ v ∈ cat_views m buf args, v.len = 0 := by
  induction args with
  | nil => intro m buf _ v hv; simp [cat_views] at hv
  | cons a more ih =>
    intro m buf h0 v hv
    simp only [cat_views, List.mem_cons] at hv
    rcases hv with rfl | hv
    · exact h0
    · refine ih _ _ ?_ v hv
      split
      · simp only [substr.sub]; omega
      · rfl

theorem cat_views_after_overflow (args : List (Ser × Nat)) :
    ∀ (m : Mem) (buf : substr), (∀ p ∈ args, p.1.requires p.2) →
      ∀ i j, i < j → j < args.length →
        ((cat_views m buf (args.map fun p => p.1)).getD i substr.empty).len
          < (args.map fun p => p.2).getD i 0 →
        ((cat_views m buf (args.map fun p => p.1)).getD j substr.empty).len = 0 := by
  induction args with
  | nil => intro m buf _ i j _ hj; simp at hj
  | cons p ps ih =>
    intro m buf h i j hij hj hov
    obtain ⟨k, rfl⟩ : ∃ k, j = k + 1 := ⟨j - 1, by omega⟩
    simp only [List.map_cons, cat_views, List.getD_cons_succ] at hov ⊢
    cases i with
    | zero =>
      simp only [List.getD_cons_zero] at hov
      rw [h p (by simp) m buf, if_neg (by omega)]
      simp only [List.length_cons] at hj
      have hk : k < (cat_views (p.1 m buf).1 substr.empty (ps.map fun p => p.1)).length := by
        rw [cat_views_length, List.length_map]; omega
      rw [List.getD_eq_getElem _ _ hk]
      exact cat_views_of_empty _ _ _ rfl _ (List.getElem_mem hk)
    | succ i =>
      simp only [List.getD_cons_succ] at hov
      simp only [List.length_cons] at hj
      exact ih _ _ (fun q hq => h q (by simp [hq])) i k (by omega) (by omega) hov

/-- The views that `cat_views` lists are those of the calls of `cat`: for every list of
serializers, `cat` leaves the memory and returns the length that result from calling each
serializer, in order, on its view of that list. -/
theorem cat_eq_calls (args : List Ser) :
    ∀ (m : Mem) (buf : substr), cat m buf args = cat_calls m (args.zip (cat_views m buf args)) := by
  induction args with
  | nil => intro m buf; rfl
  | cons a more ih =>
    intro m buf
    simp only [cat, cat_views, List.zip_cons_cons, cat_calls, ih]
    rfl

/-- C7: for every list of arguments whose serializers write only inside the view they
receive and return a required length that does not depend on the view, and for every
destination view of any length `L` (zero included), `cat` returns the sum of the required
lengths, changes no address outside the `L` positions of the view, and once an argument
requires more than the view it receives, every later argument receives a view of length
zero.  The views that the arguments receive are those of `cat_views`: `cat` is the run of
the calls of its serializers, in order, each on its view of that list. -/
theorem cat_truncation_safe (m : Mem) (buf : substr) (args : List (Ser × Nat))
    (hconf : ∀ p ∈ args, p.1.confined) (hreq : ∀ p ∈ args, p.1.requires p.2) :
    (cat m buf (args.map fun p => p.1)).2 = (args.map fun p => p.2).sum ∧
    (∀ j, ¬ (buf.str ≤ j ∧ j < buf.str + buf.len) →
      (cat m buf (args.map fun p => p.1)).1 j = m j) ∧
    (cat_views m buf (args.map fun p => p.1)).length = args.length ∧
    (∀ i j, i < j → j < args.length →
      ((cat_views m buf (args.map fun p => p.1)).getD i substr.empty).len
        < (args.map fun p => p.2).getD i 0 →
      ((cat_views m buf (args.map fun p => p.1)).getD j substr.empty).len = 0) ∧
    cat m buf (args.map fun p => p.1)
      = cat_calls m ((args.map fun p => p.1).zip (cat_views m buf (args.map fun p => p.1))) ∧
    (∀ (sers : List Ser) (m' : Mem) (buf' : substr),
      cat m' buf' sers = cat_calls m' (sers.zip (cat_views m' buf' sers))) := by
  refine ⟨cat_snd args m buf hreq, cat_frame _ m buf ?_, ?_,
    cat_views_after_overflow args m buf hreq, cat_eq_calls _ m buf,
    fun sers m' buf' => cat_eq_calls sers m' buf'⟩
  · intro a ha
    obtain ⟨p, hp, rfl⟩ := List.mem_map.1 ha
    exact hconf p hp
  · rw [cat_views_length, List.length_map]

/-- In a view of two characters `cat(buf, "abc", 1, "b")` returns 5, stores `ab` and hands
the two later arguments views of length zero. -/
theorem cat_truncation_safe_witness :
    (∀ p ∈ [(to_chars_text (chars "abc"), 3), (to_chars_text (itoa_text 1), 1),
        (to_chars_text (chars "b"), 1)], p.1.confined) ∧
    (∀ p ∈ [(to_chars_text (chars "abc"), 3), (to_chars_text (itoa_text 1), 1),
        (to_chars_text (chars "b"), 1)], p.1.requires p.2) ∧
    (cat (fun _ => 0) ⟨4, 2⟩ [to_chars_text (chars "abc"), to_chars_text (itoa_text 1),
        to_chars_text (chars "b")]).2 = 5 ∧
    (cat (fun _ => 0) ⟨4, 2⟩ [to_chars_text (chars "abc"), to_chars_text (itoa_text 1),
        to_chars_text (chars "b")]).1.slice 0 8 = [0, 0, 0, 0, 97, 98, 0, 0] ∧
    cat_views (fun _ => 0) ⟨4, 2⟩ [to_chars_text (chars "abc"), to_chars_text (itoa_text 1),
        to_chars_text (chars "b")] = [⟨4, 2⟩, ⟨0, 0⟩, ⟨0, 0⟩] ∧
    cat (fun _ => 0) ⟨4, 2⟩ [to_chars_text (chars "abc"), to_chars_text (itoa_text 1),
        to_chars_text (chars "b")]
      = cat_calls (fun _ => 0) [(to_chars_text (chars "abc"), ⟨4, 2⟩),
          (to_chars_text (itoa_text 1), ⟨0, 0⟩), (to_chars_text (chars "b"), ⟨0, 0⟩)] :=
  have hconf : ∀ p ∈ [(to_chars_text (chars "abc"), 3), (to_chars_text (itoa_text 1), 1),
      (to_chars_text (chars "b"), 1)], p.1.confined := by
    intro p hp
    simp only [List.mem_cons, List.mem_singleton, List.not_mem_nil, or_false] at hp
    rcases hp with rfl | rfl | rfl <;> exact to_chars_text_confined _
  have hreq : ∀ p ∈ [(to_chars_text (chars "abc"), 3), (to_chars_text (itoa_text 1), 1),
      (to_chars_text (chars "b"), 1)], p.1.requires p.2 := by
    intro p hp
    simp only [List.mem_cons, List.mem_singleton, List.not_mem_nil, or_false] at hp
    rcases hp with rfl | rfl | rfl <;> exact to_chars_text_requires _
  ⟨hconf, hreq, (cat_truncation_safe (fun _ => 0) ⟨4, 2⟩ _ hconf hreq).1, by decide, by decide,
    (cat_truncation_safe (fun _ => 0) ⟨4, 2⟩ _ hconf hreq).2.2.2.2.1⟩

theorem catsep_more_eq_write (more : List (Ser × List Nat)) (sep : Ser) (tsep : List Nat)
    (hsep : sep.has_text tsep) :
    ∀ (m : Mem) (buf : substr), (∀ p ∈ more, p.1.has_text p.2) →
      (more.map fun p => tsep.length + p.2.length).sum ≤ buf.len →
      detail.catsep_more m buf sep (more.map fun p => p.1)
        = (m.write_list buf.str (more.map fun p => tsep ++ p.2).flatten,
            (more.map fun p => tsep.length + p.2.length).sum) := by
  induction more with
  | nil => intro m buf _ _; rfl
  | cons p ps ih =>
    intro m buf h hsuff
    simp only [List.map_cons, List.sum_cons] at hsuff
    have hs := hsep m buf (by omega)
    have hp := h p (by simp) (m.write_list buf.str tsep) (buf.sub tsep.length)
      (by simp only [substr.sub]; omega)
    have hps : ∀ q ∈ ps, q.1.has_text q.2 := fun q hq => h q (by simp [hq])
    simp only [List.map_cons, detail.catsep_more, hs, List.flatten_cons, List.sum_cons]
    rw [if_pos (by omega)]
    simp only [hp]
    rw [if_pos (by simp only [substr.sub]; omega)]
    have := ih ((m.write_list buf.str tsep).write_list (buf.sub tsep.length).str p.2)
      ((buf.sub tsep.length).sub p.2.length) hps (by simp only [substr.sub]; omega)
    rw [this]
    simp only [substr.sub, Mem.write_list_append, List.append_assoc, Nat.add_assoc]

theorem intercalate_cons (sep a : List Nat) (rest : List (List Nat)) :
    List.intercalate sep (a :: rest) = a ++ (rest.map fun t => sep ++ t).flatten := by
  induction rest generalizing a with
  | nil => simp [List.intercalate]
  | cons b bs ih =>
    have := ih b
    simp only [List.intercalate, List.intersperse, List.flatten_cons, List.map_cons] at this ⊢
    rw [this, List.append_assoc]

/-- C8: for every separator and every non-empty list of `N` arguments, each with its text,
and every destination view that holds the result, `catsep` stores the first text and then,
for each later argument, the separator followed by that text (the texts joined by the
separator, none before the first or after the last), and returns the sum of the lengths of
the texts plus `N - 1` times the length of the separator. -/
theorem catsep_interleaves (m : Mem) (buf : substr) (sep : Ser) (tsep : List Nat)
    (a : Ser) (ta : List Nat) (more : List (Ser × List Nat))
    (hsep : sep.has_text tsep) (ha : a.has_text ta) (hmore : ∀ p ∈ more, p.1.has_text p.2)
    (hsuff : ta.length + (more.map fun p => p.2.length).sum + more.length * tsep.length
      ≤ buf.len) :
    catsep m buf sep a (more.map fun p => p.1)
      = (m.write_list buf.str (List.intercalate tsep (ta :: more.map fun p => p.2)),
          ta.length + (more.map fun p => p.2.length).sum + more.length * tsep.length) := by
  have hsum : (more.map fun p => tsep.length + p.2.length).sum
      = (more.map fun p => p.2.length).sum + more.length * tsep.length := by
    clear hmore hsuff
    induction more with
    | nil => simp
    | cons p ps ih => simp only [List.map_cons, List.sum_cons, List.length_cons, ih]; ring
  have h1 := ha m buf (by omega)
  have h2 := catsep_more_eq_write more sep tsep hsep (m.write_list buf.str ta)
    (buf.sub ta.length) hmore (by simp only [substr.sub]; omega)
  simp only [catsep, h1]
  rw [if_pos (by omega), h2, intercalate_cons, List.map_map, hsum]
  simp only [substr.sub, Mem.write_list_append, Nat.add_assoc]
  rfl

/-- The example of C8: `catsep(buf, ",", 1, 2, 3)` leaves `1,2,3` and returns 5. -/
theorem catsep_interleaves_witness :
    (to_chars_text (chars ",")).has_text (chars ",") ∧
    (to_chars_text (itoa_text 1)).has_text (itoa_text 1) ∧
    (∀ p ∈ [(to_chars_text (itoa_text 2), itoa_text 2),
        (to_chars_text (itoa_text 3), itoa_text 3)], p.1.has_text p.2) ∧
    catsep (fun _ => 0) ⟨0, 5⟩ (to_chars_text (chars ",")) (to_chars_text (itoa_text 1))
        [to_chars_text (itoa_text 2), to_chars_text (itoa_text 3)]
      = (Mem.write_list (fun _ => 0) 0 (chars "1,2,3"), 5) :=
  have hmore : ∀ p ∈ [(to_chars_text (itoa_text 2), itoa_text 2),
      (to_chars_text (itoa_text 3), itoa_text 3)], p.1.has_text p.2 := by
    intro p hp
    simp only [List.mem_cons, List.mem_singleton, List.not_mem_nil, or_false] at hp
    rcases hp with rfl | rfl <;> exact to_chars_text_has_text _
  ⟨to_chars_text_has_text _, to_chars_text_has_text _, hmore,
    catsep_interleaves (fun _ => 0) ⟨0, 5⟩ (to_chars_text (chars ",")) (chars ",")
      (to_chars_text (itoa_text 1)) (itoa_text 1)
      [(to_chars_text (itoa_text 2), itoa_text 2), (to_chars_text (itoa_text 3), itoa_text 3)]
      (to_chars_text_has_text _) (to_chars_text_has_text _) hmore (by decide)⟩

/-! ### `format` -/

theorem find_none_substitute (fmt : List Nat) (ts : List (List Nat))
    (h : find_placeholder fmt = none) : substitute fmt ts = fmt := by
  induction fmt, ts using substitute.induct with
  | case1 fmt => simp [substitute]
  | case2 rest t ts ih => simp [find_placeholder] at h
  | case3 c rest t ts hne ih =>
    rw [find_placeholder.eq_2 _ _ hne] at h
    rw [substitute.eq_3 _ _ _ _ hne, ih (by simpa using h)]
  | case4 t ts => simp [substitute]

theorem find_none_count (fmt : List Nat) (h : find_placeholder fmt = none) :
    count_placeholders fmt = 0 := by
  induction fmt using count_placeholders.induct with
  | case1 rest ih => simp [find_placeholder] at h
  | case2 c rest hne ih =>
    rw [find_placeholder.eq_2 _ _ hne] at h
    rw [count_placeholders.eq_2 _ _ hne, ih (by simpa using h)]
  | case3 => rfl

theorem find_some_substitute (fmt : List Nat) (t : List Nat) (ts : List (List Nat)) :
    ∀ pos, find_placeholder fmt = some pos →
      substitute fmt (t :: ts) = fmt.take pos ++ (t ++ substitute (fmt.drop (pos + 2)) ts) := by
  induction fmt using count_placeholders.induct with
  | case1 rest ih =>
    intro pos h
    simp only [find_placeholder, Option.some.injEq] at h
    subst h
    simp [substitute]
  | case2 c rest hne ih =>
    intro pos h
    rw [find_placeholder.eq_2 _ _ hne] at h
    obtain ⟨q, hq, rfl⟩ := Option.map_eq_some'.1 h
    rw [substitute.eq_3 _ _ _ _ hne, ih q hq]
    simp
  | case3 => intro pos h; simp [find_placeholder] at h

theorem find_some_count (fmt : List Nat) :
    ∀ pos, find_placeholder fmt = some pos →
      count_placeholders fmt = count_placeholders (fmt.drop (pos + 2)) + 1 := by
  induction fmt using count_placeholders.induct with
  | case1 rest ih =>
    intro pos h
    simp only [find_placeholder, Option.some.injEq] at h
    subst h
    simp [count_placeholders]
  | case2 c rest hne ih =>
    intro pos h
    rw [find_placeholder.eq_2 _ _ hne] at h
    obtain ⟨q, hq, rfl⟩ := Option.map_eq_some'.1 h
    rw [count_placeholders.eq_2 _ _ hne, ih q hq]
    simp
  | case3 => intro pos h; simp [find_placeholder] at h

theorem find_some_bound (fmt : List Nat) :
    ∀ pos, find_placeholder fmt = some pos → pos + 2 ≤ fmt.length := by
  induction fmt using count_placeholders.induct with
  | case1 rest ih =>
    intro pos h
    simp only [find_placeholder, Option.some.injEq] at h
    subst h
    simp
  | case2 c rest hne ih =>
    intro pos h
    rw [find_placeholder.eq_2 _ _ hne] at h
    obtain ⟨q, hq, rfl⟩ := Option.map_eq_some'.1 h
    have := ih q hq
    simp only [List.length_cons]
    omega
  | case3 => intro pos h; simp [find_placeholder] at h

theorem format_eq_write (args : List (Ser × List Nat)) :
    ∀ (m : Mem) (buf : substr) (fmt : List Nat), (∀ p ∈ args, p.1.has_text p.2) →
      (substitute fmt (args.map fun p => p.2)).length ≤ buf.len →
      format m buf fmt (args.map fun p => p.1)
        = (m.write_list buf.str (substitute fmt (args.map fun p => p.2)),
            (substitute fmt (args.map fun p => p.2)).length) := by
  induction args with
  | nil =>
    intro m buf fmt _ hsuff
    simp only [List.map_nil, substitute] at hsuff ⊢
    simp only [format, to_chars_text, List.take_of_length_le hsuff]
  | cons p ps ih =>
    intro m buf fmt h hsuff
    simp only [List.map_cons] at hsuff ⊢
    cases hf : find_placeholder fmt with
    | none =>
      rw [find_none_substitute _ _ hf] at hsuff ⊢
      simp only [format, hf, to_chars_text, List.take_of_length_le hsuff]
    | some pos =>
      have hb := find_some_bound fmt pos hf
      rw [find_some_substitute _ _ _ pos hf] at hsuff ⊢
      simp only [List.length_append, List.length_take, Nat.min_eq_left (by omega : pos ≤ fmt.length)]
        at hsuff ⊢
      have hp := h p (by simp) (m.write_list buf.str (fmt.take pos)) (buf.sub pos)
        (by simp only [substr.sub]; omega)
      have hps : ∀ q ∈ ps, q.1.has_text q.2 := fun q hq => h q (by simp [hq])
      have hi := ih ((m.write_list buf.str (fmt.take pos)).write_list (buf.sub pos).str p.2)
        ((buf.sub pos).sub p.2.length) (fmt.drop (pos + 2)) hps
        (by simp only [substr.sub]; omega)
      simp only [format, hf, to_chars_text, List.length_take,
        Nat.min_eq_left (by omega : pos ≤ fmt.length),
        List.take_take, min_eq_right (by omega : pos ≤ buf.len)]
      rw [if_pos (by omega)]
      simp only [hp]
      rw [if_pos (by simp only [substr.sub]; omega), hi]
      simp only [substr.sub, Mem.write_list_append, List.length_take,
        Nat.min_eq_left (by omega : pos ≤ fmt.length), Nat.add_assoc]

/-- C9: for every template with at least as many placeholders as there are arguments, each
argument with its text, and every destination view that holds the result, `format` stores
the template with its placeholders replaced, left to right, by the texts of the arguments
in order and every other character kept, changes nothing else, and returns the length of
that result. -/
theorem format_substitutes (m : Mem) (buf : substr) (fmt : List Nat)
    (args : List (Ser × List Nat)) (htext : ∀ p ∈ args, p.1.has_text p.2)
    (_hcount : args.length ≤ count_placeholders fmt)
    (hsuff : (substitute fmt (args.map fun p => p.2)).length ≤ buf.len) :
    format m buf fmt (args.map fun p => p.1)
      = (m.write_list buf.str (substitute fmt (args.map fun p => p.2)),
          (substitute fmt (args.map fun p => p.2)).length) :=
  format_eq_write args m buf fmt htext hsuff

/-- The example of C9: `format(buf, "the {} drank {} {}", "partier", 5, "beers")` leaves
`the partier drank 5 beers` and returns 25. -/
theorem format_substitutes_witness :
    (∀ p ∈ [(to_chars_text (chars "partier"), chars "partier"),
        (to_chars_text (itoa_text 5), itoa_text 5),
        (to_chars_text (chars "beers"), chars "beers")], p.1.has_text p.2) ∧
    3 ≤ count_placeholders (chars "the \x7b\x7d drank \x7b\x7d \x7b\x7d") ∧
    format (fun _ => 0) ⟨0, 25⟩ (chars "the \x7b\x7d drank \x7b\x7d \x7b\x7d")
        [to_chars_text (chars "partier"), to_chars_text (itoa_text 5),
          to_chars_text (chars "beers")]
      = (Mem.write_list (fun _ => 0) 0 (chars "the partier drank 5 beers"), 25) :=
  have htext : ∀ p ∈ [(to_chars_text (chars "partier"), chars "partier"),
      (to_chars_text (itoa_text 5), itoa_text 5),
      (to_chars_text (chars "beers"), chars "beers")], p.1.has_text p.2 := by
    intro p hp
    simp only [List.mem_cons, List.mem_singleton, List.not_mem_nil, or_false] at hp
    rcases hp with rfl | rfl | rfl <;> exact to_chars_text_has_text _
  ⟨htext, by decide,
    format_substitutes (fun _ => 0) ⟨0, 25⟩ (chars "the \x7b\x7d drank \x7b\x7d \x7b\x7d")
      [(to_chars_text (chars "partier"), chars "partier"),
        (to_chars_text (itoa_text 5), itoa_text 5),
        (to_chars_text (chars "beers"), chars "beers")] htext (by decide) (by decide)⟩

theorem format_take_count (args : List Ser) :
    ∀ (m : Mem) (buf : substr) (fmt : List Nat),
      format m buf fmt args = format m buf fmt (args.take (count_placeholders fmt)) := by
  induction args with
  | nil => intro m buf fmt; simp
  | cons a more ih =>
    intro m buf fmt
    cases hf : find_placeholder fmt with
    | none =>
      rw [find_none_count fmt hf]
      simp only [List.take_zero, format, hf]
    | some pos =>
      rw [find_some_count fmt pos hf, List.take_succ_cons]
      simp only [format, hf]
      rw [← ih]

/-- C10: for every template with `k` placeholders and every list of more than `k`
arguments, `format` leaves the same memory and returns the same length as `format` called
with the first `k` arguments only: what the later arguments are has no effect. -/
theorem format_ignores_surplus (m : Mem) (buf : substr) (fmt : List Nat) (args : List Ser)
    (_hmore : count_placeholders fmt < args.length) :
    format m buf fmt args = format m buf fmt (args.take (count_placeholders fmt)) :=
  format_take_count args m buf fmt

/-- With the template `a{}b` and the two arguments `x` and `y`, the second argument is
ignored: the result is that of the call with `x` alone, `axb` and 3. -/
theorem format_ignores_surplus_witness :
    count_placeholders (chars "a\x7b\x7db") < [to_chars_text (chars "x"),
        to_chars_text (chars "y")].length ∧
    format (fun _ => 0) ⟨0, 8⟩ (chars "a\x7b\x7db")
        [to_chars_text (chars "x"), to_chars_text (chars "y")]
      = format (fun _ => 0) ⟨0, 8⟩ (chars "a\x7b\x7db") [to_chars_text (chars "x")] ∧
    (format (fun _ => 0) ⟨0, 8⟩ (chars "a\x7b\x7db")
        [to_chars_text (chars "x"), to_chars_text (chars "y")]).2 = 3 ∧
    (format (fun _ => 0) ⟨0, 8⟩ (chars "a\x7b\x7db")
        [to_chars_text (chars "x"), to_chars_text (chars "y")]).1.slice 0 4 = chars "axb" ++ [0] :=
  ⟨by decide,
    format_ignores_surplus (fun _ => 0) ⟨0, 8⟩ (chars "a\x7b\x7db")
      [to_chars_text (chars "x"), to_chars_text (chars "y")] (by decide),
    by decide, by decide⟩

namespace detail.base64

/-! ## base64 `decode` -/

theorem bind_ne_fuel {α β : Type} (x : Except Err α) (f : α → Except Err β)
    (hx : x ≠ .error Err.fuel) (hf : ∀ a, f a ≠ .error Err.fuel) :
    (x >>= f) ≠ .error Err.fuel := by
  cases x with
  | error e =>
    intro h
    apply hx
    simp only [bind, Except.bind, Except.error.injEq] at h
    rw [h]
  | ok a => exact hf a

theorem rd_ne_fuel (encoded : csubstr) (i : Nat) : rd encoded i ≠ .error Err.fuel := by
  unfold rd
  split <;> simp [pure, Except.pure, throw, throwThe, MonadExceptOf.throw]

theorem table_idx_ne_fuel (c : Nat) : table_idx c ≠ .error Err.fuel := by
  unfold table_idx
  split_ifs <;> simp [pure, Except.pure, throw, throwThe, MonadExceptOf.throw]

theorem c4_assert_ne_fuel (a c : Bool) : c4_assert a c ≠ .error Err.fuel := by
  unfold c4_assert
  split_ifs <;> simp [pure, Except.pure, throw, throwThe, MonadExceptOf.throw]

/-- The fuel that `decode` gives its loop is never exhausted. -/
theorem decode_loop_fuel (asserts : Bool) (encoded : csubstr) (buf : base64_wrapper) :
    ∀ (fuel rpos wpos : Nat) (m : Mem), encoded.len ≤ rpos + 4 * fuel →
      decode_loop asserts encoded buf fuel rpos wpos m ≠ .error Err.fuel := by
  intro fuel
  induction fuel with
  | zero =>
    intro rpos wpos m h
    simp only [decode_loop]
    rw [if_neg (by omega)]
    simp [pure, Except.pure]
  | succ n ih =>
    intro rpos wpos m h
    simp only [decode_loop]
    split_ifs with hlt
    · refine bind_ne_fuel _ _ (rd_ne_fuel _ _) (fun d2 => ?_)
      refine bind_ne_fuel _ _ ?_ (fun padded => ?_)
      · split_ifs
        · simp [pure, Except.pure]
        · exact bind_ne_fuel _ _ (rd_ne_fuel _ _) (fun _ => by simp [pure, Except.pure])
      · cases padded with
        | true =>
          simp only [if_true]
          exact bind_ne_fuel _ _ (c4_assert_ne_fuel _ _) (fun _ => by simp [pure, Except.pure])
        | false =>
          simp only [Bool.false_eq_true, if_false]
          refine bind_ne_fuel _ _ (rd_ne_fuel _ _) (fun _ => ?_)
          refine bind_ne_fuel _ _ (table_idx_ne_fuel _) (fun _ => ?_)
          refine bind_ne_fuel _ _ (rd_ne_fuel _ _) (fun _ => ?_)
          refine bind_ne_fuel _ _ (table_idx_ne_fuel _) (fun _ => ?_)
          refine bind_ne_fuel _ _ (rd_ne_fuel _ _) (fun _ => ?_)
          refine bind_ne_fuel _ _ (table_idx_ne_fuel _) (fun _ => ?_)
          refine bind_ne_fuel _ _ (rd_ne_fuel _ _) (fun _ => ?_)
          refine bind_ne_fuel _ _ (table_idx_ne_fuel _) (fun _ => ?_)
          exact ih _ _ _ (by omega)
    · simp [pure, Except.pure]

/-! ### What `decode` does on the output of `encode` -/

theorem dappend_list_snd (l : List Nat) (m : Mem) (buf : base64_wrapper) (wpos : Nat) :
    (dappend_list m buf wpos l).2 = wpos + l.length := by
  induction l generalizing m wpos with
  | nil => rfl
  | cons c cs ih =>
    simp only [dappend_list, ih, dappend_, List.length_cons]
    omega

theorem dappend_list_fst (l : List Nat) (m : Mem) (buf : base64_wrapper) (wpos : Nat) :
    (dappend_list m buf wpos l).1
      = m.write_list (buf.data + wpos) (l.take (buf.len - wpos)) := by
  induction l generalizing m wpos with
  | nil => simp [dappend_list, Mem.write_list]
  | cons c cs ih =>
    simp only [dappend_list, ih, dappend_]
    by_cases h : wpos < buf.len
    · rw [if_pos h]
      obtain ⟨k, hk⟩ : ∃ k, buf.len - wpos = k + 1 := ⟨buf.len - wpos - 1, by omega⟩
      rw [hk, List.take_succ_cons, Mem.write_list]
      rw [show buf.len - (wpos + 1) = k by omega,
        show buf.data + (wpos + 1) = buf.data + wpos + 1 by omega]
    · rw [if_neg h]
      rw [show buf.len - (wpos + 1) = 0 by omega, show buf.len - wpos = 0 by omega]
      simp [Mem.write_list]

theorem dappend_list_append (l₁ l₂ : List Nat) (m : Mem) (buf : base64_wrapper) (wpos : Nat) :
    dappend_list m buf wpos (l₁ ++ l₂)
      = dappend_list (dappend_list m buf wpos l₁).1 buf (wpos + l₁.length) l₂ := by
  induction l₁ generalizing m wpos with
  | nil => simp [dappend_list]
  | cons c cs ih =>
    simp only [List.cons_append, dappend_list, List.length_cons]
    show dappend_list _ buf _ (cs ++ l₂) = _
    rw [ih]
    simp only [dappend_]
    rw [show wpos + 1 + cs.length = wpos + (cs.length + 1) by omega]

theorem table_idx_index_table (i : Nat) (h : i < 64) :
    table_idx (index_table.getD i 0) = .ok (i : Int) := by
  interval_cases i <;> rfl

theorem index_table_ne_pad : ∀ i < 64, index_table.getD i 0 ≠ pad := by decide

theorem or_shift (a b i : Nat) (h : b < 2 ^ i) : b ||| a * 2 ^ i = b + a * 2 ^ i := by
  rw [Nat.or_comm, Nat.mul_comm, ← Nat.mul_add_lt_is_or h, Nat.add_comm]

theorem quartet_val (s0 s1 s2 s3 : Nat) (h0 : s0 < 64) (h1 : s1 < 64) (h2 : s2 < 64)
    (h3 : s3 < 64) :
    (((0 ||| to_u32 (s3 : Int)) ||| to_u32 ((s2 : Int) * 2 ^ (1 * 6)))
        ||| to_u32 ((s1 : Int) * 2 ^ (2 * 6))) ||| to_u32 ((s0 : Int) * 2 ^ (3 * 6))
      = s3 + s2 * 2 ^ 6 + s1 * 2 ^ 12 + s0 * 2 ^ 18 := by
  have e3 : to_u32 (s3 : Int) = s3 := by unfold to_u32; omega
  have e2 : to_u32 ((s2 : Int) * 2 ^ (1 * 6)) = s2 * 2 ^ 6 := by
    unfold to_u32; norm_num; omega
  have e1 : to_u32 ((s1 : Int) * 2 ^ (2 * 6)) = s1 * 2 ^ 12 := by
    unfold to_u32; norm_num; omega
  have e0 : to_u32 ((s0 : Int) * 2 ^ (3 * 6)) = s0 * 2 ^ 18 := by
    unfold to_u32; norm_num; omega
  rw [e3, e2, e1, e0, Nat.zero_or, or_shift s2 s3 6 (by omega),
    or_shift s1 (s3 + s2 * 2 ^ 6) 12 (by omega),
    or_shift s0 (s3 + s2 * 2 ^ 6 + s1 * 2 ^ 12) 18 (by omega)]

theorem rd_of_getElem? (encoded : csubstr) (i c : Nat) (h : encoded.str[i]? = some c) :
    rd encoded i = .ok c := by
  simp only [rd, h]; rfl

theorem ok_bind {α β : Type} (a : α) (f : α → Except Err β) :
    (Except.ok a >>= f) = f a := rfl

theorem pure_eq_ok {α : Type} (a : α) : (pure a : Except Err α) = .ok a := rfl

theorem decode_loop_quartet (asserts : Bool) (encoded : csubstr) (buf : base64_wrapper)
    (fuel rpos wpos : Nat) (m : Mem) (s0 s1 s2 s3 : Nat)
    (h0 : s0 < 64) (h1 : s1 < 64) (h2 : s2 < 64) (h3 : s3 < 64) (hlt : rpos < encoded.len)
    (r0 : encoded.str[rpos]? = some (index_table.getD s0 0))
    (r1 : encoded.str[rpos + 1]? = some (index_table.getD s1 0))
    (r2 : encoded.str[rpos + 2]? = some (index_table.getD s2 0))
    (r3 : encoded.str[rpos + 3]? = some (index_table.getD s3 0)) :
    decode_loop asserts encoded buf (fuel + 1) rpos wpos m
      = decode_loop asserts encoded buf fuel (rpos + 4) (wpos + 3)
          (dappend_list m buf wpos
            [((s3 + s2 * 2 ^ 6 + s1 * 2 ^ 12 + s0 * 2 ^ 18) >>> (2 * 8)) &&& 255,
             ((s3 + s2 * 2 ^ 6 + s1 * 2 ^ 12 + s0 * 2 ^ 18) >>> (1 * 8)) &&& 255,
             (s3 + s2 * 2 ^ 6 + s1 * 2 ^ 12 + s0 * 2 ^ 18) &&& 255]).1 := by
  rw [decode_loop, if_pos hlt]
  have p2 := index_table_ne_pad s2 h2
  have p3 := index_table_ne_pad s3 h3
  simp only [rd_of_getElem? _ _ _ r0, rd_of_getElem? _ _ _ r1, rd_of_getElem? _ _ _ r2,
    rd_of_getElem? _ _ _ r3, table_idx_index_table _ h0, table_idx_index_table _ h1,
    table_idx_index_table _ h2, table_idx_index_table _ h3, ok_bind, pure_eq_ok,
    p2, p3, if_false, decide_False, Bool.false_eq_true, quartet_val s0 s1 s2 s3 h0 h1 h2 h3,
    dappend_list, dappend_]

theorem c4_assert_true (asserts : Bool) : c4_assert asserts true = .ok () := by
  cases asserts <;> rfl

theorem getElem?_quartet (pre rest : List Nat) (a b c d : Nat) :
    (pre ++ a :: b :: c :: d :: rest)[pre.length]? = some a ∧
    (pre ++ a :: b :: c :: d :: rest)[pre.length + 1]? = some b ∧
    (pre ++ a :: b :: c :: d :: rest)[pre.length + 2]? = some c ∧
    (pre ++ a :: b :: c :: d :: rest)[pre.length + 3]? = some d := by
  refine ⟨?_, ?_, ?_, ?_⟩ <;> rw [List.getElem?_append_right (by omega)] <;> simp

theorem sextets_sum (v : Nat) (h : v < 2 ^ 24) :
    v % 64 + v / 2 ^ (1 * 6) % 64 * 2 ^ 6 + v / 2 ^ (2 * 6) % 64 * 2 ^ 12
      + v / 2 ^ (3 * 6) % 64 * 2 ^ 18 = v := by
  norm_num at h ⊢
  omega

theorem decode_loop_encoded (asserts : Bool) (encoded : csubstr) (buf : base64_wrapper) :
    ∀ (data pre tail : List Nat) (wpos : Nat) (m : Mem), (∀ b ∈ data, b < 256) →
      encoded.str = pre ++ (encode_syms data ++ tail) →
      encoded.len = pre.length + (encode_syms data).length →
      decode_loop asserts encoded buf ((encode_syms data).length / 4) pre.length wpos m
        = .ok ((dappend_list m buf wpos (data.take (data.length / 3 * 3))).1,
            wpos + data.length / 3 * 3, pre.length + data.length / 3 * 4)
  | d0 :: d1 :: d2 :: rest, pre, tail, wpos, m, hb, hstr, hlen => by
    have b0 : d0 < 256 := hb d0 (by simp)
    have b1 : d1 < 256 := hb d1 (by simp)
    have b2 : d2 < 256 := hb d2 (by simp)
    have hrest : ∀ b ∈ rest, b < 256 := fun b h => hb b (by simp [h])
    simp only [encode_syms, List.length_cons, List.cons_append] at hstr hlen ⊢
    rw [show ((encode_syms rest).length + 1 + 1 + 1 + 1) / 4 = (encode_syms rest).length / 4 + 1
      by omega]
    simp only [and_sextet_mask, Nat.shiftRight_eq_div_pow, load_u32, Nat.mod_eq_of_lt b0,
      Nat.mod_eq_of_lt b1, Nat.mod_eq_of_lt b2, Nat.zero_mod, Nat.mul_zero, Nat.add_zero]
      at hstr ⊢
    rw [decode_loop_quartet asserts encoded buf _ pre.length wpos m _ _ _ _
      (Nat.mod_lt _ (by norm_num)) (Nat.mod_lt _ (by norm_num)) (Nat.mod_lt _ (by norm_num))
      (Nat.mod_lt _ (by norm_num)) (by omega)
      (by rw [hstr]; exact (getElem?_quartet pre _ _ _ _ _).1)
      (by rw [hstr]; exact (getElem?_quartet pre _ _ _ _ _).2.1)
      (by rw [hstr]; exact (getElem?_quartet pre _ _ _ _ _).2.2.1)
      (by rw [hstr]; exact (getElem?_quartet pre _ _ _ _ _).2.2.2)]
    have e0 : (d2 + 256 * d1 + 65536 * d0) / 2 ^ (2 * 8) % 256 = d0 := by norm_num; omega
    have e1 : (d2 + 256 * d1 + 65536 * d0) / 2 ^ (1 * 8) % 256 = d1 := by norm_num; omega
    have e2 : (d2 + 256 * d1 + 65536 * d0) % 256 = d2 := by omega
    rw [sextets_sum _ (by norm_num; omega)]
    simp only [and_255, Nat.shiftRight_eq_div_pow, e0, e1, e2]
    have ih := decode_loop_encoded asserts encoded buf rest (pre ++ [_, _, _, _]) tail (wpos + 3)
      (dappend_list m buf wpos [d0, d1, d2]).1 hrest
      (by rw [hstr]; simp only [List.append_assoc, List.cons_append, List.nil_append]; rfl)
      (by rw [hlen]; simp only [List.length_append, List.length_cons, List.length_nil]; omega)
    simp only [List.length_append, List.length_cons, List.length_nil, Nat.zero_add] at ih
    rw [ih, show (rest.length + 1 + 1 + 1) / 3 * 3 = rest.length / 3 * 3 + 3 by omega,
      show (rest.length + 1 + 1 + 1) / 3 * 4 = rest.length / 3 * 4 + 4 by omega]
    simp only [List.take_succ_cons, dappend_list, dappend_]
    refine congrArg Except.ok (Prod.ext rfl (Prod.ext ?_ ?_))
    · show wpos + 3 + rest.length / 3 * 3 = wpos + (rest.length / 3 * 3 + 3)
      omega
    · show pre.length + (1 + 1 + 1 + 1) + rest.length / 3 * 4
        = pre.length + (rest.length / 3 * 4 + 4)
      omega
  | [d0, d1], pre, tail, wpos, m, hb, hstr, hlen => by
    simp only [encode_syms, List.length_cons, List.length_nil, List.cons_append,
      List.nil_append, and_sextet_mask] at hstr hlen ⊢
    have r2 := rd_of_getElem? encoded (pre.length + 2) _ (hstr ▸ (getElem?_quartet pre tail _ _ _ _).2.2.1)
    have r3 := rd_of_getElem? encoded (pre.length + 3) _ (hstr ▸ (getElem?_quartet pre tail _ _ _ _).2.2.2)
    have p2 := index_table_ne_pad _ (Nat.mod_lt (load_u32 0 d1 d0 0 >>> (1 * 6)) (by norm_num : 64 > 0))
    have hl : pre.length + 4 = encoded.len := by omega
    simp only [decode_loop, if_pos (show pre.length < encoded.len by omega), r2, r3, ok_bind,
      p2, if_false, pure_eq_ok, decide_True, if_true, hl, c4_assert_true, dappend_list,
      Nat.reduceDiv, Nat.reduceAdd]
    rfl
  | [d0], pre, tail, wpos, m, hb, hstr, hlen => by
    simp only [encode_syms, List.length_cons, List.length_nil, List.cons_append,
      List.nil_append, and_sextet_mask] at hstr hlen ⊢
    have r2 := rd_of_getElem? encoded (pre.length + 2) _ (hstr ▸ (getElem?_quartet pre tail _ _ _ _).2.2.1)
    have hl : pre.length + 4 = encoded.len := by omega
    simp only [decode_loop, if_pos (show pre.length < encoded.len by omega), r2, ok_bind,
      if_true, pure_eq_ok, decide_True, hl, c4_assert_true, dappend_list,
      Nat.reduceDiv, Nat.reduceAdd]
    rfl
  | [], pre, tail, wpos, m, hb, hstr, hlen => by
    simp only [encode_syms, List.length_nil, Nat.add_zero] at hlen ⊢
    simp only [decode_loop, hlen, lt_self_iff_false, if_false, dappend_list, pure_eq_ok,
      List.take_nil, Nat.zero_div, Nat.zero_mul, Nat.add_zero]

theorem pad1_val (s0 s1 s2 : Nat) (h0 : s0 < 64) (h1 : s1 < 64) (h2 : s2 < 64) :
    ((0 ||| to_u32 ((s2 : Int) * 2 ^ (1 * 6))) ||| to_u32 ((s1 : Int) * 2 ^ (2 * 6)))
        ||| to_u32 ((s0 : Int) * 2 ^ (3 * 6))
      = s2 * 2 ^ 6 + s1 * 2 ^ 12 + s0 * 2 ^ 18 := by
  have e2 : to_u32 ((s2 : Int) * 2 ^ (1 * 6)) = s2 * 2 ^ 6 := by
    unfold to_u32; norm_num; omega
  have e1 : to_u32 ((s1 : Int) * 2 ^ (2 * 6)) = s1 * 2 ^ 12 := by
    unfold to_u32; norm_num; omega
  have e0 : to_u32 ((s0 : Int) * 2 ^ (3 * 6)) = s0 * 2 ^ 18 := by
    unfold to_u32; norm_num; omega
  rw [e2, e1, e0, Nat.zero_or, or_shift s1 (s2 * 2 ^ 6) 12 (by omega),
    or_shift s0 (s2 * 2 ^ 6 + s1 * 2 ^ 12) 18 (by omega)]

theorem pad2_val (s0 s1 : Nat) (h0 : s0 < 64) (h1 : s1 < 64) :
    (0 ||| to_u32 ((s1 : Int) * 2 ^ (2 * 6))) ||| to_u32 ((s0 : Int) * 2 ^ (3 * 6))
      = s1 * 2 ^ 12 + s0 * 2 ^ 18 := by
  have e1 : to_u32 ((s1 : Int) * 2 ^ (2 * 6)) = s1 * 2 ^ 12 := by
    unfold to_u32; norm_num; omega
  have e0 : to_u32 ((s0 : Int) * 2 ^ (3 * 6)) = s0 * 2 ^ 18 := by
    unfold to_u32; norm_num; omega
  rw [e1, e0, Nat.zero_or, or_shift s0 (s1 * 2 ^ 12) 18 (by omega)]

theorem decode_padded_none (asserts : Bool) (encoded : csubstr) (buf : base64_wrapper)
    (rpos wpos : Nat) (m : Mem) (c2 c3 : Nat) (h2 : c2 ≠ pad) (h3 : c3 ≠ pad)
    (r2 : encoded.str[rpos + 2]? = some c2) (r3 : encoded.str[rpos + 3]? = some c3) :
    decode_padded asserts encoded buf rpos wpos m = .ok (m, wpos) := by
  simp only [decode_padded, rd_of_getElem? _ _ _ r2, rd_of_getElem? _ _ _ r3, ok_bind, h2, h3,
    if_false, pure_eq_ok]

theorem decode_padded_one (asserts : Bool) (encoded : csubstr) (buf : base64_wrapper)
    (rpos wpos : Nat) (m : Mem) (s0 s1 s2 : Nat) (h0 : s0 < 64) (h1 : s1 < 64) (h2 : s2 < 64)
    (hlen : rpos + 4 = encoded.len)
    (r0 : encoded.str[rpos]? = some (index_table.getD s0 0))
    (r1 : encoded.str[rpos + 1]? = some (index_table.getD s1 0))
    (r2 : encoded.str[rpos + 2]? = some (index_table.getD s2 0))
    (r3 : encoded.str[rpos + 3]? = some pad) :
    decode_padded asserts encoded buf rpos wpos m
      = .ok (dappend_list m buf wpos
          [((s2 * 2 ^ 6 + s1 * 2 ^ 12 + s0 * 2 ^ 18) >>> (2 * 8)) &&& 255,
           ((s2 * 2 ^ 6 + s1 * 2 ^ 12 + s0 * 2 ^ 18) >>> (1 * 8)) &&& 255]) := by
  have p2 := index_table_ne_pad s2 h2
  simp only [decode_padded, rd_of_getElem? _ _ _ r0, rd_of_getElem? _ _ _ r1,
    rd_of_getElem? _ _ _ r2, rd_of_getElem? _ _ _ r3, table_idx_index_table _ h0,
    table_idx_index_table _ h1, table_idx_index_table _ h2, ok_bind, pure_eq_ok,
    p2, if_false, if_true, hlen, decide_True, c4_assert_true,
    pad1_val s0 s1 s2 h0 h1 h2, dappend_list, dappend_]

theorem decode_padded_two (asserts : Bool) (encoded : csubstr) (buf : base64_wrapper)
    (rpos wpos : Nat) (m : Mem) (s0 s1 : Nat) (h0 : s0 < 64) (h1 : s1 < 64)
    (hlen : rpos + 4 = encoded.len)
    (r0 : encoded.str[rpos]? = some (index_table.getD s0 0))
    (r1 : encoded.str[rpos + 1]? = some (index_table.getD s1 0))
    (r2 : encoded.str[rpos + 2]? = some pad)
    (r3 : encoded.str[rpos + 3]? = some pad) :
    decode_padded asserts encoded buf rpos wpos m
      = .ok (dappend_list m buf wpos
          [((s1 * 2 ^ 12 + s0 * 2 ^ 18) >>> (2 * 8)) &&& 255]) := by
  cases asserts <;>
  simp only [decode_padded, rd_of_getElem? _ _ _ r0, rd_of_getElem? _ _ _ r1,
    rd_of_getElem? _ _ _ r2, rd_of_getElem? _ _ _ r3, table_idx_index_table _ h0,
    table_idx_index_table _ h1, ok_bind, pure_eq_ok,
    if_false, if_true, hlen, decide_True, c4_assert_true, Bool.false_eq_true,
    pad2_val s0 s1 h0 h1, dappend_list, dappend_]

theorem encode_syms_split : ∀ data : List Nat, ∃ body last : List Nat,
    data = body ++ last ∧ data.take (data.length / 3 * 3) = body ∧
    body.length = data.length / 3 * 3 ∧ last.length < 3 ∧
    encode_syms data = encode_syms body ++ encode_syms last ∧
    (encode_syms body).length = data.length / 3 * 4
  | d0 :: d1 :: d2 :: rest => by
    obtain ⟨body, last, h1, h2, h3, h4, h5, h6⟩ := encode_syms_split rest
    refine ⟨d0 :: d1 :: d2 :: body, last, by simp [h1], ?_, ?_, h4, ?_, ?_⟩
    · simp only [List.length_cons]
      rw [show (rest.length + 1 + 1 + 1) / 3 * 3 = rest.length / 3 * 3 + 1 + 1 + 1 by omega]
      simp only [List.take_succ_cons, h2]
    · simp only [List.length_cons, h3]; omega
    · simp only [encode_syms, h5, List.cons_append]
    · simp only [encode_syms, List.length_cons, h6]; omega
  | [d0, d1] => ⟨[], [d0, d1], by simp [encode_syms]⟩
  | [d0] => ⟨[], [d0], by simp [encode_syms]⟩
  | [] => ⟨[], [], by simp [encode_syms]⟩

/-- On the output of `encode`, followed in its array by `tail`, `decode` succeeds and
hands the original bytes to its `c4append_`, provided that, when the number of bytes is a
multiple of 3 (no padding), the array goes on for four more characters of which the third
and the fourth are not `=`. -/
theorem decode_encode_syms (asserts : Bool) (m : Mem) (data tail : List Nat)
    (out : base64_wrapper) (hbytes : ∀ b ∈ data, b < 256)
    (htail : data.length % 3 = 0 →
      ∃ c2 c3, tail[2]? = some c2 ∧ tail[3]? = some c3 ∧ c2 ≠ pad ∧ c3 ≠ pad) :
    decode asserts m ⟨encode_syms data ++ tail, (encode_syms data).length⟩ out
      = .ok (dappend_list m out 0 data) := by
  have hloop := decode_loop_encoded asserts ⟨encode_syms data ++ tail, (encode_syms data).length⟩
    out data [] tail 0 m hbytes rfl (by simp)
  simp only [List.length_nil, Nat.zero_add] at hloop
  have hl4 : (encode_syms data).length % 4 = 0 := by rw [encode_syms_length]; omega
  simp only [decode, hl4, ne_eq, not_true_eq_false, if_false, hloop, ok_bind]
  obtain ⟨body, last, h1, h2, h3, h4, h5, h6⟩ := encode_syms_split data
  have hbl : ∀ b ∈ last, b < 256 := fun b hb => hbytes b (by rw [h1]; simp [hb])
  rw [h2, ← h3, ← h6]
  have hout : dappend_list m out 0 data
      = dappend_list (dappend_list m out 0 body).1 out body.length last := by
    rw [h1, dappend_list_append, Nat.zero_add]
  rw [hout]
  have hstr : (encode_syms data ++ tail) = encode_syms body ++ (encode_syms last ++ tail) := by
    rw [h5, List.append_assoc]
  match last, h4, h1, h5, hbl, hstr with
  | [], _, h1, h5, _, hstr =>
    have h0 : data.length % 3 = 0 := by
      rw [h1, List.append_nil, h3]; omega
    obtain ⟨c2, c3, t2, t3, n2, n3⟩ := htail h0
    simp only [encode_syms, List.nil_append] at hstr
    rw [decode_padded_none asserts _ out _ _ _ c2 c3 n2 n3
      (by show (encode_syms data ++ tail)[_]? = _
          rw [hstr, List.getElem?_append_right (by omega), Nat.add_sub_cancel_left, t2])
      (by show (encode_syms data ++ tail)[_]? = _
          rw [hstr, List.getElem?_append_right (by omega), Nat.add_sub_cancel_left, t3])]
    rfl
  | [d0], _, h1, h5, hbl, hstr =>
    have b0 : d0 < 256 := hbl d0 (by simp)
    have hlen : (encode_syms body).length + 4 = (encode_syms data).length := by
      rw [h5]; simp [encode_syms]
    simp only [encode_syms, List.cons_append, List.nil_append, and_sextet_mask,
      Nat.shiftRight_eq_div_pow, load_u32, Nat.mod_eq_of_lt b0, Nat.zero_mod, Nat.mul_zero,
      Nat.add_zero, Nat.zero_add] at hstr
    have q := getElem?_quartet (encode_syms body) tail
      (index_table.getD (65536 * d0 / 2 ^ (3 * 6) % 64) 0)
      (index_table.getD (65536 * d0 / 2 ^ (2 * 6) % 64) 0) pad pad
    rw [← hstr] at q
    rw [decode_padded_two asserts _ out _ _ _ _ _ (Nat.mod_lt _ (by norm_num))
      (Nat.mod_lt _ (by norm_num)) hlen q.1 q.2.1 q.2.2.1 q.2.2.2]
    have e0 : (65536 * d0 / 2 ^ (2 * 6) % 64 * 2 ^ 12 + 65536 * d0 / 2 ^ (3 * 6) % 64 * 2 ^ 18)
        / 2 ^ (2 * 8) % 256 = d0 := by norm_num; omega
    simp only [and_255, Nat.shiftRight_eq_div_pow, e0]
    rfl
  | [d0, d1], _, h1, h5, hbl, hstr =>
    have b0 : d0 < 256 := hbl d0 (by simp)
    have b1 : d1 < 256 := hbl d1 (by simp)
    have hlen : (encode_syms body).length + 4 = (encode_syms data).length := by
      rw [h5]; simp [encode_syms]
    simp only [encode_syms, List.cons_append, List.nil_append, and_sextet_mask,
      Nat.shiftRight_eq_div_pow, load_u32, Nat.mod_eq_of_lt b0, Nat.mod_eq_of_lt b1,
      Nat.zero_mod, Nat.mul_zero, Nat.add_zero, Nat.zero_add] at hstr
    have q := getElem?_quartet (encode_syms body) tail
      (index_table.getD ((256 * d1 + 65536 * d0) / 2 ^ (3 * 6) % 64) 0)
      (index_table.getD ((256 * d1 + 65536 * d0) / 2 ^ (2 * 6) % 64) 0)
      (index_table.getD ((256 * d1 + 65536 * d0) / 2 ^ (1 * 6) % 64) 0) pad
    rw [← hstr] at q
    rw [decode_padded_one asserts _ out _ _ _ _ _ _ (Nat.mod_lt _ (by norm_num))
      (Nat.mod_lt _ (by norm_num)) (Nat.mod_lt _ (by norm_num)) hlen q.1 q.2.1 q.2.2.1 q.2.2.2]
    have e0 : ((256 * d1 + 65536 * d0) / 2 ^ (1 * 6) % 64 * 2 ^ 6
        + (256 * d1 + 65536 * d0) / 2 ^ (2 * 6) % 64 * 2 ^ 12
        + (256 * d1 + 65536 * d0) / 2 ^ (3 * 6) % 64 * 2 ^ 18) / 2 ^ (2 * 8) % 256 = d0 := by
      norm_num; omega
    have e1 : ((256 * d1 + 65536 * d0) / 2 ^ (1 * 6) % 64 * 2 ^ 6
        + (256 * d1 + 65536 * d0) / 2 ^ (2 * 6) % 64 * 2 ^ 12
        + (256 * d1 + 65536 * d0) / 2 ^ (3 * 6) % 64 * 2 ^ 18) / 2 ^ (1 * 8) % 256 = d1 := by
      norm_num; omega
    simp only [and_255, Nat.shiftRight_eq_div_pow, e0, e1]
    rfl

end detail.base64

theorem Mem.slice_add (m : Mem) (a n k : Nat) :
    m.slice a (n + k) = m.slice a n ++ m.slice (a + n) k := by
  apply List.ext_getElem
  · simp [Mem.slice]
  · intro i h₁ h₂
    simp only [Mem.slice, List.getElem_map, List.getElem_range, List.getElem_append,
      List.length_map, List.length_range]
    split
    · rfl
    · congr 1; omega

theorem Mem.slice_congr (m m' : Mem) (a n : Nat) (h : ∀ i < n, m (a + i) = m' (a + i)) :
    m.slice a n = m'.slice a n := by
  apply List.ext_getElem
  · simp [Mem.slice]
  · intro i h₁ h₂
    simp only [Mem.slice, List.getElem_map, List.getElem_range]
    exact h i (by simpa [Mem.slice] using h₁)

theorem Mem.slice_getElem? (m : Mem) (a n i : Nat) (h : i < n) :
    (m.slice a n)[i]? = some (m (a + i)) := by
  simp [Mem.slice, List.getElem?_map, List.getElem?_range h]

namespace detail.base64

/-- The characters of a destination array of `encode` after the call: the symbols, then
what the array held before. -/
theorem encode_slice (m : Mem) (buf : substr) (data : List Nat)
    (hsuff : (encode m buf data).2 ≤ buf.len) :
    (encode m buf data).1.slice buf.str buf.len
      = encode_syms data
          ++ m.slice (buf.str + (encode_syms data).length) (buf.len - (encode_syms data).length) := by
  have hlen := encode_syms_length data
  rw [encode_snd] at hsuff
  rw [encode_fst, List.take_of_length_le (by omega)]
  conv_lhs => rw [show buf.len = (encode_syms data).length + (buf.len - (encode_syms data).length)
    by omega]
  rw [Mem.slice_add, Mem.slice_write_list]
  congr 1
  apply Mem.slice_congr
  intro i _
  apply Mem.write_list_outside
  omega

/-- The round trip through `encode` and `decode` restores the bytes and returns their
number whenever the text ends in padding; when it does not (the number of bytes is a
multiple of 3) it does so provided the array of the text goes on for four more characters
of which the third and the fourth are not `=`. -/
theorem decode_encode_roundtrip (asserts : Bool) (m₀ m : Mem) (buf : substr)
    (out : base64_wrapper) (data : List Nat) (hbytes : ∀ b ∈ data, b < 256)
    (hbuf : (encode m₀ buf data).2 ≤ buf.len) (hout : data.length ≤ out.len)
    (hsafe : data.length % 3 = 0 → (encode m₀ buf data).2 + 4 ≤ buf.len ∧
      m₀ (buf.str + (encode m₀ buf data).2 + 2) ≠ pad ∧
      m₀ (buf.str + (encode m₀ buf data).2 + 3) ≠ pad) :
    decode asserts m ⟨(encode m₀ buf data).1.slice buf.str buf.len, (encode m₀ buf data).2⟩ out
      = .ok (m.write_list out.data data, data.length) := by
  have hlen := encode_syms_length data
  have hret := encode_snd m₀ buf data
  rw [encode_slice m₀ buf data hbuf]
  rw [hret] at hbuf hsafe ⊢
  rw [← hlen] at hbuf hsafe ⊢
  rw [decode_encode_syms asserts m data _ out hbytes]
  · refine congrArg Except.ok (Prod.ext ?_ ?_)
    · rw [dappend_list_fst, Nat.add_zero, Nat.sub_zero, List.take_of_length_le hout]
    · rw [dappend_list_snd, Nat.zero_add]
  · intro h3
    obtain ⟨h4, n2, n3⟩ := hsafe h3
    refine ⟨_, _, Mem.slice_getElem? _ _ _ 2 (by omega), Mem.slice_getElem? _ _ _ 3 (by omega),
      ?_, ?_⟩
    · exact n2
    · exact n3

/-! ### What `decode` returns on a valid text -/

theorem quartets_text_length (qs : List (Nat × Nat × Nat × Nat)) :
    (quartets_text qs).length = 4 * qs.length := by
  induction qs with
  | nil => rfl
  | cons q qs ih => simp only [quartets_text, quartet_syms, List.length_append, ih,
      List.length_cons, List.length_nil]; omega

/-- The loop of `decode` over unpadded quartets: each adds 3 to `wpos` and 4 to the
offset of `d`; `rest` is what follows them in the array and `k` the number of quartets of
the view that remain after them. -/
theorem decode_loop_quartets (asserts : Bool) (encoded : csubstr) (buf : base64_wrapper) :
    ∀ (qs : List (Nat × Nat × Nat × Nat)) (pre rest : List Nat) (k wpos : Nat) (m : Mem),
      (∀ q ∈ qs, quartet_ok q) →
      encoded.str = pre ++ (quartets_text qs ++ rest) →
      encoded.len = pre.length + 4 * qs.length + 4 * k →
      ∃ m', decode_loop asserts encoded buf (qs.length + k) pre.length wpos m
        = decode_loop asserts encoded buf k (pre.length + 4 * qs.length)
            (wpos + 3 * qs.length) m' := by
  intro qs
  induction qs with
  | nil =>
    intro pre rest k wpos m _ _ _
    exact ⟨m, by simp⟩
  | cons q qs ih =>
    intro pre rest k wpos m hq hstr hlen
    obtain ⟨h0, h1, h2, h3⟩ := hq q (by simp)
    simp only [quartets_text, quartet_syms, List.cons_append, List.nil_append,
      List.length_cons] at hstr hlen
    have rq := getElem?_quartet pre (quartets_text qs ++ rest) (index_table.getD q.1 0)
      (index_table.getD q.2.1 0) (index_table.getD q.2.2.1 0) (index_table.getD q.2.2.2 0)
    rw [← hstr] at rq
    obtain ⟨m', hm'⟩ := ih (pre ++ quartet_syms q) rest k (wpos + 3)
      (dappend_list m buf wpos
        [((q.2.2.2 + q.2.2.1 * 2 ^ 6 + q.2.1 * 2 ^ 12 + q.1 * 2 ^ 18) >>> (2 * 8)) &&& 255,
         ((q.2.2.2 + q.2.2.1 * 2 ^ 6 + q.2.1 * 2 ^ 12 + q.1 * 2 ^ 18) >>> (1 * 8)) &&& 255,
         (q.2.2.2 + q.2.2.1 * 2 ^ 6 + q.2.1 * 2 ^ 12 + q.1 * 2 ^ 18) &&& 255]).1
      (fun q' hq' => hq q' (by simp [hq']))
      (by rw [hstr]; simp [quartet_syms])
      (by rw [hlen]; simp [quartet_syms]; omega)
    refine ⟨m', ?_⟩
    rw [show (q :: qs).length + k = (qs.length + k) + 1 by simp; omega,
      decode_loop_quartet asserts encoded buf _ pre.length wpos m _ _ _ _ h0 h1 h2 h3
        (by omega) rq.1 rq.2.1 rq.2.2.1 rq.2.2.2]
    simp only [List.length_append, quartet_syms, List.length_cons, List.length_nil,
      Nat.zero_add] at hm'
    rw [hm']
    congr 1 <;> simp only [List.length_cons] <;> omega

theorem decode_loop_exit (asserts : Bool) (encoded : csubstr) (buf : base64_wrapper)
    (rpos wpos : Nat) (m : Mem) (h : ¬ rpos < encoded.len) :
    decode_loop asserts encoded buf 0 rpos wpos m = .ok (m, wpos, rpos) := by
  simp only [decode_loop, if_neg h, pure_eq_ok]

theorem decode_loop_break (asserts : Bool) (encoded : csubstr) (buf : base64_wrapper)
    (fuel rpos wpos : Nat) (m : Mem) (c2 : Nat) (hlen : rpos + 4 = encoded.len)
    (r2 : encoded.str[rpos + 2]? = some c2) (r3 : encoded.str[rpos + 3]? = some pad) :
    decode_loop asserts encoded buf (fuel + 1) rpos wpos m = .ok (m, wpos, rpos) := by
  by_cases hc : c2 = pad <;>
  simp only [decode_loop, if_pos (show rpos < encoded.len by omega), rd_of_getElem? _ _ _ r2,
    rd_of_getElem? _ _ _ r3, ok_bind, hc, if_false, if_true, pure_eq_ok, decide_True, hlen,
    c4_assert_true]

/-- What `decode` returns on a valid text: for `q` quartets of alphabet symbols of which
the last has `p` padding characters, `3 * q - p`, whatever the destination; for `p = 0`
this needs the array of the text to go on for four more characters of which the third and
the fourth are not `=`. -/
theorem decode_returns_count (asserts : Bool) (m : Mem) (out : base64_wrapper)
    (qs : List (Nat × Nat × Nat × Nat)) (hqs : ∀ q ∈ qs, quartet_ok q)
    (final tail : List Nat) (p : Nat)
    (hfinal :
      (p = 0 ∧ final = [] ∧
        ∃ c2 c3, tail[2]? = some c2 ∧ tail[3]? = some c3 ∧ c2 ≠ pad ∧ c3 ≠ pad) ∨
      (p = 1 ∧ ∃ s0 s1 s2, s0 < 64 ∧ s1 < 64 ∧ s2 < 64 ∧
        final = [index_table.getD s0 0, index_table.getD s1 0, index_table.getD s2 0, pad]) ∨
      (p = 2 ∧ ∃ s0 s1, s0 < 64 ∧ s1 < 64 ∧
        final = [index_table.getD s0 0, index_table.getD s1 0, pad, pad])) :
    (decode asserts m ⟨quartets_text qs ++ (final ++ tail), 4 * qs.length + final.length⟩
        out).map Prod.snd = .ok (3 * (qs.length + final.length / 4) - p) := by
  have hl := quartets_text_length qs
  rcases hfinal with ⟨rfl, rfl, c2, c3, t2, t3, n2, n3⟩ |
      ⟨rfl, s0, s1, s2, h0, h1, h2, rfl⟩ | ⟨rfl, s0, s1, h0, h1, rfl⟩
  · obtain ⟨m', hm'⟩ := decode_loop_quartets asserts
      ⟨quartets_text qs ++ ([] ++ tail), 4 * qs.length + ([] : List Nat).length⟩ out qs [] ([] ++ tail)
      0 0 m hqs rfl (by simp)
    simp only [List.length_nil, Nat.add_zero, Nat.zero_add] at hm'
    rw [decode_loop_exit _ _ _ _ _ _ (by simp)] at hm'
    have hdiv : (4 * qs.length) / 4 = qs.length := by omega
    have hmod : (4 * qs.length) % 4 = 0 := by omega
    simp only [decode, List.length_nil, Nat.add_zero, hdiv, hmod, ne_eq, not_true_eq_false,
      if_false, hm', ok_bind]
    rw [decode_padded_none asserts _ out _ _ _ c2 c3 n2 n3
      (by show (quartets_text qs ++ ([] ++ tail))[_]? = _
          rw [List.getElem?_append_right (by omega), hl, Nat.add_sub_cancel_left]; exact t2)
      (by show (quartets_text qs ++ ([] ++ tail))[_]? = _
          rw [List.getElem?_append_right (by omega), hl, Nat.add_sub_cancel_left]; exact t3)]
    simp [Except.map, bind, Except.bind, pure, Except.pure]
  · obtain ⟨m', hm'⟩ := decode_loop_quartets asserts
      ⟨quartets_text qs ++ ([index_table.getD s0 0, index_table.getD s1 0,
          index_table.getD s2 0, pad] ++ tail), 4 * qs.length + 4⟩ out qs []
      ([index_table.getD s0 0, index_table.getD s1 0, index_table.getD s2 0, pad] ++ tail)
      1 0 m hqs rfl (by simp)
    have rq := getElem?_quartet (quartets_text qs) tail (index_table.getD s0 0)
      (index_table.getD s1 0) (index_table.getD s2 0) pad
    rw [hl] at rq
    simp only [List.length_nil, Nat.zero_add] at hm'
    rw [decode_loop_break asserts _ out 0 _ _ _ _ rfl rq.2.2.1 rq.2.2.2] at hm'
    have hdiv : (4 * qs.length + 4) / 4 = qs.length + 1 := by omega
    have hmod : (4 * qs.length + 4) % 4 = 0 := by omega
    simp only [decode, List.length_cons, List.length_nil, Nat.zero_add, Nat.reduceAdd, hdiv,
      hmod, ne_eq, not_true_eq_false, if_false, hm', ok_bind]
    rw [decode_padded_one asserts _ out _ _ _ s0 s1 s2 h0 h1 h2 rfl rq.1 rq.2.1 rq.2.2.1
      rq.2.2.2]
    simp only [Except.map, bind, Except.bind, pure, Except.pure, dappend_list_snd,
      List.length_cons, List.length_nil, Nat.reduceDiv, Except.ok.injEq]
    omega
  · obtain ⟨m', hm'⟩ := decode_loop_quartets asserts
      ⟨quartets_text qs ++ ([index_table.getD s0 0, index_table.getD s1 0, pad, pad] ++ tail),
        4 * qs.length + 4⟩ out qs []
      ([index_table.getD s0 0, index_table.getD s1 0, pad, pad] ++ tail)
      1 0 m hqs rfl (by simp)
    have rq := getElem?_quartet (quartets_text qs) tail (index_table.getD s0 0)
      (index_table.getD s1 0) pad pad
    rw [hl] at rq
    simp only [List.length_nil, Nat.zero_add] at hm'
    rw [decode_loop_break asserts _ out 0 _ _ _ _ rfl rq.2.2.1 rq.2.2.2] at hm'
    have hdiv : (4 * qs.length + 4) / 4 = qs.length + 1 := by omega
    have hmod : (4 * qs.length + 4) % 4 = 0 := by omega
    simp only [decode, List.length_cons, List.length_nil, Nat.zero_add, Nat.reduceAdd, hdiv,
      hmod, ne_eq, not_true_eq_false, if_false, hm', ok_bind]
    rw [decode_padded_two asserts _ out _ _ _ s0 s1 h0 h1 rfl rq.1 rq.2.1 rq.2.2.1 rq.2.2.2]
    simp only [Except.map, bind, Except.bind, pure, Except.pure, dappend_list_snd,
      List.length_cons, List.length_nil, Nat.reduceDiv, Except.ok.injEq]
    omega

/-- The loop fuel never runs out in `decode`. -/
theorem decode_ne_fuel (asserts : Bool) (m : Mem) (encoded : csubstr) (buf : base64_wrapper) :
    decode asserts m encoded buf ≠ .error Err.fuel := by
  unfold decode
  by_cases h : encoded.len % 4 = 0
  · simp only [h, ne_eq, not_true_eq_false, if_false]
    refine bind_ne_fuel _ _ (by simp [pure, Except.pure]) (fun _ => ?_)
    refine bind_ne_fuel _ _ (decode_loop_fuel asserts encoded buf _ 0 0 m (by omega)) ?_
    rintro ⟨m', wpos, rpos⟩
    unfold decode_padded
    repeat' first
      | exact rd_ne_fuel _ _
      | exact table_idx_ne_fuel _
      | exact c4_assert_ne_fuel _ _
      | refine bind_ne_fuel _ _ ?_ (fun _ => ?_)
      | split
      | simp [pure, Except.pure]
  · simp only [h, ne_eq, not_false_eq_true, if_true]
    intro hc
    simp [bind, Except.bind, throw, throwThe, MonadExceptOf.throw] at hc

/-- C1: the round trip fails on a destination longer than the text that still holds the
padding of an earlier, longer text.  The view of 8 characters holds `AAAAAA==` (the
encoding of four zero bytes); encoding `Man` into it returns 4 and leaves `TWFuAA==`;
decoding the text, the first 4 characters of that array, returns 4 and not 3 (and stores
a fourth byte when the destination has room for it), because after the loop `decode`
tests `d[2]`, two places past the end of the text; with assertions compiled in, the call
stops at the assertion that a padded quartet is the last one; and when the array is
exactly the 4 characters of the text, that test reads outside the array. -/
theorem roundtrip_reads_past_text :
    (encode (fun _ => 0) ⟨0, 8⟩ [0, 0, 0, 0]).1.slice 0 8 = chars "AAAAAA==" ∧
    (encode (encode (fun _ => 0) ⟨0, 8⟩ [0, 0, 0, 0]).1 ⟨0, 8⟩ (chars "Man")).2 = 4 ∧
    (encode (encode (fun _ => 0) ⟨0, 8⟩ [0, 0, 0, 0]).1 ⟨0, 8⟩ (chars "Man")).1.slice 0 8
      = chars "TWFuAA==" ∧
    (decode false (fun _ => 1)
        ⟨(encode (encode (fun _ => 0) ⟨0, 8⟩ [0, 0, 0, 0]).1 ⟨0, 8⟩ (chars "Man")).1.slice 0 8,
          (encode (encode (fun _ => 0) ⟨0, 8⟩ [0, 0, 0, 0]).1 ⟨0, 8⟩ (chars "Man")).2⟩
        ⟨100, 3⟩).map (fun r => (r.1.slice 100 4, r.2)) = .ok (chars "Man" ++ [1], 4) ∧
    (decode false (fun _ => 1)
        ⟨(encode (encode (fun _ => 0) ⟨0, 8⟩ [0, 0, 0, 0]).1 ⟨0, 8⟩ (chars "Man")).1.slice 0 8,
          (encode (encode (fun _ => 0) ⟨0, 8⟩ [0, 0, 0, 0]).1 ⟨0, 8⟩ (chars "Man")).2⟩
        ⟨100, 8⟩).map (fun r => (r.1.slice 100 5, r.2)) = .ok (chars "Man" ++ [0, 1], 4) ∧
    (decode true (fun _ => 1)
        ⟨(encode (encode (fun _ => 0) ⟨0, 8⟩ [0, 0, 0, 0]).1 ⟨0, 8⟩ (chars "Man")).1.slice 0 8,
          (encode (encode (fun _ => 0) ⟨0, 8⟩ [0, 0, 0, 0]).1 ⟨0, 8⟩ (chars "Man")).2⟩
        ⟨100, 3⟩).map (fun r => r.2) = .error Err.assert ∧
    (decode false (fun _ => 1)
        ⟨(encode (fun _ => 0) ⟨0, 4⟩ (chars "Man")).1.slice 0 4,
          (encode (fun _ => 0) ⟨0, 4⟩ (chars "Man")).2⟩
        ⟨100, 3⟩).map (fun r => r.2) = .error Err.out_of_bounds := by
  refine ⟨by decide, by decide, by decide, rfl, rfl, rfl, rfl⟩

/-- C5: the returned count is not `3 * q - p` for a text without padding that is followed
in its array by a padded quartet.  The text is the first 8 characters (`q = 2`, `p = 0`)
of the array `TWFuTWFuTQ==`: `decode` returns 7, not 6, and stores a seventh byte when the
destination has room for it; with assertions compiled in it stops at an assertion; and
when nothing follows the text in its array the test after the loop reads outside the
array. -/
theorem decode_count_wrong_without_padding :
    (decode false (fun _ => 1) ⟨chars "TWFuTWFuTQ==", 8⟩ ⟨100, 6⟩).map
      (fun r => (r.1.slice 100 7, r.2)) = .ok (chars "ManMan" ++ [1], 7) ∧
    (decode false (fun _ => 1) ⟨chars "TWFuTWFuTQ==", 8⟩ ⟨100, 9⟩).map
      (fun r => (r.1.slice 100 8, r.2)) = .ok (chars "ManManM" ++ [1], 7) ∧
    (decode true (fun _ => 1) ⟨chars "TWFuTWFuTQ==", 8⟩ ⟨100, 6⟩).map
      (fun r => r.2) = .error Err.assert ∧
    (decode false (fun _ => 1) ⟨chars "TWFuTWFu", 8⟩ ⟨100, 6⟩).map
      (fun r => r.2) = .error Err.out_of_bounds := by
  refine ⟨rfl, rfl, rfl, rfl⟩

end detail.base64

/-! ## `format` with more placeholders than arguments -/

theorem before_append_after (fmt : List Nat) (k : Nat) :
    before_placeholders fmt k ++ after_placeholders fmt k = fmt := by
  induction fmt, k using before_placeholders.induct with
  | case1 fmt => simp [before_placeholders, after_placeholders]
  | case2 rest k ih => simp [before_placeholders, after_placeholders, ih]
  | case3 c rest k hne ih =>
    rw [before_placeholders.eq_3 _ _ _ hne, after_placeholders.eq_3 _ _ _ hne]
    simp [ih]
  | case4 k => simp [before_placeholders, after_placeholders]

theorem before_head (rest : List Nat) (k : Nat) (x : Nat) (tl : List Nat)
    (h : before_placeholders rest (k + 1) = x :: tl) : ∃ tl', rest = x :: tl' := by
  cases rest with
  | nil => simp [before_placeholders] at h
  | cons c rest' =>
    by_cases hc : ∃ r, c = 123 ∧ rest' = 125 :: r
    · obtain ⟨r, rfl, rfl⟩ := hc
      simp only [before_placeholders, List.cons.injEq] at h
      exact ⟨_, by rw [h.1]⟩
    · rw [before_placeholders.eq_3 _ _ _ (fun r h1 h2 => hc ⟨r, h1, h2⟩)] at h
      simp only [List.cons.injEq] at h
      exact ⟨_, by rw [h.1]⟩

theorem substitute_split (fmt : List Nat) (ts : List (List Nat)) :
    substitute fmt ts
      = substitute (before_placeholders fmt ts.length) ts ++ after_placeholders fmt ts.length := by
  induction fmt, ts using substitute.induct with
  | case1 fmt => simp [substitute, before_placeholders, after_placeholders]
  | case2 rest t ts ih =>
    simp only [substitute, List.length_cons, before_placeholders, after_placeholders,
      List.append_assoc]
    rw [← ih]
  | case3 c rest t ts hne ih =>
    simp only [List.length_cons] at ih ⊢
    rw [substitute.eq_3 _ _ _ _ hne, before_placeholders.eq_3 _ _ _ hne,
      after_placeholders.eq_3 _ _ _ hne, substitute.eq_3, List.cons_append, ← ih]
    intro r hc hr
    obtain ⟨tl', htl⟩ := before_head rest ts.length 125 r hr
    exact hne tl' hc htl
  | case4 t ts => simp [substitute, before_placeholders, after_placeholders]

theorem count_after (fmt : List Nat) (k : Nat) :
    count_placeholders (after_placeholders fmt k) = count_placeholders fmt - k := by
  induction fmt, k using after_placeholders.induct with
  | case1 fmt => simp [after_placeholders]
  | case2 rest k ih =>
    simp only [after_placeholders, count_placeholders, ih]
    omega
  | case3 c rest k hne ih =>
    rw [after_placeholders.eq_3 _ _ _ hne, count_placeholders.eq_2 _ _ hne, ih]
  | case4 k => simp [after_placeholders, count_placeholders]

/-- C11: for every template with more placeholders than arguments, each argument with its
text, and every destination view that holds the result, `format` stores the start of the
template, up to its placeholder number `k = ` the number of arguments, with those
placeholders replaced by the texts, and then the rest of the template exactly as it is: the
template is that start followed by that rest, and the rest still holds the other
placeholders, as literal text. -/
theorem format_keeps_surplus_placeholders (m : Mem) (buf : substr) (fmt : List Nat)
    (args : List (Ser × List Nat)) (htext : ∀ p ∈ args, p.1.has_text p.2)
    (hmore : args.length < count_placeholders fmt)
    (hsuff : (substitute fmt (args.map fun p => p.2)).length ≤ buf.len) :
    format m buf fmt (args.map fun p => p.1)
      = (m.write_list buf.str
          (substitute (before_placeholders fmt args.length) (args.map fun p => p.2)
            ++ after_placeholders fmt args.length),
         (substitute (before_placeholders fmt args.length) (args.map fun p => p.2)
            ++ after_placeholders fmt args.length).length) ∧
    before_placeholders fmt args.length ++ after_placeholders fmt args.length = fmt ∧
    count_placeholders (after_placeholders fmt args.length)
      = count_placeholders fmt - args.length ∧
    0 < count_placeholders (after_placeholders fmt args.length) := by
  have hs := substitute_split fmt (args.map fun p => p.2)
  rw [List.length_map] at hs
  refine ⟨?_, before_append_after fmt _, count_after fmt _, ?_⟩
  · rw [← hs]
    exact format_eq_write args m buf fmt htext hsuff
  · rw [count_after]; omega

/-- The example of C11: the template `{} {} {}` with the single argument `x` gives
`x {} {}`: `x`, then the rest ` {} {}` of the template with its two placeholders kept. -/
theorem format_keeps_surplus_placeholders_witness :
    (∀ p ∈ [(to_chars_text (chars "x"), chars "x")], p.1.has_text p.2) ∧
    [(to_chars_text (chars "x"), chars "x")].length
      < count_placeholders (chars "\x7b\x7d \x7b\x7d \x7b\x7d") ∧
    format (fun _ => 0) ⟨0, 7⟩ (chars "\x7b\x7d \x7b\x7d \x7b\x7d")
        [to_chars_text (chars "x")]
      = (Mem.write_list (fun _ => 0) 0 (chars "x \x7b\x7d \x7b\x7d"), 7) ∧
    after_placeholders (chars "\x7b\x7d \x7b\x7d \x7b\x7d") 1 = chars " \x7b\x7d \x7b\x7d" :=
  have htext : ∀ p ∈ [(to_chars_text (chars "x"), chars "x")], p.1.has_text p.2 := by
    intro p hp
    simp only [List.mem_singleton] at hp
    subst hp
    exact to_chars_text_has_text _
  ⟨htext, by decide,
    (format_keeps_surplus_placeholders (fun _ => 0) ⟨0, 7⟩
      (chars "\x7b\x7d \x7b\x7d \x7b\x7d") [(to_chars_text (chars "x"), chars "x")]
      htext (by decide) (by decide)).1,
    by decide⟩

namespace detail.base64

/-! ## `table_idx` -/

/-- What `table_idx` does on every byte: the five branches, the first of which also takes
the byte 64 (`@`), and `C4_NEVER_REACH` for every other byte. -/
theorem table_idx_cases (c : Nat) :
    (65 ≤ c ∧ c ≤ 90 → table_idx c = .ok ((c : Int) - 65)) ∧
    (97 ≤ c ∧ c ≤ 122 → table_idx c = .ok ((c : Int) - 97 + 26)) ∧
    (48 ≤ c ∧ c ≤ 57 → table_idx c = .ok ((c : Int) - 48 + 52)) ∧
    (c = 43 → table_idx c = .ok 62) ∧
    (c = 47 → table_idx c = .ok 63) ∧
    (c = 64 → table_idx c = .ok (-1)) ∧
    (¬ (64 ≤ c ∧ c ≤ 90) → ¬ (97 ≤ c ∧ c ≤ 122) → ¬ (48 ≤ c ∧ c ≤ 57) → c ≠ 43 → c ≠ 47 →
      table_idx c = .error Err.never_reach) := by
  refine ⟨?_, ?_, ?_, ?_, ?_, ?_, ?_⟩
  · intro h
    simp only [table_idx, show 64 ≤ c ∧ c ≤ 90 from ⟨by omega, h.2⟩, and_self, if_true]
    rfl
  · intro h
    rw [table_idx, if_neg (by omega), if_pos h]
    show Except.ok _ = _
    congr 1; omega
  · intro h
    rw [table_idx, if_neg (by omega), if_neg (by omega), if_pos h]
    show Except.ok _ = _
    congr 1; omega
  · rintro rfl; rfl
  · rintro rfl; rfl
  · rintro rfl; rfl
  · intro h1 h2 h3 h4 h5
    rw [table_idx, if_neg h1, if_neg h2, if_neg h3, if_neg h4, if_neg h5]
    rfl

/-- C20: the byte 64, the character `@`, is not a symbol of the alphabet, yet `table_idx`
does not reach `C4_NEVER_REACH` on it: the first range test is `c >= 64` where `A` is 65,
and the call returns `c - 'A'`, which is `-1` and no 6-bit value.  On `A` it returns 0, and
on `?` (63) and `[` (91), the other neighbours of the range, it reaches
`C4_NEVER_REACH`. -/
theorem table_idx_accepts_at_sign :
    table_idx 64 = .ok (-1) ∧ table_idx 65 = .ok 0 ∧ table_idx 90 = .ok 25 ∧
    table_idx 63 = .error Err.never_reach ∧ table_idx 91 = .error Err.never_reach :=
  ⟨rfl, rfl, rfl, rfl, rfl⟩

end detail.base64

/-! ## Binary pass-through -/

/-- C15: for every value with raw representation `rep` of `s` bytes and every destination
view, the binary `to_chars` returns `s`; when the view has at least `s` positions, its
first `s` positions receive `rep` and every other address keeps its byte; when the view
is shorter, no address changes. -/
theorem to_chars_binary_spec (m : Mem) (buf : substr) (rep : List Nat) :
    (to_chars_binary rep m buf).2 = rep.length ∧
    (rep.length ≤ buf.len →
      (to_chars_binary rep m buf).1.slice buf.str rep.length = rep ∧
      ∀ j, ¬ (buf.str ≤ j ∧ j < buf.str + rep.length) → (to_chars_binary rep m buf).1 j = m j) ∧
    (buf.len < rep.length → (to_chars_binary rep m buf).1 = m) := by
  refine ⟨rfl, ?_, ?_⟩
  · intro h
    simp only [to_chars_binary, if_pos h]
    refine ⟨Mem.slice_write_list rep m buf.str, ?_⟩
    intro j hj
    exact Mem.write_list_outside rep m buf.str j (by omega)
  · intro h
    simp only [to_chars_binary, if_neg (by omega : ¬ rep.length ≤ buf.len)]

/-- A value of 4 bytes: a view of 6 positions receives them in its first 4, and a view of
3 positions is left as it was. -/
theorem to_chars_binary_spec_witness :
    ([1, 2, 3, 4] : List Nat).length ≤ (⟨10, 6⟩ : substr).len ∧
    (to_chars_binary [1, 2, 3, 4] (fun _ => 9) ⟨10, 6⟩).1.slice 10 4 = [1, 2, 3, 4] ∧
    (to_chars_binary [1, 2, 3, 4] (fun _ => 9) ⟨10, 6⟩).1.slice 8 10
      = [9, 9, 1, 2, 3, 4, 9, 9, 9, 9] ∧
    (⟨10, 3⟩ : substr).len < ([1, 2, 3, 4] : List Nat).length ∧
    (to_chars_binary [1, 2, 3, 4] (fun _ => 9) ⟨10, 3⟩).1 = (fun _ => 9) ∧
    (to_chars_binary [1, 2, 3, 4] (fun _ => 9) ⟨10, 3⟩).2 = 4 :=
  ⟨by decide,
    ((to_chars_binary_spec (fun _ => 9) ⟨10, 6⟩ [1, 2, 3, 4]).2.1 (by decide)).1,
    by decide, by decide,
    (to_chars_binary_spec (fun _ => 9) ⟨10, 3⟩ [1, 2, 3, 4]).2.2 (by decide),
    rfl⟩

/-- C16: for every source view and every target of a type of `s` bytes, the binary
`from_chars` returns `npos` exactly when the view has fewer than `s` characters, and then
the target is unchanged; otherwise it returns `s` and the target holds the first `s`
characters of the view; so reading back the view into which the binary `to_chars` wrote a
value of `s` bytes, a view of at least `s` positions, gives that value. -/
theorem from_chars_binary_spec (s : Nat) (buf val : List Nat) :
    ((from_chars_binary s buf val).2 = none ↔ buf.length < s) ∧
    (buf.length < s → (from_chars_binary s buf val).1 = val) ∧
    (s ≤ buf.length → from_chars_binary s buf val = (buf.take s, some s)) ∧
    (∀ (m : Mem) (dest : substr) (rep : List Nat), rep.length = s → s ≤ dest.len →
      from_chars_binary s ((to_chars_binary rep m dest).1.slice dest.str dest.len) val
        = (rep, some s)) := by
  refine ⟨?_, ?_, ?_, ?_⟩
  · by_cases h : s > buf.length
    · simp [from_chars_binary, h]
    · simp only [from_chars_binary, if_neg h]
      constructor
      · intro hc; cases hc
      · intro hc; omega
  · intro h
    simp only [from_chars_binary, if_pos (show s > buf.length from h)]
  · intro h
    simp only [from_chars_binary, if_neg (by omega : ¬ s > buf.length)]
  · intro m dest rep hrep hsuff
    subst hrep
    have hslice : ((to_chars_binary rep m dest).1.slice dest.str dest.len).take rep.length
        = rep := by
      simp only [to_chars_binary, if_pos hsuff]
      conv_lhs => rw [show dest.len = rep.length + (dest.len - rep.length) by omega]
      rw [Mem.slice_add, Mem.slice_write_list, List.take_left']
      rfl
    simp only [from_chars_binary, Mem.slice_length,
      if_neg (by omega : ¬ rep.length > dest.len), hslice]

/-- A value of 4 bytes written into a view of 6 positions is read back; a view of 3
characters gives `npos` and leaves the target. -/
theorem from_chars_binary_spec_witness :
    ([1, 2, 3, 4] : List Nat).length = 4 ∧ 4 ≤ (⟨10, 6⟩ : substr).len ∧
    from_chars_binary 4 ((to_chars_binary [1, 2, 3, 4] (fun _ => 9) ⟨10, 6⟩).1.slice 10 6)
      [0, 0, 0, 0] = ([1, 2, 3, 4], some 4) ∧
    [5, 6, 7].length < 4 ∧
    (from_chars_binary 4 [5, 6, 7] [0, 0, 0, 0]).1 = [0, 0, 0, 0] ∧
    (from_chars_binary 4 [5, 6, 7] [0, 0, 0, 0]).2 = none :=
  ⟨rfl, by decide,
    (from_chars_binary_spec 4 [5, 6, 7] [0, 0, 0, 0]).2.2.2 (fun _ => 9) ⟨10, 6⟩ [1, 2, 3, 4] rfl
      (by decide),
    by decide,
    (from_chars_binary_spec 4 [5, 6, 7] [0, 0, 0, 0]).2.1 (by decide),
    rfl⟩

/-! ## The inverse operations: failure stops at once -/

theorem drop_view (buf : List Nat) (n : Nat) :
    (if buf.length ≥ n then buf.drop n else []) = buf.drop n := by
  split
  · rfl
  · rw [List.drop_eq_nil_of_le (by omega)]

theorem uncat_fail_head {V : Type} (buf : List Nat) (d : De V) (a : V)
    (more : List (De V × V)) (h : (d buf a).2 = none) :
    uncat buf ((d, a) :: more) = ((d buf a).1 :: more.map Prod.snd, none) := by
  simp only [uncat, h]

theorem uncat_ok_head {V : Type} (buf : List Nat) (d : De V) (a : V)
    (more : List (De V × V)) (out : Nat) (h : (d buf a).2 = some out) :
    uncat buf ((d, a) :: more)
      = ((d buf a).1 :: (uncat (buf.drop out) more).1,
          (uncat (buf.drop out) more).2.map (out + ·)) := by
  simp only [uncat, h, drop_view]
  cases (uncat (buf.drop out) more).2 <;> rfl

theorem uncat_append {V : Type} (pre rest : List (De V × V)) :
    ∀ (buf : List Nat) (vs : List V) (n : Nat), uncat buf pre = (vs, some n) →
      uncat buf (pre ++ rest)
        = (vs ++ (uncat (buf.drop n) rest).1, (uncat (buf.drop n) rest).2.map (n + ·)) := by
  induction pre with
  | nil =>
    intro buf vs n h
    simp only [uncat, Prod.mk.injEq, Option.some.injEq] at h
    obtain ⟨rfl, rfl⟩ := h
    simp
  | cons p pre ih =>
    obtain ⟨d, a⟩ := p
    intro buf vs n h
    cases ho : (d buf a).2 with
    | none => rw [uncat_fail_head _ _ _ _ ho] at h; simp at h
    | some out =>
      rw [uncat_ok_head _ _ _ _ _ ho] at h
      cases hr : (uncat (buf.drop out) pre).2 with
      | none => rw [hr] at h; simp at h
      | some k =>
        rw [hr] at h
        simp only [Option.map_some', Prod.mk.injEq, Option.some.injEq] at h
        obtain ⟨rfl, rfl⟩ := h
        have := ih (buf.drop out) (uncat (buf.drop out) pre).1 k (by rw [← hr])
        rw [List.cons_append, uncat_ok_head _ _ _ _ _ ho, this, List.drop_drop]
        simp only [List.cons_append, Option.map_map, Prod.mk.injEq, true_and]
        rw [show out + k = k + out by omega]
        congr 1
        funext x
        simp only [Function.comp]
        omega

theorem uncat_fail_at {V : Type} (buf : List Nat) (pre post : List (De V × V)) (d : De V)
    (a : V) (vs : List V) (n : Nat) (hpre : uncat buf pre = (vs, some n))
    (hfail : (d (buf.drop n) a).2 = none) :
    uncat buf (pre ++ (d, a) :: post)
      = (vs ++ (d (buf.drop n) a).1 :: post.map Prod.snd, none) := by
  rw [uncat_append pre _ buf vs n hpre, uncat_fail_head _ _ _ _ hfail]
  rfl

theorem uncat_none {V : Type} (args : List (De V × V)) :
    ∀ (buf : List Nat) (vs : List V), uncat buf args = (vs, none) →
      ∃ (pre post : List (De V × V)) (d : De V) (a : V) (vs' : List V) (n : Nat),
        args = pre ++ (d, a) :: post ∧ uncat buf pre = (vs', some n) ∧
        (d (buf.drop n) a).2 = none := by
  induction args with
  | nil => intro buf vs h; simp [uncat] at h
  | cons p more ih =>
    obtain ⟨d, a⟩ := p
    intro buf vs h
    cases ho : (d buf a).2 with
    | none => exact ⟨[], more, d, a, [], 0, rfl, rfl, by simpa using ho⟩
    | some out =>
      rw [uncat_ok_head _ _ _ _ _ ho] at h
      cases hr : (uncat (buf.drop out) more).2 with
      | some k => rw [hr] at h; simp at h
      | none =>
        obtain ⟨pre, post, d', a', vs', n, h1, h2, h3⟩ :=
          ih (buf.drop out) (uncat (buf.drop out) more).1 (by rw [← hr])
        refine ⟨(d, a) :: pre, post, d', a', (d buf a).1 :: vs', out + n, by rw [h1]; rfl, ?_, ?_⟩
        · rw [uncat_ok_head _ _ _ _ _ ho, h2]; rfl
        · rw [List.drop_drop] at h3
          exact h3

/-! ### `uncatsep` -/

theorem uncatsep_more_sep_fail {V : Type} (buf : List Nat) (dsep : De V) (sep : V)
    (d : De V) (a : V) (more : List (De V × V)) (h : (dsep buf sep).2 = none) :
    detail.uncatsep_more buf dsep sep ((d, a) :: more)
      = ((dsep buf sep).1, a :: more.map Prod.snd, none) := by
  simp only [detail.uncatsep_more, h]

theorem uncatsep_more_arg_fail {V : Type} (buf : List Nat) (dsep : De V) (sep : V)
    (d : De V) (a : V) (more : List (De V × V)) (s : Nat) (h : (dsep buf sep).2 = some s)
    (ha : (d (buf.drop s) a).2 = none) :
    detail.uncatsep_more buf dsep sep ((d, a) :: more)
      = ((dsep buf sep).1, (d (buf.drop s) a).1 :: more.map Prod.snd, none) := by
  simp only [detail.uncatsep_more, h, drop_view, ha]

theorem uncatsep_more_ok_head {V : Type} (buf : List Nat) (dsep : De V) (sep : V)
    (d : De V) (a : V) (more : List (De V × V)) (s r : Nat) (h : (dsep buf sep).2 = some s)
    (ha : (d (buf.drop s) a).2 = some r) :
    detail.uncatsep_more buf dsep sep ((d, a) :: more)
      = ((detail.uncatsep_more (buf.drop (s + r)) dsep (dsep buf sep).1 more).1,
          (d (buf.drop s) a).1
            :: (detail.uncatsep_more (buf.drop (s + r)) dsep (dsep buf sep).1 more).2.1,
          (detail.uncatsep_more (buf.drop (s + r)) dsep (dsep buf sep).1 more).2.2.map
            (s + r + ·)) := by
  have hd : (buf.drop s).drop r = buf.drop (s + r) := by
    rw [List.drop_drop]
  simp only [detail.uncatsep_more, h, drop_view, ha]
  rw [hd]
  cases (detail.uncatsep_more (buf.drop (s + r)) dsep (dsep buf sep).1 more).2.2 <;> rfl

theorem uncatsep_more_append {V : Type} (dsep : De V) (pre rest : List (De V × V)) :
    ∀ (buf : List Nat) (sep sep₁ : V) (vs : List V) (n : Nat),
      detail.uncatsep_more buf dsep sep pre = (sep₁, vs, some n) →
      detail.uncatsep_more buf dsep sep (pre ++ rest)
        = ((detail.uncatsep_more (buf.drop n) dsep sep₁ rest).1,
            vs ++ (detail.uncatsep_more (buf.drop n) dsep sep₁ rest).2.1,
            (detail.uncatsep_more (buf.drop n) dsep sep₁ rest).2.2.map (n + ·)) := by
  induction pre with
  | nil =>
    intro buf sep sep₁ vs n h
    simp only [detail.uncatsep_more, Prod.mk.injEq, Option.some.injEq] at h
    obtain ⟨rfl, rfl, rfl⟩ := h
    simp
  | cons p pre ih =>
    obtain ⟨d, a⟩ := p
    intro buf sep sep₁ vs n h
    cases hs : (dsep buf sep).2 with
    | none => rw [uncatsep_more_sep_fail _ _ _ _ _ _ hs] at h; simp at h
    | some s =>
      cases ha : (d (buf.drop s) a).2 with
      | none => rw [uncatsep_more_arg_fail _ _ _ _ _ _ _ hs ha] at h; simp at h
      | some r =>
        rw [uncatsep_more_ok_head _ _ _ _ _ _ _ _ hs ha] at h
        cases hr : (detail.uncatsep_more (buf.drop (s + r)) dsep (dsep buf sep).1 pre).2.2 with
        | none => rw [hr] at h; simp at h
        | some k =>
          rw [hr] at h
          simp only [Option.map_some', Prod.mk.injEq, Option.some.injEq] at h
          obtain ⟨h1, h2, h3⟩ := h
          have := ih (buf.drop (s + r)) (dsep buf sep).1 sep₁
            (detail.uncatsep_more (buf.drop (s + r)) dsep (dsep buf sep).1 pre).2.1 k
            (by rw [← hr, ← h1])
          rw [List.cons_append, uncatsep_more_ok_head _ _ _ _ _ _ _ _ hs ha, this,
            List.drop_drop, ← h2, ← h3]
          simp only [List.cons_append, Option.map_map, Prod.mk.injEq, true_and]
          congr 1
          funext x
          simp only [Function.comp]
          omega

theorem uncatsep_more_none {V : Type} (dsep : De V) (args : List (De V × V)) :
    ∀ (buf : List Nat) (sep sep' : V) (vs : List V),
      detail.uncatsep_more buf dsep sep args = (sep', vs, none) →
      ∃ (pre post : List (De V × V)) (d : De V) (a : V) (sep₁ : V) (vs' : List V) (n : Nat),
        args = pre ++ (d, a) :: post ∧
        detail.uncatsep_more buf dsep sep pre = (sep₁, vs', some n) ∧
        ((dsep (buf.drop n) sep₁).2 = none ∨
          ∃ s, (dsep (buf.drop n) sep₁).2 = some s ∧ (d (buf.drop (n + s)) a).2 = none) := by
  induction args with
  | nil => intro buf sep sep' vs h; simp [detail.uncatsep_more] at h
  | cons p more ih =>
    obtain ⟨d, a⟩ := p
    intro buf sep sep' vs h
    cases hs : (dsep buf sep).2 with
    | none => exact ⟨[], more, d, a, sep, [], 0, rfl, rfl, Or.inl (by simpa using hs)⟩
    | some s =>
      cases ha : (d (buf.drop s) a).2 with
      | none =>
        exact ⟨[], more, d, a, sep, [], 0, rfl, rfl,
          Or.inr ⟨s, by simpa using hs, by simpa using ha⟩⟩
      | some r =>
        rw [uncatsep_more_ok_head _ _ _ _ _ _ _ _ hs ha] at h
        cases hr : (detail.uncatsep_more (buf.drop (s + r)) dsep (dsep buf sep).1 more).2.2 with
        | some k => rw [hr] at h; simp at h
        | none =>
          obtain ⟨pre, post, d', a', sep₁, vs', n, h1, h2, h3⟩ :=
            ih (buf.drop (s + r)) (dsep buf sep).1
              (detail.uncatsep_more (buf.drop (s + r)) dsep (dsep buf sep).1 more).1
              (detail.uncatsep_more (buf.drop (s + r)) dsep (dsep buf sep).1 more).2.1
              (by rw [← hr])
          refine ⟨(d, a) :: pre, post, d', a', sep₁, (d (buf.drop s) a).1 :: vs', s + r + n,
            by rw [h1]; rfl, ?_, ?_⟩
          · rw [uncatsep_more_ok_head _ _ _ _ _ _ _ _ hs ha, h2]; rfl
          · simp only [List.drop_drop] at h3
            rcases h3 with h3 | ⟨s', h3, h4⟩
            · exact Or.inl h3
            · refine Or.inr ⟨s', h3, ?_⟩
              rw [show s + r + n + s' = s + r + (n + s') by omega]
              exact h4

theorem uncatsep_first_fail {V : Type} (buf : List Nat) (dsep : De V) (sep : V)
    (first : De V × V) (more : List (De V × V)) (h : (first.1 buf first.2).2 = none) :
    uncatsep buf dsep sep first more
      = (sep, (first.1 buf first.2).1, more.map Prod.snd, none) := by
  simp only [uncatsep, h]

theorem uncatsep_ok {V : Type} (buf : List Nat) (dsep : De V) (sep : V)
    (first : De V × V) (more : List (De V × V)) (r : Nat)
    (h : (first.1 buf first.2).2 = some r) :
    uncatsep buf dsep sep first more
      = ((detail.uncatsep_more (buf.drop r) dsep sep more).1, (first.1 buf first.2).1,
          (detail.uncatsep_more (buf.drop r) dsep sep more).2.1,
          (detail.uncatsep_more (buf.drop r) dsep sep more).2.2.map (r + ·)) := by
  simp only [uncatsep, h, drop_view]
  cases (detail.uncatsep_more (buf.drop r) dsep sep more).2.2 <;> rfl

theorem uncatsep_prefix {V : Type} (buf : List Nat) (dsep : De V) (sep : V)
    (first : De V × V) (pre : List (De V × V)) (sep₁ a₀ : V) (vs : List V) (n : Nat)
    (h : uncatsep buf dsep sep first pre = (sep₁, a₀, vs, some n)) :
    ∃ r k, (first.1 buf first.2).2 = some r ∧ (first.1 buf first.2).1 = a₀ ∧ n = r + k ∧
      detail.uncatsep_more (buf.drop r) dsep sep pre = (sep₁, vs, some k) := by
  cases hf : (first.1 buf first.2).2 with
  | none => rw [uncatsep_first_fail _ _ _ _ _ hf] at h; simp at h
  | some r =>
    rw [uncatsep_ok _ _ _ _ _ _ hf] at h
    cases hr : (detail.uncatsep_more (buf.drop r) dsep sep pre).2.2 with
    | none => rw [hr] at h; simp at h
    | some k =>
      rw [hr] at h
      simp only [Option.map_some', Prod.mk.injEq, Option.some.injEq] at h
      obtain ⟨h1, h2, h3, h4⟩ := h
      exact ⟨r, k, rfl, h2, h4.symm, by rw [← h1, ← h3, ← hr]⟩

theorem uncatsep_sep_fail_at {V : Type} (buf : List Nat) (dsep : De V) (sep : V)
    (first : De V × V) (pre post : List (De V × V)) (d : De V) (a : V) (sep₁ a₀ : V)
    (vs : List V) (n : Nat)
    (hpre : uncatsep buf dsep sep first pre = (sep₁, a₀, vs, some n))
    (hfail : (dsep (buf.drop n) sep₁).2 = none) :
    uncatsep buf dsep sep first (pre ++ (d, a) :: post)
      = ((dsep (buf.drop n) sep₁).1, a₀, vs ++ a :: post.map Prod.snd, none) := by
  obtain ⟨r, k, h1, h2, rfl, h4⟩ := uncatsep_prefix _ _ _ _ _ _ _ _ _ hpre
  have hd : (buf.drop r).drop k = buf.drop (r + k) := by rw [List.drop_drop]
  rw [uncatsep_ok _ _ _ _ _ _ h1, uncatsep_more_append dsep pre _ _ _ _ _ _ h4, hd,
    uncatsep_more_sep_fail _ _ _ _ _ _ hfail, h2]
  rfl

theorem uncatsep_arg_fail_at {V : Type} (buf : List Nat) (dsep : De V) (sep : V)
    (first : De V × V) (pre post : List (De V × V)) (d : De V) (a : V) (sep₁ a₀ : V)
    (vs : List V) (n s : Nat)
    (hpre : uncatsep buf dsep sep first pre = (sep₁, a₀, vs, some n))
    (hsep : (dsep (buf.drop n) sep₁).2 = some s)
    (hfail : (d (buf.drop (n + s)) a).2 = none) :
    uncatsep buf dsep sep first (pre ++ (d, a) :: post)
      = ((dsep (buf.drop n) sep₁).1, a₀,
          vs ++ (d (buf.drop (n + s)) a).1 :: post.map Prod.snd, none) := by
  obtain ⟨r, k, h1, h2, rfl, h4⟩ := uncatsep_prefix _ _ _ _ _ _ _ _ _ hpre
  have hd : (buf.drop r).drop k = buf.drop (r + k) := by rw [List.drop_drop]
  have hd2 : (buf.drop (r + k)).drop s = buf.drop (r + k + s) := by rw [List.drop_drop]
  rw [uncatsep_ok _ _ _ _ _ _ h1, uncatsep_more_append dsep pre _ _ _ _ _ _ h4, hd,
    uncatsep_more_arg_fail _ _ _ _ _ _ s hsep (by rw [hd2]; exact hfail), h2, hd2]
  rfl

theorem uncatsep_none {V : Type} (buf : List Nat) (dsep : De V) (sep : V)
    (first : De V × V) (more : List (De V × V)) (sep' a' : V) (vs : List V)
    (h : uncatsep buf dsep sep first more = (sep', a', vs, none)) :
    (first.1 buf first.2).2 = none ∨
    ∃ (pre post : List (De V × V)) (d : De V) (a : V) (sep₁ a₀ : V) (vs' : List V) (n : Nat),
      more = pre ++ (d, a) :: post ∧
      uncatsep buf dsep sep first pre = (sep₁, a₀, vs', some n) ∧
      ((dsep (buf.drop n) sep₁).2 = none ∨
        ∃ s, (dsep (buf.drop n) sep₁).2 = some s ∧ (d (buf.drop (n + s)) a).2 = none) := by
  cases hf : (first.1 buf first.2).2 with
  | none => exact Or.inl rfl
  | some r =>
    right
    rw [uncatsep_ok _ _ _ _ _ _ hf] at h
    cases hr : (detail.uncatsep_more (buf.drop r) dsep sep more).2.2 with
    | some k => rw [hr] at h; simp at h
    | none =>
      obtain ⟨pre, post, d, a, sep₁, vs', n, h1, h2, h3⟩ :=
        uncatsep_more_none dsep more (buf.drop r) sep _ _ (by rw [← hr])
      refine ⟨pre, post, d, a, sep₁, (first.1 buf first.2).1, vs', r + n, h1, ?_, ?_⟩
      · rw [uncatsep_ok _ _ _ _ _ _ hf, h2]; rfl
      · simp only [List.drop_drop] at h3
        rcases h3 with h3 | ⟨s, h3, h4⟩
        · exact Or.inl h3
        · refine Or.inr ⟨s, h3, ?_⟩
          rw [show r + n + s = r + (n + s) by omega]
          exact h4

/-! ### `unformat` -/

theorem unformat_no_placeholder {V : Type} (buf fmt : List Nat) (d : De V) (a : V)
    (more : List (De V × V)) (h : find_placeholder fmt = none) :
    unformat buf fmt ((d, a) :: more) = (a :: more.map Prod.snd, some 0) := by
  simp only [unformat, h]

theorem unformat_fail_head {V : Type} (buf fmt : List Nat) (d : De V) (a : V)
    (more : List (De V × V)) (pos : Nat) (h : find_placeholder fmt = some pos)
    (hfail : (d (buf.drop pos) a).2 = none) :
    unformat buf fmt ((d, a) :: more) = ((d (buf.drop pos) a).1 :: more.map Prod.snd, none) := by
  simp only [unformat, h, drop_view, hfail]

theorem unformat_ok_head {V : Type} (buf fmt : List Nat) (d : De V) (a : V)
    (more : List (De V × V)) (pos r : Nat) (h : find_placeholder fmt = some pos)
    (hok : (d (buf.drop pos) a).2 = some r) :
    unformat buf fmt ((d, a) :: more)
      = ((d (buf.drop pos) a).1 :: (unformat (buf.drop (pos + r)) (fmt.drop (pos + 2)) more).1,
          (unformat (buf.drop (pos + r)) (fmt.drop (pos + 2)) more).2.map (pos + r + ·)) := by
  have hd : (buf.drop pos).drop r = buf.drop (pos + r) := by rw [List.drop_drop]
  simp only [unformat, h, drop_view, hok]
  rw [hd]
  cases (unformat (buf.drop (pos + r)) (fmt.drop (pos + 2)) more).2 <;> rfl

theorem find_some_after (fmt : List Nat) :
    ∀ pos k, find_placeholder fmt = some pos →
      after_placeholders fmt (k + 1) = after_placeholders (fmt.drop (pos + 2)) k := by
  induction fmt using count_placeholders.induct with
  | case1 rest ih =>
    intro pos k h
    simp only [find_placeholder, Option.some.injEq] at h
    subst h
    simp [after_placeholders]
  | case2 c rest hne ih =>
    intro pos k h
    rw [find_placeholder.eq_2 _ _ hne] at h
    obtain ⟨q, hq, rfl⟩ := Option.map_eq_some'.1 h
    rw [after_placeholders.eq_3 _ _ _ hne, ih q k hq]
    simp
  | case3 => intro pos k h; simp [find_placeholder] at h

theorem find_of_count_pos (fmt : List Nat) (h : 0 < count_placeholders fmt) :
    ∃ pos, find_placeholder fmt = some pos := by
  cases hf : find_placeholder fmt with
  | none => rw [find_none_count fmt hf] at h; omega
  | some pos => exact ⟨pos, rfl⟩

theorem unformat_append {V : Type} (pre rest : List (De V × V)) :
    ∀ (buf fmt : List Nat) (vs : List V) (n : Nat), unformat buf fmt pre = (vs, some n) →
      pre.length ≤ count_placeholders fmt →
      unformat buf fmt (pre ++ rest)
        = (vs ++ (unformat (buf.drop n) (after_placeholders fmt pre.length) rest).1,
            (unformat (buf.drop n) (after_placeholders fmt pre.length) rest).2.map (n + ·)) := by
  induction pre with
  | nil =>
    intro buf fmt vs n h _
    simp only [unformat, Prod.mk.injEq, Option.some.injEq] at h
    obtain ⟨rfl, rfl⟩ := h
    simp [after_placeholders]
  | cons p pre ih =>
    obtain ⟨d, a⟩ := p
    intro buf fmt vs n h hlen
    simp only [List.length_cons] at hlen
    obtain ⟨pos, hf⟩ := find_of_count_pos fmt (by omega)
    have hc := find_some_count fmt pos hf
    cases ho : (d (buf.drop pos) a).2 with
    | none => rw [unformat_fail_head _ _ _ _ _ _ hf ho] at h; simp at h
    | some r =>
      rw [unformat_ok_head _ _ _ _ _ _ _ hf ho] at h
      cases hr : (unformat (buf.drop (pos + r)) (fmt.drop (pos + 2)) pre).2 with
      | none => rw [hr] at h; simp at h
      | some k =>
        rw [hr] at h
        simp only [Option.map_some', Prod.mk.injEq, Option.some.injEq] at h
        obtain ⟨rfl, rfl⟩ := h
        have := ih (buf.drop (pos + r)) (fmt.drop (pos + 2))
          (unformat (buf.drop (pos + r)) (fmt.drop (pos + 2)) pre).1 k (by rw [← hr])
          (by omega)
        rw [List.cons_append, unformat_ok_head _ _ _ _ _ _ _ hf ho, this, List.drop_drop,
          List.length_cons, find_some_after fmt pos pre.length hf]
        simp only [List.cons_append, Option.map_map, Prod.mk.injEq, true_and]
        congr 1
        funext x
        simp only [Function.comp]
        omega

theorem unformat_fail_at {V : Type} (buf fmt : List Nat) (pre post : List (De V × V))
    (d : De V) (a : V) (vs : List V) (n pos : Nat)
    (hpre : unformat buf fmt pre = (vs, some n))
    (hfind : find_placeholder (after_placeholders fmt pre.length) = some pos)
    (hfail : (d (buf.drop (n + pos)) a).2 = none) :
    unformat buf fmt (pre ++ (d, a) :: post)
      = (vs ++ (d (buf.drop (n + pos)) a).1 :: post.map Prod.snd, none) := by
  have hlen : pre.length ≤ count_placeholders fmt := by
    have := find_some_count _ pos hfind
    rw [count_after] at this
    omega
  have hd : (buf.drop n).drop pos = buf.drop (n + pos) := by rw [List.drop_drop]
  rw [unformat_append pre _ buf fmt vs n hpre hlen,
    unformat_fail_head _ _ _ _ _ _ hfind (by rw [hd]; exact hfail), hd]
  rfl

theorem unformat_none {V : Type} (args : List (De V × V)) :
    ∀ (buf fmt : List Nat) (vs : List V), unformat buf fmt args = (vs, none) →
      ∃ (pre post : List (De V × V)) (d : De V) (a : V) (vs' : List V) (n pos : Nat),
        args = pre ++ (d, a) :: post ∧ unformat buf fmt pre = (vs', some n) ∧
        find_placeholder (after_placeholders fmt pre.length) = some pos ∧
        (d (buf.drop (n + pos)) a).2 = none := by
  induction args with
  | nil => intro buf fmt vs h; simp [unformat] at h
  | cons p more ih =>
    obtain ⟨d, a⟩ := p
    intro buf fmt vs h
    cases hf : find_placeholder fmt with
    | none => rw [unformat_no_placeholder _ _ _ _ _ hf] at h; simp at h
    | some pos =>
      cases ho : (d (buf.drop pos) a).2 with
      | none =>
        exact ⟨[], more, d, a, [], 0, pos, rfl, rfl, by simpa [after_placeholders] using hf,
          by simpa using ho⟩
      | some r =>
        rw [unformat_ok_head _ _ _ _ _ _ _ hf ho] at h
        cases hr : (unformat (buf.drop (pos + r)) (fmt.drop (pos + 2)) more).2 with
        | some k => rw [hr] at h; simp at h
        | none =>
          obtain ⟨pre, post, d', a', vs', n, pos', h1, h2, h3, h4⟩ :=
            ih (buf.drop (pos + r)) (fmt.drop (pos + 2)) _ (by rw [← hr])
          refine ⟨(d, a) :: pre, post, d', a', (d (buf.drop pos) a).1 :: vs', pos + r + n, pos',
            by rw [h1]; rfl, ?_, ?_, ?_⟩
          · rw [unformat_ok_head _ _ _ _ _ _ _ hf ho, h2]; rfl
          · rw [List.length_cons, find_some_after fmt pos pre.length hf]; exact h3
          · rw [List.drop_drop] at h4
            rw [show pos + r + n + pos' = pos + r + (n + pos') by omega]
            exact h4

/-- C12: in `uncat`, `uncatsep` and `unformat`, when the components before one have been
deserialized (the call on them alone returns a length `n`) and the deserializer of that
component returns `npos` on the view it receives, the operation returns `npos`, the
targets before it hold the values deserialized into them, and every later target holds
the value it held before, whatever its deserializer is; and the operation returns `npos`
only if the deserializer of some component does.  In `uncatsep` the components are the
first argument and then, for each later argument, the separator and that argument; in
`unformat` an argument is a component when the template still has a placeholder, and it
receives the view after the literal text before the placeholder. -/
theorem inverse_operations_fail_fast {V : Type} (buf : List Nat) :
    (∀ (pre post : List (De V × V)) (d : De V) (a : V) (vs : List V) (n : Nat),
      uncat buf pre = (vs, some n) → (d (buf.drop n) a).2 = none →
      uncat buf (pre ++ (d, a) :: post)
        = (vs ++ (d (buf.drop n) a).1 :: post.map Prod.snd, none)) ∧
    (∀ (args : List (De V × V)) (vs : List V), uncat buf args = (vs, none) →
      ∃ (pre post : List (De V × V)) (d : De V) (a : V) (vs' : List V) (n : Nat),
        args = pre ++ (d, a) :: post ∧ uncat buf pre = (vs', some n) ∧
        (d (buf.drop n) a).2 = none) ∧
    (∀ (dsep : De V) (sep : V) (first : De V × V) (more : List (De V × V)),
      (first.1 buf first.2).2 = none →
      uncatsep buf dsep sep first more
        = (sep, (first.1 buf first.2).1, more.map Prod.snd, none)) ∧
    (∀ (dsep : De V) (sep : V) (first : De V × V) (pre post : List (De V × V)) (d : De V)
        (a sep₁ a₀ : V) (vs : List V) (n : Nat),
      uncatsep buf dsep sep first pre = (sep₁, a₀, vs, some n) →
      (dsep (buf.drop n) sep₁).2 = none →
      uncatsep buf dsep sep first (pre ++ (d, a) :: post)
        = ((dsep (buf.drop n) sep₁).1, a₀, vs ++ a :: post.map Prod.snd, none)) ∧
    (∀ (dsep : De V) (sep : V) (first : De V × V) (pre post : List (De V × V)) (d : De V)
        (a sep₁ a₀ : V) (vs : List V) (n s : Nat),
      uncatsep buf dsep sep first pre = (sep₁, a₀, vs, some n) →
      (dsep (buf.drop n) sep₁).2 = some s → (d (buf.drop (n + s)) a).2 = none →
      uncatsep buf dsep sep first (pre ++ (d, a) :: post)
        = ((dsep (buf.drop n) sep₁).1, a₀,
            vs ++ (d (buf.drop (n + s)) a).1 :: post.map Prod.snd, none)) ∧
    (∀ (dsep : De V) (sep : V) (first : De V × V) (more : List (De V × V)) (sep' a' : V)
        (vs : List V),
      uncatsep buf dsep sep first more = (sep', a', vs, none) →
      (first.1 buf first.2).2 = none ∨
      ∃ (pre post : List (De V × V)) (d : De V) (a : V) (sep₁ a₀ : V) (vs' : List V)
          (n : Nat),
        more = pre ++ (d, a) :: post ∧
        uncatsep buf dsep sep first pre = (sep₁, a₀, vs', some n) ∧
        ((dsep (buf.drop n) sep₁).2 = none ∨
          ∃ s, (dsep (buf.drop n) sep₁).2 = some s ∧ (d (buf.drop (n + s)) a).2 = none)) ∧
    (∀ (fmt : List Nat) (pre post : List (De V × V)) (d : De V) (a : V) (vs : List V)
        (n pos : Nat),
      unformat buf fmt pre = (vs, some n) →
      find_placeholder (after_placeholders fmt pre.length) = some pos →
      (d (buf.drop (n + pos)) a).2 = none →
      unformat buf fmt (pre ++ (d, a) :: post)
        = (vs ++ (d (buf.drop (n + pos)) a).1 :: post.map Prod.snd, none)) ∧
    (∀ (fmt : List Nat) (args : List (De V × V)) (vs : List V),
      unformat buf fmt args = (vs, none) →
      ∃ (pre post : List (De V × V)) (d : De V) (a : V) (vs' : List V) (n pos : Nat),
        args = pre ++ (d, a) :: post ∧ unformat buf fmt pre = (vs', some n) ∧
        find_placeholder (after_placeholders fmt pre.length) = some pos ∧
        (d (buf.drop (n + pos)) a).2 = none) :=
  ⟨fun pre post d a vs n => uncat_fail_at buf pre post d a vs n,
    fun args vs => uncat_none args buf vs,
    fun dsep sep first more => uncatsep_first_fail buf dsep sep first more,
    fun dsep sep first pre post d a sep₁ a₀ vs n =>
      uncatsep_sep_fail_at buf dsep sep first pre post d a sep₁ a₀ vs n,
    fun dsep sep first pre post d a sep₁ a₀ vs n s =>
      uncatsep_arg_fail_at buf dsep sep first pre post d a sep₁ a₀ vs n s,
    fun dsep sep first more sep' a' vs => uncatsep_none buf dsep sep first more sep' a' vs,
    fun fmt pre post d a vs n pos => unformat_fail_at buf fmt pre post d a vs n pos,
    fun fmt args vs => unformat_none args buf fmt vs⟩

/-- On the text `1,x3` with three integer targets holding 7, 8 and 9: `uncat` reads 1 and
fails on the second target; `uncatsep` with an integer separator variable reads 1 and
fails on the separator; `unformat` with the template `{},{}3{}` reads 1 and fails on the
second target, which receives `x3`; the later targets keep 8 or 9. -/
theorem inverse_operations_fail_fast_witness :
    uncat (chars "1,x3") [(from_chars_int, 7)] = ([1], some 1) ∧
    (from_chars_int ((chars "1,x3").drop 1) 8).2 = none ∧
    uncat (chars "1,x3") ([(from_chars_int, 7)] ++ (from_chars_int, 8) :: [(from_chars_int, 9)])
      = ([1, 8, 9], none) ∧
    uncatsep (chars "1,x3") from_chars_int 0 (from_chars_int, 7) [] = (0, 1, [], some 1) ∧
    uncatsep (chars "1,x3") from_chars_int 0 (from_chars_int, 7)
        ([] ++ (from_chars_int, 8) :: [(from_chars_int, 9)]) = (0, 1, [8, 9], none) ∧
    find_placeholder (after_placeholders (chars "\x7b\x7d,\x7b\x7d3\x7b\x7d") 1) = some 1 ∧
    (from_chars_int ((chars "1,x3").drop (1 + 1)) 8).2 = none ∧
    unformat (chars "1,x3") (chars "\x7b\x7d,\x7b\x7d3\x7b\x7d")
        ([(from_chars_int, 7)] ++ (from_chars_int, 8) :: [(from_chars_int, 9)])
      = ([1, 8, 9], none) :=
  ⟨by decide, by decide,
    (inverse_operations_fail_fast (chars "1,x3")).1 [(from_chars_int, 7)]
      [(from_chars_int, 9)] from_chars_int 8 [1] 1 (by decide) (by decide),
    by decide,
    (inverse_operations_fail_fast (chars "1,x3")).2.2.2.1 from_chars_int 0 (from_chars_int, 7)
      [] [(from_chars_int, 9)] from_chars_int 8 0 1 [] 1 (by decide) (by decide),
    by decide, by decide,
    (inverse_operations_fail_fast (chars "1,x3")).2.2.2.2.2.2.1
      (chars "\x7b\x7d,\x7b\x7d3\x7b\x7d") [(from_chars_int, 7)] [(from_chars_int, 9)]
      from_chars_int 8 [1] 1 1 (by decide) (by decide) (by decide)⟩

/-! ## `uncat` after `cat`, `unformat` after `format` -/

theorem uncat_flatten {V : Type} (args : List (List Nat × De V × V × V))
    (h : reads_back args) :
    uncat (args.map fun p => p.1).flatten (args.map fun p => (p.2.1, p.2.2.1))
      = (args.map fun p => p.2.2.2, some (args.map fun p => p.1.length).sum) := by
  induction args with
  | nil => rfl
  | cons p more ih =>
    obtain ⟨t, d, a, v⟩ := p
    obtain ⟨h1, h2⟩ := h
    simp only [List.map_cons, List.flatten_cons, List.sum_cons]
    rw [uncat_ok_head _ _ _ _ t.length (by rw [h1]), h1, List.drop_left' rfl, ih h2]
    rfl

/-- C13 (amended): for every list of arguments, each with its text, for which every
deserializer stops at the end of its own text, and every sufficient destination view,
`uncat` applied to the text that `cat` wrote gives every target the value of its argument
and returns the number of characters that `cat` returned. -/
theorem uncat_inverts_cat {V : Type} (m : Mem) (buf : substr)
    (args : List (Ser × List Nat × De V × V × V))
    (htext : ∀ p ∈ args, p.1.has_text p.2.1)
    (hsuff : (args.map fun p => p.2.1.length).sum ≤ buf.len)
    (hback : reads_back (args.map fun p => p.2)) :
    uncat ((cat m buf (args.map fun p => p.1)).1.slice buf.str
          (cat m buf (args.map fun p => p.1)).2)
        (args.map fun p => (p.2.2.1, p.2.2.2.1))
      = (args.map fun p => p.2.2.2.2, some (cat m buf (args.map fun p => p.1)).2) := by
  have hc := cat_eq_write (args.map fun p => (p.1, p.2.1)) m buf
    (by
      intro q hq
      obtain ⟨p, hp, rfl⟩ := List.mem_map.1 hq
      exact htext p hp)
    (by simpa only [List.map_map, Function.comp_def] using hsuff)
  simp only [List.map_map, Function.comp_def] at hc
  have hlen : ((args.map fun p => p.2.1).flatten).length = (args.map fun p => p.2.1.length).sum := by
    simp only [List.length_flatten, List.map_map, Function.comp_def]
  rw [hc]
  simp only
  rw [← hlen, Mem.slice_write_list]
  have := uncat_flatten (args.map fun p => p.2) hback
  simp only [List.map_map, Function.comp_def] at this
  rw [this, hlen]

/-- The integers 1 and -2: `cat` writes `1-2`, and `uncat` with two integer targets reads
1 and -2 and returns 3. -/
theorem uncat_inverts_cat_witness :
    (∀ p ∈ [(to_chars_text (itoa_text 1), itoa_text 1, from_chars_int, (0 : Int), (1 : Int)),
        (to_chars_text (itoa_text (-2)), itoa_text (-2), from_chars_int, 0, -2)],
      p.1.has_text p.2.1) ∧
    reads_back [(itoa_text 1, from_chars_int, (0 : Int), (1 : Int)),
      (itoa_text (-2), from_chars_int, 0, -2)] ∧
    (cat (fun _ => 0) ⟨0, 8⟩ [to_chars_text (itoa_text 1), to_chars_text (itoa_text (-2))]).1.slice
      0 3 = chars "1-2" ∧
    uncat ((cat (fun _ => 0) ⟨0, 8⟩
          [to_chars_text (itoa_text 1), to_chars_text (itoa_text (-2))]).1.slice 0
          (cat (fun _ => 0) ⟨0, 8⟩
            [to_chars_text (itoa_text 1), to_chars_text (itoa_text (-2))]).2)
        [(from_chars_int, (0 : Int)), (from_chars_int, 0)]
      = ([1, -2], some 3) :=
  have htext : ∀ p ∈ [(to_chars_text (itoa_text 1), itoa_text 1, from_chars_int, (0 : Int),
        (1 : Int)), (to_chars_text (itoa_text (-2)), itoa_text (-2), from_chars_int, 0, -2)],
      p.1.has_text p.2.1 := by
    intro p hp
    simp only [List.mem_cons, List.mem_singleton, List.not_mem_nil, or_false] at hp
    rcases hp with rfl | rfl <;> exact to_chars_text_has_text _
  have hback : reads_back [(itoa_text 1, from_chars_int, (0 : Int), (1 : Int)),
      (itoa_text (-2), from_chars_int, 0, -2)] := ⟨by decide, by decide, trivial⟩
  ⟨htext, hback, by decide,
    uncat_inverts_cat (fun _ => 0) ⟨0, 8⟩
      [(to_chars_text (itoa_text 1), itoa_text 1, from_chars_int, (0 : Int), (1 : Int)),
        (to_chars_text (itoa_text (-2)), itoa_text (-2), from_chars_int, 0, -2)]
      htext (by decide) hback⟩

/-- C13 fails as stated: `cat` of the integers 1 and 23 and `cat` of the integers 12 and 3
write the same text `123`, so no pair of deserializers makes `uncat` restore both lists;
with the decimal deserializer, `uncat` on the text of 1 and 23 stores 123 in the first
target and returns `npos`. -/
theorem uncat_does_not_invert_cat :
    (cat (fun _ => 0) ⟨0, 3⟩ [to_chars_text (itoa_text 1), to_chars_text (itoa_text 23)]).2 = 3 ∧
    (cat (fun _ => 0) ⟨0, 3⟩ [to_chars_text (itoa_text 1), to_chars_text (itoa_text 23)]).1.slice
      0 3 = chars "123" ∧
    (cat (fun _ => 0) ⟨0, 3⟩ [to_chars_text (itoa_text 12), to_chars_text (itoa_text 3)]).1.slice
      0 3 = chars "123" ∧
    (¬ ∃ (d₁ d₂ : De Int) (a₁ a₂ : Int),
      (uncat ((cat (fun _ => 0) ⟨0, 3⟩
          [to_chars_text (itoa_text 1), to_chars_text (itoa_text 23)]).1.slice 0 3)
        [(d₁, a₁), (d₂, a₂)]).1 = [1, 23] ∧
      (uncat ((cat (fun _ => 0) ⟨0, 3⟩
          [to_chars_text (itoa_text 12), to_chars_text (itoa_text 3)]).1.slice 0 3)
        [(d₁, a₁), (d₂, a₂)]).1 = [12, 3]) ∧
    uncat ((cat (fun _ => 0) ⟨0, 3⟩
        [to_chars_text (itoa_text 1), to_chars_text (itoa_text 23)]).1.slice 0 3)
      [(from_chars_int, (0 : Int)), (from_chars_int, 0)] = ([123, 0], none) := by
  have e1 : (cat (fun _ => 0) ⟨0, 3⟩
      [to_chars_text (itoa_text 1), to_chars_text (itoa_text 23)]).1.slice 0 3 = chars "123" := by
    decide
  have e2 : (cat (fun _ => 0) ⟨0, 3⟩
      [to_chars_text (itoa_text 12), to_chars_text (itoa_text 3)]).1.slice 0 3 = chars "123" := by
    decide
  refine ⟨by decide, e1, e2, ?_, by rw [e1]; decide⟩
  rintro ⟨d₁, d₂, a₁, a₂, h1, h2⟩
  rw [e1] at h1
  rw [e2] at h2
  rw [h1] at h2
  exact absurd h2 (by decide)

theorem unformat_substitute {V : Type} (args : List (List Nat × De V × V × V)) :
    ∀ fmt : List Nat, reads_back_format fmt args →
      ∃ n, unformat (substitute fmt (args.map fun p => p.1)) fmt
          (args.map fun p => (p.2.1, p.2.2.1))
        = (args.map fun p => p.2.2.2, some n) := by
  induction args with
  | nil => intro fmt _; exact ⟨0, rfl⟩
  | cons p more ih =>
    obtain ⟨t, d, a, v⟩ := p
    intro fmt h
    cases hf : find_placeholder fmt with
    | none => simp only [reads_back_format, hf] at h
    | some pos =>
      simp only [reads_back_format, hf] at h
      obtain ⟨h1, h2⟩ := h
      obtain ⟨n, hn⟩ := ih (fmt.drop (pos + 2)) h2
      have hb := find_some_bound fmt pos hf
      have hd : (substitute fmt (t :: more.map fun p => p.1)).drop pos
          = t ++ substitute (fmt.drop (pos + 2)) (more.map fun p => p.1) := by
        rw [find_some_substitute fmt t _ pos hf,
          List.drop_left' (by rw [List.length_take]; omega)]
      have hd2 : (substitute fmt (t :: more.map fun p => p.1)).drop (pos + t.length)
          = substitute (fmt.drop (pos + 2)) (more.map fun p => p.1) := by
        rw [← List.drop_drop, hd, List.drop_left' rfl]
      refine ⟨pos + t.length + n, ?_⟩
      simp only [List.map_cons]
      rw [unformat_ok_head _ _ _ _ _ pos t.length hf (by rw [hd, h1]), hd, h1, hd2, hn]
      rfl

/-- C14 (amended): for every template and every list of arguments, each with its text, such
that every argument has a placeholder and every deserializer stops at the end of its own
text, and every sufficient destination view, `unformat` with the same template applied to
the text that `format` wrote does not return `npos` and gives every target the value of
its argument. -/
theorem unformat_inverts_format {V : Type} (m : Mem) (buf : substr) (fmt : List Nat)
    (args : List (Ser × List Nat × De V × V × V))
    (htext : ∀ p ∈ args, p.1.has_text p.2.1)
    (hsuff : (substitute fmt (args.map fun p => p.2.1)).length ≤ buf.len)
    (hback : reads_back_format fmt (args.map fun p => p.2)) :
    (unformat ((format m buf fmt (args.map fun p => p.1)).1.slice buf.str
          (format m buf fmt (args.map fun p => p.1)).2) fmt
        (args.map fun p => (p.2.2.1, p.2.2.2.1))).1 = (args.map fun p => p.2.2.2.2) ∧
    (unformat ((format m buf fmt (args.map fun p => p.1)).1.slice buf.str
          (format m buf fmt (args.map fun p => p.1)).2) fmt
        (args.map fun p => (p.2.2.1, p.2.2.2.1))).2 ≠ none := by
  have hc := format_eq_write (args.map fun p => (p.1, p.2.1)) m buf fmt
    (by
      intro q hq
      obtain ⟨p, hp, rfl⟩ := List.mem_map.1 hq
      exact htext p hp)
    (by simpa only [List.map_map, Function.comp_def] using hsuff)
  simp only [List.map_map, Function.comp_def] at hc
  obtain ⟨n, hn⟩ := unformat_substitute (args.map fun p => p.2) fmt hback
  simp only [List.map_map, Function.comp_def] at hn
  rw [hc]
  simp only
  rw [Mem.slice_write_list, hn]
  exact ⟨rfl, by simp⟩

/-- The template `a{}b{}` with the integers 15 and 2: `format` writes `a15b2`, and
`unformat` with two integer targets reads 15 and 2. -/
theorem unformat_inverts_format_witness :
    (∀ p ∈ [(to_chars_text (itoa_text 15), itoa_text 15, from_chars_int, (0 : Int), (15 : Int)),
        (to_chars_text (itoa_text 2), itoa_text 2, from_chars_int, 0, 2)],
      p.1.has_text p.2.1) ∧
    reads_back_format (chars "a\x7b\x7db\x7b\x7d")
      [(itoa_text 15, from_chars_int, (0 : Int), (15 : Int)),
        (itoa_text 2, from_chars_int, 0, 2)] ∧
    (format (fun _ => 0) ⟨0, 8⟩ (chars "a\x7b\x7db\x7b\x7d")
      [to_chars_text (itoa_text 15), to_chars_text (itoa_text 2)]).1.slice 0 5 = chars "a15b2" ∧
    (unformat ((format (fun _ => 0) ⟨0, 8⟩ (chars "a\x7b\x7db\x7b\x7d")
          [to_chars_text (itoa_text 15), to_chars_text (itoa_text 2)]).1.slice 0
          (format (fun _ => 0) ⟨0, 8⟩ (chars "a\x7b\x7db\x7b\x7d")
            [to_chars_text (itoa_text 15), to_chars_text (itoa_text 2)]).2)
        (chars "a\x7b\x7db\x7b\x7d") [(from_chars_int, (0 : Int)), (from_chars_int, 0)]).1
      = [15, 2] :=
  have htext : ∀ p ∈ [(to_chars_text (itoa_text 15), itoa_text 15, from_chars_int, (0 : Int),
        (15 : Int)), (to_chars_text (itoa_text 2), itoa_text 2, from_chars_int, 0, 2)],
      p.1.has_text p.2.1 := by
    intro p hp
    simp only [List.mem_cons, List.mem_singleton, List.not_mem_nil, or_false] at hp
    rcases hp with rfl | rfl <;> exact to_chars_text_has_text _
  have hback : reads_back_format (chars "a\x7b\x7db\x7b\x7d")
      [(itoa_text 15, from_chars_int, (0 : Int), (15 : Int)),
        (itoa_text 2, from_chars_int, 0, 2)] := by
    simp only [reads_back_format, show find_placeholder (chars "a\x7b\x7db\x7b\x7d") = some 1
      from by decide]
    refine ⟨by decide, ?_⟩
    simp only [reads_back_format, show find_placeholder
      ((chars "a\x7b\x7db\x7b\x7d").drop (1 + 2)) = some 1 from by decide]
    exact ⟨by decide, trivial⟩
  ⟨htext, hback, by decide,
    (unformat_inverts_format (fun _ => 0) ⟨0, 8⟩ (chars "a\x7b\x7db\x7b\x7d")
      [(to_chars_text (itoa_text 15), itoa_text 15, from_chars_int, (0 : Int), (15 : Int)),
        (to_chars_text (itoa_text 2), itoa_text 2, from_chars_int, 0, 2)]
      htext (by decide) hback).1⟩

/-- C14 fails as stated: with the template `{}{}`, `format` of the integers 1 and 23 and
`format` of the integers 12 and 3 write the same text `123`, so no pair of deserializers
makes `unformat` restore both lists; with the decimal deserializer `unformat` stores 123
in the first target and returns `npos`; and with the template `{}` and the integers 1 and
2, `format` writes `1` and `unformat` leaves the second target as it was. -/
theorem unformat_does_not_invert_format :
    (format (fun _ => 0) ⟨0, 3⟩ (chars "\x7b\x7d\x7b\x7d")
      [to_chars_text (itoa_text 1), to_chars_text (itoa_text 23)]).1.slice 0 3 = chars "123" ∧
    (format (fun _ => 0) ⟨0, 3⟩ (chars "\x7b\x7d\x7b\x7d")
      [to_chars_text (itoa_text 12), to_chars_text (itoa_text 3)]).1.slice 0 3 = chars "123" ∧
    (¬ ∃ (d₁ d₂ : De Int) (a₁ a₂ : Int),
      (unformat ((format (fun _ => 0) ⟨0, 3⟩ (chars "\x7b\x7d\x7b\x7d")
          [to_chars_text (itoa_text 1), to_chars_text (itoa_text 23)]).1.slice 0 3)
        (chars "\x7b\x7d\x7b\x7d") [(d₁, a₁), (d₂, a₂)]).1 = [1, 23] ∧
      (unformat ((format (fun _ => 0) ⟨0, 3⟩ (chars "\x7b\x7d\x7b\x7d")
          [to_chars_text (itoa_text 12), to_chars_text (itoa_text 3)]).1.slice 0 3)
        (chars "\x7b\x7d\x7b\x7d") [(d₁, a₁), (d₂, a₂)]).1 = [12, 3]) ∧
    unformat ((format (fun _ => 0) ⟨0, 3⟩ (chars "\x7b\x7d\x7b\x7d")
        [to_chars_text (itoa_text 1), to_chars_text (itoa_text 23)]).1.slice 0 3)
      (chars "\x7b\x7d\x7b\x7d") [(from_chars_int, (0 : Int)), (from_chars_int, 0)]
      = ([123, 0], none) ∧
    (format (fun _ => 0) ⟨0, 3⟩ (chars "\x7b\x7d")
      [to_chars_text (itoa_text 1), to_chars_text (itoa_text 2)]).2 = 1 ∧
    unformat ((format (fun _ => 0) ⟨0, 3⟩ (chars "\x7b\x7d")
        [to_chars_text (itoa_text 1), to_chars_text (itoa_text 2)]).1.slice 0 1)
      (chars "\x7b\x7d") [(from_chars_int, (0 : Int)), (from_chars_int, 0)]
      = ([1, 0], some 1) := by
  have e1 : (format (fun _ => 0) ⟨0, 3⟩ (chars "\x7b\x7d\x7b\x7d")
      [to_chars_text (itoa_text 1), to_chars_text (itoa_text 23)]).1.slice 0 3 = chars "123" := by
    decide
  have e2 : (format (fun _ => 0) ⟨0, 3⟩ (chars "\x7b\x7d\x7b\x7d")
      [to_chars_text (itoa_text 12), to_chars_text (itoa_text 3)]).1.slice 0 3 = chars "123" := by
    decide
  refine ⟨e1, e2, ?_, by rw [e1]; decide, by decide, by decide⟩
  rintro ⟨d₁, d₂, a₁, a₂, h1, h2⟩
  rw [e1] at h1
  rw [e2] at h2
  rw [h1] at h2
  exact absurd h2 (by decide)

/-! ## The resizing adapters -/

theorem resize_length (fill : Nat) (cont : List Nat) (n : Nat) :
    (resize fill cont n).length = n := by
  simp only [resize, List.length_append, List.length_take, List.length_replicate]
  omega

theorem Mem.slice_take (m : Mem) (a n k : Nat) (h : k ≤ n) :
    (m.slice a n).take k = m.slice a k := by
  conv_lhs => rw [show n = k + (n - k) by omega]
  rw [Mem.slice_add, List.take_left' (Mem.slice_length m a k)]

theorem rs_overwrite_eq (fill : Nat) (op : Mem → substr → Mem × Nat) (cont out : List Nat)
    (hreq : ∀ m buf, (op m buf).2 = out.length)
    (hwrite : ∀ m buf, out.length ≤ buf.len → (op m buf).1 = m.write_list buf.str out) :
    rs_overwrite fill op cont = out := by
  simp only [rs_overwrite, hreq, resize_length]
  by_cases h : out.length > cont.length
  · rw [if_pos h, if_neg (by simp), hwrite _ ⟨0, out.length⟩ (le_refl _)]
    exact Mem.slice_write_list out _ 0
  · rw [if_neg h, hwrite _ ⟨0, cont.length⟩ (by simp only; omega)]
    simp only [resize, Mem.slice_length]
    rw [Mem.slice_take _ _ _ _ (by omega), Mem.slice_write_list,
      show out.length - cont.length = 0 by omega]
    simp

theorem container_mem_slice (cont : List Nat) (extra : List Nat) :
    (container_mem (cont ++ extra)).slice 0 cont.length = cont := by
  apply List.ext_getElem
  · simp [Mem.slice]
  · intro i h₁ h₂
    simp only [Mem.slice, List.getElem_map, List.getElem_range, container_mem, Nat.zero_add,
      List.getD_eq_getElem?_getD, List.getElem?_append_left h₂, List.getElem?_eq_getElem h₂,
      Option.getD_some]

theorem rs_append_eq (fill : Nat) (op : Mem → substr → Mem × Nat) (cont out : List Nat)
    (hreq : ∀ m buf, (op m buf).2 = out.length)
    (hwrite : ∀ m buf, out.length ≤ buf.len → (op m buf).1 = m.write_list buf.str out)
    (hconf : ∀ m buf j, ¬ (buf.str ≤ j ∧ j < buf.str + buf.len) → (op m buf).1 j = m j) :
    rs_append fill op cont = (cont ++ out, ⟨cont.length, out.length⟩) := by
  have h1 : ((op (container_mem cont) ⟨cont.length, 0⟩).1).slice 0 cont.length = cont := by
    rw [Mem.slice_congr _ (container_mem cont) 0 cont.length]
    · simpa using container_mem_slice cont []
    · intro i hi
      apply hconf
      simp only
      omega
  have h2 : resize fill cont (cont.length + out.length)
      = cont ++ List.replicate out.length fill := by
    simp only [resize]
    rw [List.take_of_length_le (by omega), Nat.add_sub_cancel_left]
  simp only [rs_append, hreq, h1, h2, substr.sub, Nat.sub_self, Nat.zero_add,
    List.length_append, List.length_replicate, Nat.add_sub_cancel_left]
  by_cases h : out.length > 0
  · rw [if_pos h, if_neg (by simp), hwrite _ ⟨cont.length, out.length⟩ (le_refl _)]
    have h3 : (Mem.write_list (container_mem (cont ++ List.replicate out.length fill))
        cont.length out).slice 0 (cont.length + out.length) = cont ++ out := by
      rw [Mem.slice_add, Nat.zero_add, Mem.slice_write_list,
        Mem.slice_congr _ (container_mem (cont ++ List.replicate out.length fill)) 0
          cont.length (fun i hi => Mem.write_list_outside _ _ _ _ (by omega)),
        container_mem_slice]
    simp only [h3, List.length_append, Nat.add_sub_cancel_left]
  · rw [if_neg h]
    have h0 : out = [] := List.length_eq_zero.1 (by omega)
    subst h0
    simp

theorem to_chars_text_well_behaved (t : List Nat) : (to_chars_text t).well_behaved t :=
  ⟨to_chars_text_has_text t, to_chars_text_requires t, to_chars_text_confined t⟩

theorem sum_lengths_flatten (ts : List (List Nat)) :
    (ts.map List.length).sum = ts.flatten.length := by
  simp only [List.length_flatten]

/-! ### The three operations under well-behaved serializers -/

theorem cat_well_behaved (args : List (Ser × List Nat))
    (hwb : ∀ p ∈ args, p.1.well_behaved p.2) :
    (∀ m buf, (cat m buf (args.map fun p => p.1)).2 = (args.map fun p => p.2).flatten.length) ∧
    (∀ m buf, (args.map fun p => p.2).flatten.length ≤ buf.len →
      (cat m buf (args.map fun p => p.1)).1
        = m.write_list buf.str (args.map fun p => p.2).flatten) ∧
    (∀ m buf j, ¬ (buf.str ≤ j ∧ j < buf.str + buf.len) →
      (cat m buf (args.map fun p => p.1)).1 j = m j) := by
  have hlen : (args.map fun p => p.2.length).sum = (args.map fun p => p.2).flatten.length := by
    rw [← sum_lengths_flatten, List.map_map]
    rfl
  refine ⟨?_, ?_, ?_⟩
  · intro m buf
    have := cat_snd (args.map fun p => (p.1, p.2.length)) m buf
      (by
        intro q hq
        obtain ⟨p, hp, rfl⟩ := List.mem_map.1 hq
        exact (hwb p hp).2.1)
    simp only [List.map_map, Function.comp_def] at this
    rw [this, hlen]
  · intro m buf h
    rw [cat_eq_write args m buf (fun p hp => (hwb p hp).1) (by rw [hlen]; exact h)]
  · intro m buf j hj
    apply cat_frame _ m buf _ j hj
    intro a ha
    obtain ⟨p, hp, rfl⟩ := List.mem_map.1 ha
    exact (hwb p hp).2.2

theorem catsep_more_snd (sep : Ser) (tsep : List Nat) (hsep : sep.requires tsep.length)
    (more : List (Ser × List Nat)) (hreq : ∀ p ∈ more, p.1.requires p.2.length) :
    ∀ m buf, (detail.catsep_more m buf sep (more.map fun p => p.1)).2
      = (more.map fun p => tsep.length + p.2.length).sum := by
  induction more with
  | nil => intro m buf; rfl
  | cons p ps ih =>
    intro m buf
    simp only [List.map_cons, detail.catsep_more, List.sum_cons]
    rw [ih (fun q hq => hreq q (by simp [hq])), hsep m buf, hreq p (by simp)]

theorem next_view_inside (buf : substr) (n j : Nat)
    (hj : ¬ (buf.str ≤ j ∧ j < buf.str + buf.len)) :
    ¬ ((if buf.len ≥ n then buf.sub n else substr.empty).str ≤ j ∧
      j < (if buf.len ≥ n then buf.sub n else substr.empty).str
        + (if buf.len ≥ n then buf.sub n else substr.empty).len) := by
  split
  · simp only [substr.sub]; omega
  · simp only [substr.empty]; omega

theorem catsep_more_frame (sep : Ser) (hsep : sep.confined) (more : List Ser)
    (hconf : ∀ a ∈ more, a.confined) :
    ∀ m buf j, ¬ (buf.str ≤ j ∧ j < buf.str + buf.len) →
      (detail.catsep_more m buf sep more).1 j = m j := by
  induction more with
  | nil => intro m buf j _; rfl
  | cons a more ih =>
    intro m buf j hj
    simp only [detail.catsep_more]
    rw [ih (fun q hq => hconf q (by simp [hq])) _ _ j, hconf a (by simp) _ _ j,
      hsep m buf j hj]
    · exact next_view_inside buf _ j hj
    · exact next_view_inside _ _ j (next_view_inside buf _ j hj)

theorem sum_sep_lengths (tsep : List Nat) (more : List (Ser × List Nat)) :
    (more.map fun p => tsep.length + p.2.length).sum
      = (more.map fun p => p.2.length).sum + more.length * tsep.length := by
  induction more with
  | nil => simp
  | cons p ps ih => simp only [List.map_cons, List.sum_cons, List.length_cons, ih]; ring

theorem intercalate_length (tsep ta : List Nat) (more : List (Ser × List Nat)) :
    (List.intercalate tsep (ta :: more.map fun p => p.2)).length
      = ta.length + (more.map fun p => p.2.length).sum + more.length * tsep.length := by
  rw [intercalate_cons, List.length_append, List.map_map, ← sum_lengths_flatten, List.map_map,
    Nat.add_assoc, ← sum_sep_lengths]
  congr 2
  apply List.map_congr_left
  intro p _
  simp

theorem catsep_well_behaved (sep : Ser) (tsep : List Nat) (a : Ser) (ta : List Nat)
    (more : List (Ser × List Nat)) (hsep : sep.well_behaved tsep) (ha : a.well_behaved ta)
    (hwb : ∀ p ∈ more, p.1.well_behaved p.2) :
    (∀ m buf, (catsep m buf sep a (more.map fun p => p.1)).2
      = (List.intercalate tsep (ta :: more.map fun p => p.2)).length) ∧
    (∀ m buf, (List.intercalate tsep (ta :: more.map fun p => p.2)).length ≤ buf.len →
      (catsep m buf sep a (more.map fun p => p.1)).1
        = m.write_list buf.str (List.intercalate tsep (ta :: more.map fun p => p.2))) ∧
    (∀ m buf j, ¬ (buf.str ≤ j ∧ j < buf.str + buf.len) →
      (catsep m buf sep a (more.map fun p => p.1)).1 j = m j) := by
  refine ⟨?_, ?_, ?_⟩
  · intro m buf
    simp only [catsep]
    rw [catsep_more_snd sep tsep hsep.2.1 more (fun p hp => (hwb p hp).2.1), ha.2.1 m buf,
      intercalate_length, sum_sep_lengths, Nat.add_assoc]
  · intro m buf h
    rw [intercalate_length] at h
    have h1 := ha.1 m buf (by omega)
    have h2 := catsep_more_eq_write more sep tsep hsep.1 (m.write_list buf.str ta)
      (buf.sub ta.length) (fun p hp => (hwb p hp).1)
      (by rw [sum_sep_lengths]; simp only [substr.sub]; omega)
    simp only [catsep, h1]
    rw [if_pos (by omega), h2, intercalate_cons, List.map_map]
    simp only [substr.sub, Mem.write_list_append]
    rfl
  · intro m buf j hj
    simp only [catsep]
    rw [catsep_more_frame sep hsep.2.2 _ (by
        intro x hx
        obtain ⟨p, hp, rfl⟩ := List.mem_map.1 hx
        exact (hwb p hp).2.2) _ _ j, ha.2.2 m buf j hj]
    exact next_view_inside buf _ j hj

theorem format_snd (args : List (Ser × List Nat))
    (hreq : ∀ p ∈ args, p.1.requires p.2.length) :
    ∀ (m : Mem) (buf : substr) (fmt : List Nat),
      (format m buf fmt (args.map fun p => p.1)).2
        = (substitute fmt (args.map fun p => p.2)).length := by
  induction args with
  | nil => intro m buf fmt; simp [format, to_chars_text, substitute]
  | cons p ps ih =>
    intro m buf fmt
    simp only [List.map_cons]
    cases hf : find_placeholder fmt with
    | none =>
      rw [find_none_substitute _ _ hf]
      simp only [format, hf, to_chars_text]
    | some pos =>
      have hb := find_some_bound fmt pos hf
      rw [find_some_substitute _ _ _ pos hf]
      simp only [format, hf, to_chars_text, List.length_append, List.length_take]
      rw [ih (fun q hq => hreq q (by simp [hq])), hreq p (by simp)]
      omega

theorem format_frame (args : List Ser) (hconf : ∀ a ∈ args, a.confined) :
    ∀ (m : Mem) (buf : substr) (fmt : List Nat) (j : Nat),
      ¬ (buf.str ≤ j ∧ j < buf.str + buf.len) → (format m buf fmt args).1 j = m j := by
  induction args with
  | nil =>
    intro m buf fmt j hj
    exact to_chars_text_confined fmt m buf j hj
  | cons a more ih =>
    intro m buf fmt j hj
    cases hf : find_placeholder fmt with
    | none =>
      simp only [format, hf]
      exact to_chars_text_confined fmt m buf j hj
    | some pos =>
      simp only [format, hf]
      rw [ih (fun q hq => hconf q (by simp [hq])) _ _ _ j, hconf a (by simp) _ _ j,
        to_chars_text_confined _ m buf j hj]
      · exact next_view_inside buf _ j hj
      · exact next_view_inside _ _ j (next_view_inside buf _ j hj)

theorem format_well_behaved (fmt : List Nat) (args : List (Ser × List Nat))
    (hwb : ∀ p ∈ args, p.1.well_behaved p.2) :
    (∀ m buf, (format m buf fmt (args.map fun p => p.1)).2
      = (substitute fmt (args.map fun p => p.2)).length) ∧
    (∀ m buf, (substitute fmt (args.map fun p => p.2)).length ≤ buf.len →
      (format m buf fmt (args.map fun p => p.1)).1
        = m.write_list buf.str (substitute fmt (args.map fun p => p.2))) ∧
    (∀ m buf j, ¬ (buf.str ≤ j ∧ j < buf.str + buf.len) →
      (format m buf fmt (args.map fun p => p.1)).1 j = m j) := by
  refine ⟨fun m buf => format_snd args (fun p hp => (hwb p hp).2.1) m buf fmt, ?_, ?_⟩
  · intro m buf h
    rw [format_eq_write args m buf fmt (fun p hp => (hwb p hp).1) h]
  · intro m buf j hj
    apply format_frame _ _ m buf fmt j hj
    intro a ha
    obtain ⟨p, hp, rfl⟩ := List.mem_map.1 ha
    exact (hwb p hp).2.2

/-- C17: for every container, whatever it holds, and every argument list with well-behaved
serializers, the overwrite-mode adapters `catrs`, `catseprs` and `formatrs` leave in the
container exactly the full output of `cat`, `catsep` and `format`: the texts one after
another, the texts joined by the separator, the template with its placeholders replaced;
its size is the length of that output, which is the length these calls return, and what
the container held before is gone. -/
theorem resizing_overwrite (fill : Nat) (cont : List Nat) :
    (∀ (args : List (Ser × List Nat)), (∀ p ∈ args, p.1.well_behaved p.2) →
      catrs fill cont (args.map fun p => p.1) = (args.map fun p => p.2).flatten ∧
      ∀ m buf, (cat m buf (args.map fun p => p.1)).2
        = (catrs fill cont (args.map fun p => p.1)).length) ∧
    (∀ (sep : Ser) (tsep : List Nat) (a : Ser) (ta : List Nat) (more : List (Ser × List Nat)),
      sep.well_behaved tsep → a.well_behaved ta → (∀ p ∈ more, p.1.well_behaved p.2) →
      catseprs fill cont sep a (more.map fun p => p.1)
        = List.intercalate tsep (ta :: more.map fun p => p.2) ∧
      ∀ m buf, (catsep m buf sep a (more.map fun p => p.1)).2
        = (catseprs fill cont sep a (more.map fun p => p.1)).length) ∧
    (∀ (fmt : List Nat) (args : List (Ser × List Nat)), (∀ p ∈ args, p.1.well_behaved p.2) →
      formatrs fill cont fmt (args.map fun p => p.1) = substitute fmt (args.map fun p => p.2) ∧
      ∀ m buf, (format m buf fmt (args.map fun p => p.1)).2
        = (formatrs fill cont fmt (args.map fun p => p.1)).length) := by
  refine ⟨?_, ?_, ?_⟩
  · intro args hwb
    obtain ⟨h1, h2, _⟩ := cat_well_behaved args hwb
    have e : catrs fill cont (args.map fun p => p.1) = (args.map fun p => p.2).flatten :=
      rs_overwrite_eq fill _ cont _ h1 h2
    exact ⟨e, fun m buf => by rw [e, h1]⟩
  · intro sep tsep a ta more hsep ha hwb
    obtain ⟨h1, h2, _⟩ := catsep_well_behaved sep tsep a ta more hsep ha hwb
    have e : catseprs fill cont sep a (more.map fun p => p.1)
        = List.intercalate tsep (ta :: more.map fun p => p.2) :=
      rs_overwrite_eq fill _ cont _ h1 h2
    exact ⟨e, fun m buf => by rw [e, h1]⟩
  · intro fmt args hwb
    obtain ⟨h1, h2, _⟩ := format_well_behaved fmt args hwb
    have e : formatrs fill cont fmt (args.map fun p => p.1)
        = substitute fmt (args.map fun p => p.2) :=
      rs_overwrite_eq fill _ cont _ h1 h2
    exact ⟨e, fun m buf => by rw [e, h1]⟩

/-- The example of C17: `catrs(&cont, 12345)` on an empty container leaves `12345`; on a
container that holds `abcdefgh` it leaves `12345` too. -/
theorem resizing_overwrite_witness :
    (∀ p ∈ [(to_chars_text (itoa_text 12345), itoa_text 12345)], p.1.well_behaved p.2) ∧
    catrs 0 [] [to_chars_text (itoa_text 12345)] = chars "12345" ∧
    catrs 0 (chars "abcdefgh") [to_chars_text (itoa_text 12345)] = chars "12345" :=
  have hwb : ∀ p ∈ [(to_chars_text (itoa_text 12345), itoa_text 12345)],
      p.1.well_behaved p.2 := by
    intro p hp
    simp only [List.mem_singleton] at hp
    subst hp
    exact to_chars_text_well_behaved _
  ⟨hwb,
    (((resizing_overwrite 0 []).1 [(to_chars_text (itoa_text 12345), itoa_text 12345)] hwb).1).trans
      (by decide),
    (((resizing_overwrite 0 (chars "abcdefgh")).1
      [(to_chars_text (itoa_text 12345), itoa_text 12345)] hwb).1).trans (by decide)⟩

/-- C18: for every container that holds `c`, of size `p`, and every argument list with
well-behaved serializers, the append-mode adapters leave in the container `c` followed by
the full output of `cat`, `catsep` and `format`, and return the view that starts at `p`
and has the length of that output, which is the length these calls return. -/
theorem resizing_append (fill : Nat) (cont : List Nat) :
    (∀ (args : List (Ser × List Nat)), (∀ p ∈ args, p.1.well_behaved p.2) →
      catrs_append fill cont (args.map fun p => p.1)
        = (cont ++ (args.map fun p => p.2).flatten,
            ⟨cont.length, (args.map fun p => p.2).flatten.length⟩) ∧
      ∀ m buf, (cat m buf (args.map fun p => p.1)).2 = (args.map fun p => p.2).flatten.length) ∧
    (∀ (sep : Ser) (tsep : List Nat) (a : Ser) (ta : List Nat) (more : List (Ser × List Nat)),
      sep.well_behaved tsep → a.well_behaved ta → (∀ p ∈ more, p.1.well_behaved p.2) →
      catseprs_append fill cont sep a (more.map fun p => p.1)
        = (cont ++ List.intercalate tsep (ta :: more.map fun p => p.2),
            ⟨cont.length, (List.intercalate tsep (ta :: more.map fun p => p.2)).length⟩) ∧
      ∀ m buf, (catsep m buf sep a (more.map fun p => p.1)).2
        = (List.intercalate tsep (ta :: more.map fun p => p.2)).length) ∧
    (∀ (fmt : List Nat) (args : List (Ser × List Nat)), (∀ p ∈ args, p.1.well_behaved p.2) →
      formatrs_append fill cont fmt (args.map fun p => p.1)
        = (cont ++ substitute fmt (args.map fun p => p.2),
            ⟨cont.length, (substitute fmt (args.map fun p => p.2)).length⟩) ∧
      ∀ m buf, (format m buf fmt (args.map fun p => p.1)).2
        = (substitute fmt (args.map fun p => p.2)).length) := by
  refine ⟨?_, ?_, ?_⟩
  · intro args hwb
    obtain ⟨h1, h2, h3⟩ := cat_well_behaved args hwb
    exact ⟨rs_append_eq fill _ cont _ h1 h2 h3, h1⟩
  · intro sep tsep a ta more hsep ha hwb
    obtain ⟨h1, h2, h3⟩ := catsep_well_behaved sep tsep a ta more hsep ha hwb
    exact ⟨rs_append_eq fill _ cont _ h1 h2 h3, h1⟩
  · intro fmt args hwb
    obtain ⟨h1, h2, h3⟩ := format_well_behaved fmt args hwb
    exact ⟨rs_append_eq fill _ cont _ h1 h2 h3, h1⟩

/-- The example of C18: starting empty, `catrs(append, &cont, "ab")` leaves `ab`, and then
`catrs(append, &cont, "cd")` leaves `abcd` and returns the view of start 2 and length 2,
which holds `cd`. -/
theorem resizing_append_witness :
    (∀ p ∈ [(to_chars_text (chars "ab"), chars "ab")], p.1.well_behaved p.2) ∧
    (∀ p ∈ [(to_chars_text (chars "cd"), chars "cd")], p.1.well_behaved p.2) ∧
    catrs_append 0 [] [to_chars_text (chars "ab")] = (chars "ab", ⟨0, 2⟩) ∧
    catrs_append 0 (catrs_append 0 [] [to_chars_text (chars "ab")]).1
        [to_chars_text (chars "cd")] = (chars "abcd", ⟨2, 2⟩) ∧
    ((chars "abcd").drop 2).take 2 = chars "cd" :=
  have hab : ∀ p ∈ [(to_chars_text (chars "ab"), chars "ab")], p.1.well_behaved p.2 := by
    intro p hp
    simp only [List.mem_singleton] at hp
    subst hp
    exact to_chars_text_well_behaved _
  have hcd : ∀ p ∈ [(to_chars_text (chars "cd"), chars "cd")], p.1.well_behaved p.2 := by
    intro p hp
    simp only [List.mem_singleton] at hp
    subst hp
    exact to_chars_text_well_behaved _
  ⟨hab, hcd,
    (((resizing_append 0 []).1 [(to_chars_text (chars "ab"), chars "ab")] hab).1).trans
      (by decide),
    (((resizing_append 0 (catrs_append 0 [] [to_chars_text (chars "ab")]).1).1
      [(to_chars_text (chars "cd"), chars "cd")] hcd).1).trans (by decide),
    by decide⟩

/-! ## `from_chars` of a base64 text -/

/-- C19 (amended): for a valid base64 text of `q` quartets of which the last has `p`
padding characters (for `p = 0`, with four more characters in its array of which the third
and the fourth are not `=`), `from_chars` returns `3 * q - p`, the number of bytes decoded,
whatever the destination; for a text that is not empty this is not the number of input
characters. -/
theorem from_chars_base64_returns_decoded_size (asserts : Bool) (m : Mem)
    (out : base64_wrapper) (qs : List (Nat × Nat × Nat × Nat))
    (hqs : ∀ q ∈ qs, detail.base64.quartet_ok q) (final tail : List Nat) (p : Nat)
    (hfinal :
      (p = 0 ∧ final = [] ∧
        ∃ c2 c3, tail[2]? = some c2 ∧ tail[3]? = some c3 ∧
          c2 ≠ detail.base64.pad ∧ c3 ≠ detail.base64.pad) ∨
      (p = 1 ∧ ∃ s0 s1 s2, s0 < 64 ∧ s1 < 64 ∧ s2 < 64 ∧
        final = [detail.base64.index_table.getD s0 0, detail.base64.index_table.getD s1 0,
          detail.base64.index_table.getD s2 0, detail.base64.pad]) ∨
      (p = 2 ∧ ∃ s0 s1, s0 < 64 ∧ s1 < 64 ∧
        final = [detail.base64.index_table.getD s0 0, detail.base64.index_table.getD s1 0,
          detail.base64.pad, detail.base64.pad])) :
    (from_chars_base64 asserts m
        ⟨detail.base64.quartets_text qs ++ (final ++ tail), 4 * qs.length + final.length⟩
        out).map Prod.snd = .ok (3 * (qs.length + final.length / 4) - p) ∧
    (0 < 4 * qs.length + final.length →
      3 * (qs.length + final.length / 4) - p ≠ 4 * qs.length + final.length) := by
  refine ⟨detail.base64.decode_returns_count asserts m out qs hqs final tail p hfinal, ?_⟩
  intro hpos
  rcases hfinal with ⟨rfl, rfl, _⟩ | ⟨rfl, s0, s1, s2, _, _, _, rfl⟩ | ⟨rfl, s0, s1, _, _, rfl⟩
  · simp only [List.length_nil] at hpos ⊢
    omega
  · simp only [List.length_cons, List.length_nil]
    omega
  · simp only [List.length_cons, List.length_nil]
    omega

/-- The text `TWE=` (one quartet, one padding character): `from_chars` returns 2. -/
theorem from_chars_base64_returns_decoded_size_witness :
    (∀ q ∈ ([] : List (Nat × Nat × Nat × Nat)), detail.base64.quartet_ok q) ∧
    detail.base64.quartets_text [] ++ (chars "TWE=" ++ []) = chars "TWE=" ∧
    (from_chars_base64 false (fun _ => 0) ⟨chars "TWE=", 4⟩ ⟨100, 8⟩).map Prod.snd = .ok 2 :=
  ⟨(fun q hq => nomatch hq), by decide,
    (from_chars_base64_returns_decoded_size false (fun _ => 0) ⟨100, 8⟩ []
      (fun q hq => nomatch hq) (chars "TWE=") [] 1
      (Or.inr (Or.inl ⟨rfl, 19, 22, 4, by decide, by decide, by decide, by decide⟩))).1⟩

/-- C19 fails as stated: on the valid text `TWE=`, of 4 characters, `from_chars` returns
2, the number of bytes it decodes (`Ma`), which is neither a failure nor the number of
input characters; and on `TWFuTQ==`, of 8 characters, it returns 4. -/
theorem from_chars_base64_not_consumed_count :
    (chars "TWE=").length = 4 ∧
    (from_chars_base64 false (fun _ => 0) ⟨chars "TWE=", 4⟩ ⟨100, 8⟩).map
      (fun r => (r.1.slice 100 2, r.2)) = .ok (chars "Ma", 2) ∧
    (from_chars_base64 true (fun _ => 0) ⟨chars "TWE=", 4⟩ ⟨100, 8⟩).map
      (fun r => (r.1.slice 100 2, r.2)) = .ok (chars "Ma", 2) ∧
    (chars "TWFuTQ==").length = 8 ∧
    (from_chars_base64 true (fun _ => 0) ⟨chars "TWFuTQ==", 8⟩ ⟨100, 8⟩).map
      (fun r => (r.1.slice 100 4, r.2)) = .ok (chars "ManM", 4) :=
  ⟨by decide, rfl, rfl, by decide, rfl⟩

end c4

namespace c4

namespace detail.base64

/-! ## The check on the length of the text -/

theorem bind_ne_check {α β : Type} (x : Except Err α) (f : α → Except Err β)
    (hx : x ≠ .error Err.check) (hf : ∀ a, f a ≠ .error Err.check) :
    (x >>= f) ≠ .error Err.check := by
  cases x with
  | error e =>
    intro h
    apply hx
    simp only [bind, Except.bind, Except.error.injEq] at h
    rw [h]
  | ok a => exact hf a

theorem rd_ne_check (encoded : csubstr) (i : Nat) : rd encoded i ≠ .error Err.check := by
  unfold rd
  split <;> simp [pure, Except.pure, throw, throwThe, MonadExceptOf.throw]

theorem table_idx_ne_check (c : Nat) : table_idx c ≠ .error Err.check := by
  unfold table_idx
  split_ifs <;> simp [pure, Except.pure, throw, throwThe, MonadExceptOf.throw]

theorem c4_assert_ne_check (a c : Bool) : c4_assert a c ≠ .error Err.check := by
  unfold c4_assert
  split_ifs <;> simp [pure, Except.pure, throw, throwThe, MonadExceptOf.throw]

/-- The loop of `decode` never stops at a `C4_CHECK`. -/
theorem decode_loop_ne_check (asserts : Bool) (encoded : csubstr) (buf : base64_wrapper) :
    ∀ (fuel rpos wpos : Nat) (m : Mem),
      decode_loop asserts encoded buf fuel rpos wpos m ≠ .error Err.check := by
  intro fuel
  induction fuel with
  | zero =>
    intro rpos wpos m
    simp only [decode_loop]
    split_ifs <;> simp [pure, Except.pure, throw, throwThe, MonadExceptOf.throw]
  | succ n ih =>
    intro rpos wpos m
    simp only [decode_loop]
    repeat' first
      | exact rd_ne_check _ _
      | exact table_idx_ne_check _
      | exact c4_assert_ne_check _ _
      | exact ih _ _ _
      | refine bind_ne_check _ _ ?_ (fun _ => ?_)
      | split
      | simp [pure, Except.pure]

/-- The part of `decode` after the loop never stops at a `C4_CHECK`. -/
theorem decode_padded_ne_check (asserts : Bool) (encoded : csubstr) (buf : base64_wrapper)
    (rpos wpos : Nat) (m : Mem) :
    decode_padded asserts encoded buf rpos wpos m ≠ .error Err.check := by
  unfold decode_padded
  repeat' first
    | exact rd_ne_check _ _
    | exact table_idx_ne_check _
    | exact c4_assert_ne_check _ _
    | refine bind_ne_check _ _ ?_ (fun _ => ?_)
    | split
    | simp [pure, Except.pure]

/-- A text whose length is not a multiple of 4 stops `decode` at its `C4_CHECK`. -/
theorem decode_check_fails (asserts : Bool) (m : Mem) (encoded : csubstr)
    (buf : base64_wrapper) (h : encoded.len % 4 ≠ 0) :
    decode asserts m encoded buf = .error Err.check := by
  unfold decode
  simp only [h, ne_eq, not_false_eq_true, if_true]
  rfl

/-- A text whose length is a multiple of 4 passes the `C4_CHECK` of `decode`. -/
theorem decode_check_passes (asserts : Bool) (m : Mem) (encoded : csubstr)
    (buf : base64_wrapper) (h : encoded.len % 4 = 0) :
    decode asserts m encoded buf ≠ .error Err.check := by
  unfold decode
  simp only [h, ne_eq, not_true_eq_false, if_false]
  refine bind_ne_check _ _ (by simp [pure, Except.pure]) (fun _ => ?_)
  refine bind_ne_check _ _ (decode_loop_ne_check asserts encoded buf _ 0 0 m) ?_
  rintro ⟨m', wpos, rpos⟩
  exact decode_padded_ne_check _ _ _ _ _ _

/-! ## The accesses of `decode` -/

theorem Traced.res_pure {α : Type} (a : α) : (pure a : Traced α).res = .ok a := rfl

theorem Traced.log_pure {α : Type} (a : α) : (pure a : Traced α).log = [] := rfl

theorem Traced.res_bind {α β : Type} (x : Traced α) (f : α → Traced β) :
    (x >>= f).res = x.res >>= fun a => (f a).res := by
  show (match x.res with
    | .error e => (⟨x.log, .error e⟩ : Traced β)
    | .ok a => ⟨x.log ++ (f a).log, (f a).res⟩).res = _
  cases x.res <;> rfl

theorem Traced.res_lift {α : Type} (x : Except Err α) : (Traced.lift x).res = x := rfl

theorem rd_traced_res (encoded : csubstr) (i : Nat) :
    (rd_traced encoded i).res = rd encoded i := rfl

theorem dappend_traced_res (m : Mem) (buf : base64_wrapper) (wpos c : Nat) :
    (dappend_traced m buf wpos c).res = .ok (dappend_ m buf wpos c) := rfl

/-- The recorded store of `c4append_` is the change that it makes to the memory. -/
theorem dappend_traced_replay (m : Mem) (buf : base64_wrapper) (wpos c : Nat) :
    replay m (dappend_traced m buf wpos c).log = (dappend_ m buf wpos c).1 := by
  simp only [dappend_traced, dappend_]
  split_ifs <;> rfl

/-- The recorded loop returns or stops as the loop of `decode` does. -/
theorem decode_loop_traced_res (asserts : Bool) (encoded : csubstr) (buf : base64_wrapper) :
    ∀ (fuel rpos wpos : Nat) (m : Mem),
      (decode_loop_traced asserts encoded buf fuel rpos wpos m).res
        = decode_loop asserts encoded buf fuel rpos wpos m := by
  intro fuel
  induction fuel with
  | zero =>
    intro rpos wpos m
    simp only [decode_loop_traced, decode_loop]
    split_ifs <;> rfl
  | succ n ih =>
    intro rpos wpos m
    simp only [decode_loop_traced, decode_loop, apply_ite Traced.res, Traced.res_bind,
      Traced.res_pure, Traced.res_lift, rd_traced_res, dappend_traced_res, ih, ok_bind,
      pure_eq_ok]

/-- The recorded part after the loop returns or stops as that of `decode` does. -/
theorem decode_padded_traced_res (asserts : Bool) (encoded : csubstr) (buf : base64_wrapper)
    (rpos wpos : Nat) (m : Mem) :
    (decode_padded_traced asserts encoded buf rpos wpos m).res
      = decode_padded asserts encoded buf rpos wpos m := by
  simp only [decode_padded_traced, decode_padded, apply_ite Traced.res, Traced.res_bind,
    Traced.res_pure, Traced.res_lift, rd_traced_res, dappend_traced_res, ok_bind, pure_eq_ok]

/-- The recorded `decode` returns or stops as `decode` does. -/
theorem decode_traced_res (asserts : Bool) (m : Mem) (encoded : csubstr)
    (buf : base64_wrapper) :
    (decode_traced asserts m encoded buf).res = decode asserts m encoded buf := by
  simp only [decode_traced, decode, apply_ite Traced.res, Traced.res_bind, Traced.res_pure,
    Traced.res_lift, decode_loop_traced_res, decode_padded_traced_res]
  rfl


theorem Traced.head_bind {α β : Type} (x : Traced α) (f : α → Traced β) (e : Access)
    (h : x.log.head? = some e) : (x >>= f).log.head? = some e := by
  show (match x.res with
    | .error e => (⟨x.log, .error e⟩ : Traced β)
    | .ok a => ⟨x.log ++ (f a).log, (f a).res⟩).log.head? = _
  cases x.res with
  | error _ => exact h
  | ok a =>
    show (x.log ++ (f a).log).head? = _
    cases hx : x.log with
    | nil => rw [hx] at h; simp at h
    | cons c cs => rw [hx] at h; simpa using h

/-- A text whose length is not a multiple of 4: `decode` stops with no access made. -/
theorem decode_traced_log_check (asserts : Bool) (m : Mem) (encoded : csubstr)
    (buf : base64_wrapper) (h : encoded.len % 4 ≠ 0) :
    (decode_traced asserts m encoded buf).log = [] := by
  simp only [decode_traced, ne_eq, h, not_false_eq_true, if_true]
  rfl

/-- A text whose length is a multiple of 4: the first access of `decode` is the read of
`d[2]`, in the loop or, for the empty text, after it. -/
theorem decode_traced_first_read (asserts : Bool) (m : Mem) (encoded : csubstr)
    (buf : base64_wrapper) (h : encoded.len % 4 = 0) :
    (decode_traced asserts m encoded buf).log.head? = some (Access.read 2) := by
  simp only [decode_traced, ne_eq, h, not_true_eq_false, if_false]
  show ([] ++ (decode_loop_traced asserts encoded buf (encoded.len / 4) 0 0 m >>= _).log).head?
    = _
  rw [List.nil_append]
  by_cases h0 : encoded.len = 0
  · rw [h0]
    simp only [Nat.zero_div, decode_loop_traced, if_neg (show ¬ 0 < encoded.len by omega)]
    show ([] ++ (decode_padded_traced asserts encoded buf 0 0 m).log).head? = _
    rw [List.nil_append]
    simp only [decode_padded_traced]
    exact Traced.head_bind _ _ _ rfl
  · obtain ⟨n, hn⟩ : ∃ n, encoded.len / 4 = n + 1 := ⟨encoded.len / 4 - 1, by omega⟩
    rw [hn]
    refine Traced.head_bind _ _ _ ?_
    simp only [decode_loop_traced, if_pos (show 0 < encoded.len by omega)]
    exact Traced.head_bind _ _ _ rfl

/-! ### The recorded stores are the changes of the memory -/

theorem replay_append (l₁ l₂ : List Access) :
    ∀ m : Mem, replay m (l₁ ++ l₂) = replay (replay m l₁) l₂ := by
  induction l₁ with
  | nil => intro m; rfl
  | cons e l ih =>
    intro m
    cases e with
    | read i => exact ih m
    | store a c => exact ih (m.write a c)

theorem Traced.stores_to_pure {α : Type} (m : Mem) (a : α) (g : α → Mem) (h : g a = m) :
    (pure a : Traced α).stores_to m g := by
  refine ⟨fun r hr => ?_⟩
  cases hr
  exact h.symm

theorem Traced.stores_to_lift {α : Type} (m : Mem) (x : Except Err α) :
    (Traced.lift x).stores_to m (fun _ => m) := ⟨fun _ _ => rfl⟩

theorem Traced.stores_to_error {α : Type} (m : Mem) (e : Err) (g : α → Mem) :
    (Traced.lift (throw e) : Traced α).stores_to m g := by
  refine ⟨fun r hr => ?_⟩
  exact absurd hr (by simp [Traced.lift, throw, throwThe, MonadExceptOf.throw])

theorem rd_traced_stores (m : Mem) (encoded : csubstr) (i : Nat) :
    (rd_traced encoded i).stores_to m (fun _ => m) := ⟨fun _ _ => rfl⟩

theorem dappend_traced_stores (m : Mem) (buf : base64_wrapper) (wpos c : Nat) :
    (dappend_traced m buf wpos c).stores_to m (fun p => p.1) := by
  refine ⟨fun r hr => ?_⟩
  cases hr
  exact dappend_traced_replay m buf wpos c

theorem Traced.stores_to_bind {α β : Type} (m : Mem) (x : Traced α) (f : α → Traced β)
    (g₁ : α → Mem) (g : β → Mem) (hx : x.stores_to m g₁)
    (hf : ∀ a, (f a).stores_to (g₁ a) g) : (x >>= f).stores_to m g := by
  refine ⟨fun r hr => ?_⟩
  have hb : (x >>= f) = (match x.res with
    | .error e => (⟨x.log, .error e⟩ : Traced β)
    | .ok a => ⟨x.log ++ (f a).log, (f a).res⟩) := rfl
  rw [hb] at hr ⊢
  cases hx' : x.res with
  | error e => rw [hx'] at hr; cases hr
  | ok a =>
    rw [hx'] at hr
    show replay m (x.log ++ (f a).log) = g r
    rw [replay_append, hx.replayed a hx']
    exact (hf a).replayed r hr

/-- The stores recorded in the loop of `decode` are the changes it makes to the memory. -/
theorem decode_loop_traced_stores (asserts : Bool) (encoded : csubstr)
    (buf : base64_wrapper) :
    ∀ (fuel rpos wpos : Nat) (m : Mem),
      (decode_loop_traced asserts encoded buf fuel rpos wpos m).stores_to m (fun r => r.1) := by
  intro fuel
  induction fuel with
  | zero =>
    intro rpos wpos m
    simp only [decode_loop_traced]
    split_ifs
    · exact Traced.stores_to_error m _ _
    · exact Traced.stores_to_pure m _ _ rfl
  | succ n ih =>
    intro rpos wpos m
    simp only [decode_loop_traced]
    repeat' first
      | exact Traced.stores_to_pure _ _ _ rfl
      | exact Traced.stores_to_lift _ _
      | exact rd_traced_stores _ _ _
      | exact ih _ _ _
      | refine Traced.stores_to_bind _ _ _ _ _ (rd_traced_stores _ _ _) (fun _ => ?_)
      | refine Traced.stores_to_bind _ _ _ _ _ (Traced.stores_to_lift _ _) (fun _ => ?_)
      | refine Traced.stores_to_bind _ _ _ _ _ (dappend_traced_stores _ _ _ _) (fun _ => ?_)
      | refine Traced.stores_to_bind _ _ _ (fun _ => m) _ ?_ (fun _ => ?_)
      | split_ifs

/-- The stores recorded after the loop of `decode` are the changes made to the memory. -/
theorem decode_padded_traced_stores (asserts : Bool) (encoded : csubstr)
    (buf : base64_wrapper) (rpos wpos : Nat) (m : Mem) :
    (decode_padded_traced asserts encoded buf rpos wpos m).stores_to m (fun r => r.1) := by
  simp only [decode_padded_traced]
  repeat' first
    | exact Traced.stores_to_pure _ _ _ rfl
    | exact Traced.stores_to_lift _ _
    | exact rd_traced_stores _ _ _
    | refine Traced.stores_to_bind _ _ _ _ _ (rd_traced_stores _ _ _) (fun _ => ?_)
    | refine Traced.stores_to_bind _ _ _ _ _ (Traced.stores_to_lift _ _) (fun _ => ?_)
    | refine Traced.stores_to_bind _ _ _ _ _ (dappend_traced_stores _ _ _ _) (fun _ => ?_)
    | refine Traced.stores_to_bind _ _ _ (fun _ => m) _ ?_ (fun _ => ?_)
    | split_ifs

/-- The stores recorded by `decode` are the changes it makes to the memory: when it
returns, replaying them on the memory it started in gives the memory it leaves. -/
theorem decode_traced_stores (asserts : Bool) (m : Mem) (encoded : csubstr)
    (buf : base64_wrapper) :
    (decode_traced asserts m encoded buf).stores_to m (fun r => r.1) := by
  simp only [decode_traced]
  split_ifs
  · refine Traced.stores_to_bind m _ _ _ _ (Traced.stores_to_lift m _) (fun _ => ?_)
    refine Traced.stores_to_bind m _ _ _ _
      (decode_loop_traced_stores asserts encoded buf _ 0 0 m) (fun r => ?_)
    exact decode_padded_traced_stores asserts encoded buf _ _ r.1
  · refine Traced.stores_to_bind m _ _ (fun _ => m) _ (Traced.stores_to_pure m _ _ rfl)
      (fun _ => ?_)
    refine Traced.stores_to_bind m _ _ _ _
      (decode_loop_traced_stores asserts encoded buf _ 0 0 m) (fun r => ?_)
    exact decode_padded_traced_stores asserts encoded buf _ _ r.1

/-- C21: `decode` stops at the `C4_CHECK` of its entry exactly when the length of the text
is not a multiple of 4, and then whatever the array of the text holds, even an array with
no character to read, whatever the memory and the destination.  The check comes before
every read and every store: `decode_traced`, the same body with each read of the text and
each store in the destination recorded, returns or stops as `decode` does, its recorded
stores give the memory that `decode` leaves, and when the check fails it has recorded no
access; when the check passes, its first access is the read of `d[2]`.  The empty text
passes the check. -/
theorem decode_checks_length_first (asserts : Bool) (m : Mem) (encoded : csubstr)
    (buf : base64_wrapper) :
    (decode asserts m encoded buf = .error Err.check ↔ encoded.len % 4 ≠ 0) ∧
    (encoded.len % 4 ≠ 0 → ∀ (asserts' : Bool) (m' : Mem) (str' : List Nat)
        (buf' : base64_wrapper),
      decode asserts' m' ⟨str', encoded.len⟩ buf' = .error Err.check) ∧
    (∀ str' : List Nat, decode asserts m ⟨str', 0⟩ buf ≠ .error Err.check) ∧
    (decode_traced asserts m encoded buf).res = decode asserts m encoded buf ∧
    (∀ (m' : Mem) (n : Nat), decode asserts m encoded buf = .ok (m', n) →
      replay m (decode_traced asserts m encoded buf).log = m') ∧
    (encoded.len % 4 ≠ 0 → (decode_traced asserts m encoded buf).log = []) ∧
    (encoded.len % 4 = 0 →
      (decode_traced asserts m encoded buf).log.head? = some (Access.read 2)) := by
  refine ⟨⟨fun h => ?_, decode_check_fails asserts m encoded buf⟩, fun h a' m' s' b' =>
    decode_check_fails a' m' ⟨s', encoded.len⟩ b' h, fun s' =>
    decode_check_passes asserts m ⟨s', 0⟩ buf rfl, decode_traced_res asserts m encoded buf,
    fun m' n h => ?_, decode_traced_log_check asserts m encoded buf,
    decode_traced_first_read asserts m encoded buf⟩
  · intro h0
    exact decode_check_passes asserts m encoded buf h0 h
  · rw [← decode_traced_res] at h
    exact (decode_traced_stores asserts m encoded buf).replayed (m', n) h

/-- The example of C21: the text `TWFuQ` of 5 characters stops `decode` at the check with
no access recorded; on the text `TWE=` the accesses are the reads of the loop and of the
padded quartet, then the two stores. -/
theorem decode_checks_length_first_witness :
    (decode true (fun _ => 0) ⟨chars "TWFuQ", 5⟩ ⟨100, 3⟩ = .error Err.check ↔ 5 % 4 ≠ 0) ∧
    (5 % 4 ≠ 0 → ∀ (asserts' : Bool) (m' : Mem) (str' : List Nat) (buf' : base64_wrapper),
      decode asserts' m' ⟨str', 5⟩ buf' = .error Err.check) ∧
    (∀ str' : List Nat, decode true (fun _ => 0) ⟨str', 0⟩ ⟨100, 3⟩ ≠ .error Err.check) ∧
    (decode_traced true (fun _ => 0) ⟨chars "TWFuQ", 5⟩ ⟨100, 3⟩).log = [] ∧
    (decode_traced true (fun _ => 0) ⟨chars "TWE=", 4⟩ ⟨100, 3⟩).log
      = [Access.read 2, Access.read 3, Access.read 2, Access.read 3, Access.read 2,
          Access.read 1, Access.read 0, Access.store 100 77, Access.store 101 97] :=
  ⟨(decode_checks_length_first true (fun _ => 0) ⟨chars "TWFuQ", 5⟩ ⟨100, 3⟩).1,
    (decode_checks_length_first true (fun _ => 0) ⟨chars "TWFuQ", 5⟩ ⟨100, 3⟩).2.1,
    (decode_checks_length_first true (fun _ => 0) ⟨chars "TWFuQ", 5⟩ ⟨100, 3⟩).2.2.1,
    (decode_checks_length_first true (fun _ => 0) ⟨chars "TWFuQ", 5⟩ ⟨100, 3⟩).2.2.2.2.2.1
      (by decide),
    rfl⟩

end detail.base64

end c4

namespace c4

/-! ## `unformat` and the literal text of its template -/

theorem positions_shift (fmt : List Nat) :
    ∀ i, placeholder_positions fmt i = (placeholder_positions fmt 0).map (· + i) := by
  induction fmt using count_placeholders.induct with
  | case1 rest ih =>
    intro i
    simp only [placeholder_positions, List.map_cons, Nat.zero_add]
    rw [ih (i + 2), ih 2, List.map_map]
    refine congrArg₂ _ rfl (List.map_congr_left fun x _ => ?_)
    simp only [Function.comp_def]
    omega
  | case2 c rest hne ih =>
    intro i
    rw [placeholder_positions.eq_2 _ _ _ hne, placeholder_positions.eq_2 _ _ _ hne,
      ih (i + 1), ih (0 + 1), List.map_map]
    refine List.map_congr_left fun x _ => ?_
    simp only [Function.comp_def]
    omega
  | case3 => intro i; simp [placeholder_positions]

theorem positions_cancel (f g : List Nat) (i : Nat)
    (h : placeholder_positions f i = placeholder_positions g i) :
    placeholder_positions f 0 = placeholder_positions g 0 := by
  rw [positions_shift f i, positions_shift g i] at h
  exact List.map_injective_iff.2 (fun a b hab => by simpa using hab) h

theorem positions_find_none (fmt : List Nat) (h : find_placeholder fmt = none) :
    ∀ i, placeholder_positions fmt i = [] := by
  induction fmt using count_placeholders.induct with
  | case1 rest ih => simp [find_placeholder] at h
  | case2 c rest hne ih =>
    intro i
    rw [find_placeholder.eq_2 _ _ hne] at h
    rw [placeholder_positions.eq_2 _ _ _ hne, ih (by simpa using h)]
  | case3 => intro i; rfl

theorem positions_find_some (fmt : List Nat) :
    ∀ pos i, find_placeholder fmt = some pos →
      placeholder_positions fmt i
        = (i + pos) :: placeholder_positions (fmt.drop (pos + 2)) (i + pos + 2) := by
  induction fmt using count_placeholders.induct with
  | case1 rest ih =>
    intro pos i h
    simp only [find_placeholder, Option.some.injEq] at h
    subst h
    simp [placeholder_positions]
  | case2 c rest hne ih =>
    intro pos i h
    rw [find_placeholder.eq_2 _ _ hne] at h
    obtain ⟨q, hq, rfl⟩ := Option.map_eq_some'.1 h
    rw [placeholder_positions.eq_2 _ _ _ hne, ih q (i + 1) hq]
    simp only [List.drop_succ_cons]
    refine congrArg₂ _ (by omega) (congrArg₂ _ rfl (by omega))
  | case3 => intro pos i h; simp [find_placeholder] at h

/-- Two templates with their placeholders at the same positions give the same search
results, so `unformat` does the same with them. -/
theorem unformat_same_positions {V : Type} (args : List (De V × V)) :
    ∀ (buf fmt₁ fmt₂ : List Nat),
      placeholder_positions fmt₁ 0 = placeholder_positions fmt₂ 0 →
      unformat buf fmt₁ args = unformat buf fmt₂ args := by
  induction args with
  | nil => intro buf fmt₁ fmt₂ _; rfl
  | cons p more ih =>
    obtain ⟨d, a⟩ := p
    intro buf fmt₁ fmt₂ hpos
    cases h1 : find_placeholder fmt₁ with
    | none =>
      cases h2 : find_placeholder fmt₂ with
      | none => rw [unformat_no_placeholder _ _ _ _ _ h1, unformat_no_placeholder _ _ _ _ _ h2]
      | some pos₂ =>
        rw [positions_find_none _ h1, positions_find_some _ _ _ h2] at hpos
        cases hpos
    | some pos =>
      cases h2 : find_placeholder fmt₂ with
      | none =>
        rw [positions_find_none _ h2, positions_find_some _ _ _ h1] at hpos
        cases hpos
      | some pos₂ =>
        rw [positions_find_some _ _ _ h1, positions_find_some _ _ _ h2] at hpos
        simp only [List.cons.injEq, Nat.zero_add] at hpos
        obtain ⟨hp, htail⟩ := hpos
        subst hp
        have hrest := positions_cancel _ _ _ htail
        cases hr : (d (buf.drop pos) a).2 with
        | none =>
          rw [unformat_fail_head _ _ _ _ _ _ h1 hr, unformat_fail_head _ _ _ _ _ _ h2 hr]
        | some r =>
          rw [unformat_ok_head _ _ _ _ _ _ _ h1 hr, unformat_ok_head _ _ _ _ _ _ _ h2 hr,
            ih _ _ _ hrest]

/-- The characters of the source under the literal text before a placeholder are not
looked at: `unformat` gives the same for two sources that agree from the position of the
placeholder on. -/
theorem unformat_skips_source {V : Type} (args : List (De V × V)) (buf buf' fmt : List Nat)
    (pos : Nat) (h : find_placeholder fmt = some pos) (hd : buf'.drop pos = buf.drop pos) :
    unformat buf' fmt args = unformat buf fmt args := by
  cases args with
  | nil => rfl
  | cons p more =>
    obtain ⟨d, a⟩ := p
    simp only [unformat, h, drop_view]
    rw [hd]

/-- C22: `unformat` does not validate the literal text of the template.  Two templates
whose placeholders sit at the same positions (of the same length or not) give the same
returned value and the same stored values for every source; and the characters of the
source under a literal segment are skipped without being looked at: two sources that agree
from the position of the first placeholder on give the same result, and so on for each
later segment, which the remaining call skips in the remaining source in the same way. -/
theorem unformat_ignores_literal_text {V : Type} (buf fmt₁ fmt₂ : List Nat)
    (args : List (De V × V))
    (hpos : placeholder_positions fmt₁ 0 = placeholder_positions fmt₂ 0) :
    unformat buf fmt₁ args = unformat buf fmt₂ args ∧
    (∀ (pos : Nat) (buf' : List Nat), find_placeholder fmt₁ = some pos →
      buf'.drop pos = buf.drop pos → unformat buf' fmt₁ args = unformat buf fmt₁ args) ∧
    (∀ (d : De V) (a : V) (more : List (De V × V)) (pos r : Nat),
      args = (d, a) :: more → find_placeholder fmt₁ = some pos →
      (d (buf.drop pos) a).2 = some r →
      unformat buf fmt₁ args
        = ((d (buf.drop pos) a).1
            :: (unformat (buf.drop (pos + r)) (fmt₁.drop (pos + 2)) more).1,
          (unformat (buf.drop (pos + r)) (fmt₁.drop (pos + 2)) more).2.map (pos + r + ·))) :=
  ⟨unformat_same_positions args buf fmt₁ fmt₂ hpos,
    fun pos buf' h hd => unformat_skips_source args buf buf' fmt₁ pos h hd,
    fun d a more pos r he h hr => by rw [he]; exact unformat_ok_head buf fmt₁ d a more pos r h hr⟩

theorem unformat_ignores_literal_text_witness :
    (chars "a={} b={}").length = (chars "x:{};y:{}").length ∧
    placeholder_positions (chars "a={} b={}") 0 = [2, 7] ∧
    placeholder_positions (chars "x:{};y:{}") 0 = [2, 7] ∧
    unformat (chars "a=15 b=-2") (chars "a={} b={}") [(from_chars_int, 0), (from_chars_int, 0)]
      = ([15, -2], some 9) ∧
    unformat (chars "a=15 b=-2") (chars "a={} b={}") [(from_chars_int, 0), (from_chars_int, 0)]
      = unformat (chars "a=15 b=-2") (chars "x:{};y:{}")
          [(from_chars_int, 0), (from_chars_int, 0)] ∧
    unformat (chars "??15 b=-2") (chars "a={} b={}") [(from_chars_int, 0), (from_chars_int, 0)]
      = unformat (chars "a=15 b=-2") (chars "a={} b={}")
          [(from_chars_int, 0), (from_chars_int, 0)] :=
  ⟨by decide, by decide, by decide, by decide,
    (unformat_ignores_literal_text (chars "a=15 b=-2") (chars "a={} b={}") (chars "x:{};y:{}")
      [(from_chars_int, 0), (from_chars_int, 0)] (by decide)).1,
    (unformat_ignores_literal_text (chars "a=15 b=-2") (chars "a={} b={}") (chars "x:{};y:{}")
      [(from_chars_int, 0), (from_chars_int, 0)] (by decide)).2.1 2 (chars "??15 b=-2")
      (by decide) (by decide)⟩

end c4

namespace c4

/-! ## The deserializer of integers stays inside its view -/

theorem takeWhile_length_le (p : Nat → Bool) (l : List Nat) :
    (l.takeWhile p).length ≤ l.length := by
  induction l with
  | nil => simp
  | cons c rest ih =>
    simp only [List.takeWhile_cons]
    split <;> simp only [List.length_cons, List.length_nil] <;> omega

/-- The deserializer `from_chars_int` fails on an empty view and consumes no more than the
view it receives. -/
theorem from_chars_int_le (view : List Nat) (v : Int) (r : Nat)
    (h : (from_chars_int view v).2 = some r) : view ≠ [] ∧ r ≤ view.length := by
  cases view with
  | nil => simp [from_chars_int] at h
  | cons c rest =>
    refine ⟨by simp, ?_⟩
    by_cases hneg : c = 45
    · subst hneg
      simp only [from_chars_int, List.head?_cons, decide_True, if_true, List.tail_cons] at h
      split_ifs at h with hd
      simp at h
      have := takeWhile_length_le (fun c => decide (48 ≤ c) && decide (c ≤ 57)) rest
      simp only [List.length_cons]
      omega
    · have hh : ¬ (some c = some 45) := by simpa using hneg
      simp only [from_chars_int, List.head?_cons, hh, decide_False, Bool.false_eq_true,
        if_false] at h
      split_ifs at h with hd
      simp at h
      have := takeWhile_length_le (fun c => decide (48 ≤ c) && decide (c ≤ 57)) (c :: rest)
      simp only [List.length_cons] at this ⊢
      omega

theorem from_chars_int_bounded :
    ∀ p ∈ [(from_chars_int, (0 : Int)), (from_chars_int, 0)],
      ∀ (view : List Nat) (v : Int) (r : Nat),
        (p.1 view v).2 = some r → view ≠ [] ∧ r ≤ view.length := by
  intro p hp view v r h
  simp only [List.mem_cons, List.mem_singleton, List.not_mem_nil, or_false, or_self] at hp
  subst hp
  exact from_chars_int_le view v r h

end c4

namespace c4

/-! ## The count that `unformat` returns -/

/-- A successful `unformat` whose deserializers fail on an empty view, and otherwise
consume no more than the view they receive, returns no more than the length of the
source. -/
theorem unformat_le_length {V : Type} (args : List (De V × V)) :
    ∀ (buf fmt : List Nat) (vs : List V) (n : Nat),
      (∀ p ∈ args, ∀ (view : List Nat) (v : V) (r : Nat),
        (p.1 view v).2 = some r → view ≠ [] ∧ r ≤ view.length) →
      unformat buf fmt args = (vs, some n) → n ≤ buf.length := by
  induction args with
  | nil =>
    intro buf fmt vs n _ h
    simp only [unformat, Prod.mk.injEq, Option.some.injEq] at h
    omega
  | cons p more ih =>
    obtain ⟨d, a⟩ := p
    intro buf fmt vs n hde h
    cases h1 : find_placeholder fmt with
    | none =>
      rw [unformat_no_placeholder _ _ _ _ _ h1] at h
      simp only [Prod.mk.injEq, Option.some.injEq] at h
      omega
    | some pos =>
      cases hr : (d (buf.drop pos) a).2 with
      | none =>
        rw [unformat_fail_head _ _ _ _ _ _ h1 hr] at h
        simp at h
      | some r =>
        rw [unformat_ok_head _ _ _ _ _ _ _ h1 hr] at h
        obtain ⟨hne, hle⟩ := hde (d, a) (List.mem_cons_self _ _) _ _ _ hr
        have hlt : pos < buf.length := by
          by_contra hc
          exact hne (List.drop_eq_nil_of_le (by omega))
        rw [List.length_drop] at hle
        cases hrest : (unformat (buf.drop (pos + r)) (fmt.drop (pos + 2)) more).2 with
        | none => rw [hrest] at h; simp at h
        | some k =>
          rw [hrest] at h
          simp only [Option.map_some', Prod.mk.injEq, Option.some.injEq] at h
          have hk := ih (buf.drop (pos + r)) (fmt.drop (pos + 2)) _ k
            (fun q hq => hde q (List.mem_cons_of_mem _ hq)) (Prod.ext rfl hrest)
          rw [List.length_drop] at hk
          omega

/-- C23, as the source has it: a successful `unformat` returns the position of its cursor
in the source, so that the deserializers of further arguments read the source from that
position; and when every deserializer fails on an empty view and otherwise returns the
failure value or a count no larger than the view it receives, that position is no larger
than the length of the source. -/
theorem unformat_count_within_source {V : Type} (buf fmt : List Nat)
    (args : List (De V × V)) (vs : List V) (n : Nat)
    (hde : ∀ p ∈ args, ∀ (view : List Nat) (v : V) (r : Nat),
      (p.1 view v).2 = some r → view ≠ [] ∧ r ≤ view.length)
    (h : unformat buf fmt args = (vs, some n)) :
    n ≤ buf.length ∧
    (args.length ≤ count_placeholders fmt → ∀ rest : List (De V × V),
      unformat buf fmt (args ++ rest)
        = (vs ++ (unformat (buf.drop n) (after_placeholders fmt args.length) rest).1,
            (unformat (buf.drop n) (after_placeholders fmt args.length) rest).2.map (n + ·))) :=
  ⟨unformat_le_length args buf fmt vs n hde h,
    fun hlen rest => unformat_append args rest buf fmt vs n h hlen⟩

theorem unformat_count_within_source_witness :
    (∀ p ∈ [(from_chars_int, (0 : Int)), (from_chars_int, 0)],
      ∀ (view : List Nat) (v : Int) (r : Nat),
        (p.1 view v).2 = some r → view ≠ [] ∧ r ≤ view.length) ∧
    unformat (chars "a=15 b=-2;") (chars "a={} b={};")
      [(from_chars_int, 0), (from_chars_int, 0)] = ([15, -2], some 9) ∧
    9 ≤ (chars "a=15 b=-2;").length :=
  ⟨from_chars_int_bounded, by decide,
    (unformat_count_within_source (chars "a=15 b=-2;") (chars "a={} b={};")
      [(from_chars_int, 0), (from_chars_int, 0)] [15, -2] 9 from_chars_int_bounded
      (by decide)).1⟩

/-- C23 as stated fails: a deserializer that takes the whole view it receives returns a
count no larger than that view, also on an empty view.  With the template `abc{}` and the
source `ab`, shorter than the literal text, `unformat` adds the length 3 of the literal
text to its count, gives the deserializer an empty view, and returns 3, more than the 2
characters of the source. -/
theorem unformat_count_exceeds_source :
    (∀ (view v : List Nat) (r : Nat),
      ((fun buf _ => (buf, some buf.length) : De (List Nat)) view v).2 = some r →
        r ≤ view.length) ∧
    find_placeholder (chars "abc{}") = some 3 ∧
    unformat (chars "ab") (chars "abc{}")
      [((fun buf _ => (buf, some buf.length) : De (List Nat)), chars "old")]
      = ([[]], some 3) ∧
    ¬ (3 ≤ (chars "ab").length) :=
  ⟨fun view v r h => by simp only [Option.some.injEq] at h; omega, by decide, by decide,
    by decide⟩

end c4

namespace c4

/-! ## The calls and the resizes of the adapters -/

theorem rs_overwrite_trace_fst (fill : Nat) (op : Mem → substr → Mem × Nat)
    (cont : List Nat) : (rs_overwrite_trace fill op cont).1 = rs_overwrite fill op cont := by
  simp only [rs_overwrite_trace, rs_overwrite]
  split_ifs <;> rfl

theorem rs_append_trace_fst (fill : Nat) (op : Mem → substr → Mem × Nat)
    (cont : List Nat) : (rs_append_trace fill op cont).1 = rs_append fill op cont := by
  simp only [rs_append_trace, rs_append]
  split_ifs <;> rfl

/-- The overwrite adapters call `op` twice when the first call returns more than the
length of its view, the size of the container, and once otherwise. -/
theorem rs_overwrite_trace_calls (fill : Nat) (op : Mem → substr → Mem × Nat)
    (cont : List Nat) :
    (rs_overwrite_trace fill op cont).2.1
      = if cont.length < (op (container_mem cont) ⟨0, cont.length⟩).2 then 2 else 1 := by
  simp only [rs_overwrite_trace, gt_iff_lt]
  split_ifs <;> rfl

/-- The append adapters call `op` twice when the first call returns more than the length
of its view, and once otherwise. -/
theorem rs_append_trace_calls (fill : Nat) (op : Mem → substr → Mem × Nat)
    (cont : List Nat) :
    (rs_append_trace fill op cont).2.1
      = if ((⟨0, cont.length⟩ : substr).sub cont.length).len
          < (op (container_mem cont) ((⟨0, cont.length⟩ : substr).sub cont.length)).2
        then 2 else 1 := by
  simp only [rs_append_trace, gt_iff_lt]
  split_ifs <;> rfl

/-- With a required length that does not depend on the view, the overwrite adapters
resize the container once, to the required length. -/
theorem rs_overwrite_trace_resizes (fill : Nat) (op : Mem → substr → Mem × Nat)
    (cont : List Nat) (req : Nat) (hreq : ∀ m buf, (op m buf).2 = req) :
    (rs_overwrite_trace fill op cont).2.2 = [req] := by
  simp only [rs_overwrite_trace, hreq, resize_length, ne_eq, not_true_eq_false, if_false]
  split_ifs <;> rfl

/-- With a required length that does not depend on the view, the append adapters resize
the container once, to its size plus the required length. -/
theorem rs_append_trace_resizes (fill : Nat) (op : Mem → substr → Mem × Nat)
    (cont : List Nat) (req : Nat) (hreq : ∀ m buf, (op m buf).2 = req) :
    (rs_append_trace fill op cont).2.2 = [cont.length + req] := by
  simp only [rs_append_trace, hreq, resize_length, substr.sub, Nat.add_sub_cancel_left, ne_eq,
    not_true_eq_false, if_false]
  split_ifs <;> rfl

theorem rs_overwrite_length (fill : Nat) (op : Mem → substr → Mem × Nat)
    (cont : List Nat) (req : Nat) (hreq : ∀ m buf, (op m buf).2 = req) :
    (rs_overwrite fill op cont).length = req := by
  simp only [rs_overwrite, hreq, resize_length, ne_eq, not_true_eq_false, if_false]
  split_ifs
  · rw [Mem.slice_length]
  · rw [resize_length]

theorem rs_append_length (fill : Nat) (op : Mem → substr → Mem × Nat)
    (cont : List Nat) (req : Nat) (hreq : ∀ m buf, (op m buf).2 = req) :
    (rs_append fill op cont).1.length = cont.length + req ∧
      (rs_append fill op cont).2 = ⟨cont.length, req⟩ := by
  simp only [rs_append, hreq, resize_length, substr.sub, Nat.add_sub_cancel_left, ne_eq,
    not_true_eq_false, if_false]
  split_ifs
  · simp only [Mem.slice_length, Nat.add_sub_cancel_left, and_self]
  · simp only [resize_length, Nat.add_sub_cancel_left, and_self]

/-- The length that `catsep` returns does not depend on the view when the lengths that the
serializers of its arguments return do not. -/
theorem catsep_snd (sep : Ser) (tsep : List Nat) (a : Ser) (na : Nat)
    (more : List (Ser × List Nat)) (hsep : sep.requires tsep.length) (ha : a.requires na)
    (hreq : ∀ p ∈ more, p.1.requires p.2.length) :
    ∀ m buf, (catsep m buf sep a (more.map fun p => p.1)).2
      = na + (more.map fun p => tsep.length + p.2.length).sum := by
  intro m buf
  simp only [catsep]
  rw [ha m buf, catsep_more_snd sep tsep hsep more hreq]

end c4

namespace c4

/-- C24: in the overwrite and the append bodies that the six adapters share (`catrs`,
`catseprs` and `formatrs` are these bodies with `op` the call of `cat`, `catsep` or
`format`), the composition operation is called a second time exactly when the first
call's view, the container or its empty end, is shorter than the length that call
returned, and once otherwise.  When the length that the operation returns does not depend
on the view, the container is resized exactly once, to the required length in overwrite
mode and to its former size plus the required length in append mode: the second call
returns the length of its view, so the guarded resize is not executed, and the container
ends with that size.  `cat`, `catsep` and `format` are such operations when the
serializers of their arguments are. -/
theorem resizing_calls_and_resizes (fill : Nat) (cont : List Nat)
    (op : Mem → substr → Mem × Nat) :
    ((rs_overwrite_trace fill op cont).1 = rs_overwrite fill op cont ∧
      (rs_append_trace fill op cont).1 = rs_append fill op cont) ∧
    (((rs_overwrite_trace fill op cont).2.1 = 2 ↔
        cont.length < (op (container_mem cont) ⟨0, cont.length⟩).2) ∧
      ((rs_overwrite_trace fill op cont).2.1 = 1 ↔
        ¬ cont.length < (op (container_mem cont) ⟨0, cont.length⟩).2)) ∧
    (((rs_append_trace fill op cont).2.1 = 2 ↔
        ((⟨0, cont.length⟩ : substr).sub cont.length).len
          < (op (container_mem cont) ((⟨0, cont.length⟩ : substr).sub cont.length)).2) ∧
      ((rs_append_trace fill op cont).2.1 = 1 ↔
        ¬ ((⟨0, cont.length⟩ : substr).sub cont.length).len
          < (op (container_mem cont) ((⟨0, cont.length⟩ : substr).sub cont.length)).2)) ∧
    (∀ req : Nat, (∀ m buf, (op m buf).2 = req) →
      (rs_overwrite_trace fill op cont).2.2 = [req] ∧
      (rs_overwrite fill op cont).length = req ∧
      (rs_append_trace fill op cont).2.2 = [cont.length + req] ∧
      (rs_append fill op cont).1.length = cont.length + req ∧
      (rs_append fill op cont).2 = ⟨cont.length, req⟩) ∧
    (∀ args : List Ser,
      catrs fill cont args = (rs_overwrite_trace fill (fun m buf => cat m buf args) cont).1 ∧
      catrs_append fill cont args
        = (rs_append_trace fill (fun m buf => cat m buf args) cont).1) ∧
    (∀ (sep a : Ser) (more : List Ser),
      catseprs fill cont sep a more
        = (rs_overwrite_trace fill (fun m buf => catsep m buf sep a more) cont).1 ∧
      catseprs_append fill cont sep a more
        = (rs_append_trace fill (fun m buf => catsep m buf sep a more) cont).1) ∧
    (∀ (fmt : List Nat) (args : List Ser),
      formatrs fill cont fmt args
        = (rs_overwrite_trace fill (fun m buf => format m buf fmt args) cont).1 ∧
      formatrs_append fill cont fmt args
        = (rs_append_trace fill (fun m buf => format m buf fmt args) cont).1) ∧
    (∀ args : List (Ser × Nat), (∀ p ∈ args, p.1.requires p.2) →
      ∀ m buf, (cat m buf (args.map fun p => p.1)).2 = (args.map fun p => p.2).sum) ∧
    (∀ (sep : Ser) (tsep : List Nat) (a : Ser) (na : Nat) (more : List (Ser × List Nat)),
      sep.requires tsep.length → a.requires na → (∀ p ∈ more, p.1.requires p.2.length) →
      ∀ m buf, (catsep m buf sep a (more.map fun p => p.1)).2
        = na + (more.map fun p => tsep.length + p.2.length).sum) ∧
    (∀ (fmt : List Nat) (args : List (Ser × List Nat)),
      (∀ p ∈ args, p.1.requires p.2.length) →
      ∀ m buf, (format m buf fmt (args.map fun p => p.1)).2
        = (substitute fmt (args.map fun p => p.2)).length) := by
  refine ⟨⟨rs_overwrite_trace_fst fill op cont, rs_append_trace_fst fill op cont⟩, ⟨?_, ?_⟩,
    ⟨?_, ?_⟩, fun req hreq => ⟨rs_overwrite_trace_resizes fill op cont req hreq,
      rs_overwrite_length fill op cont req hreq, rs_append_trace_resizes fill op cont req hreq,
      rs_append_length fill op cont req hreq⟩,
    fun args => ⟨(rs_overwrite_trace_fst fill _ cont).symm, (rs_append_trace_fst fill _ cont).symm⟩,
    fun sep a more =>
      ⟨(rs_overwrite_trace_fst fill _ cont).symm, (rs_append_trace_fst fill _ cont).symm⟩,
    fun fmt args =>
      ⟨(rs_overwrite_trace_fst fill _ cont).symm, (rs_append_trace_fst fill _ cont).symm⟩,
    fun args hreq m buf => cat_snd args m buf hreq,
    fun sep tsep a na more hsep ha hreq => catsep_snd sep tsep a na more hsep ha hreq,
    fun fmt args hreq m buf => format_snd args hreq m buf fmt⟩
  · rw [rs_overwrite_trace_calls]; split_ifs with h <;> simp [h]
  · rw [rs_overwrite_trace_calls]; split_ifs with h <;> simp [h]
  · rw [rs_append_trace_calls]; split_ifs with h <;> simp [h]
  · rw [rs_append_trace_calls]; split_ifs with h <;> simp [h]

/-- The example of C24: `catrs` of `ab` and `cde` on a container that holds `xy` calls
`cat` twice and resizes the container once, to 5; on a container that holds `0123456789`
it calls `cat` once and resizes the container once, to 5; appending to `xy` calls `cat`
twice and resizes the container once, to 7. -/
theorem resizing_calls_and_resizes_witness :
    (∀ m buf, (cat m buf [to_chars_text (chars "ab"), to_chars_text (chars "cde")]).2 = 5) ∧
    rs_overwrite_trace 0
        (fun m buf => cat m buf [to_chars_text (chars "ab"), to_chars_text (chars "cde")])
        (chars "xy") = (chars "abcde", 2, [5]) ∧
    rs_overwrite_trace 0
        (fun m buf => cat m buf [to_chars_text (chars "ab"), to_chars_text (chars "cde")])
        (chars "0123456789") = (chars "abcde", 1, [5]) ∧
    rs_append_trace 0
        (fun m buf => cat m buf [to_chars_text (chars "ab"), to_chars_text (chars "cde")])
        (chars "xy") = ((chars "xyabcde", ⟨2, 5⟩), 2, [7]) ∧
    (rs_overwrite_trace 0
        (fun m buf => cat m buf [to_chars_text (chars "ab"), to_chars_text (chars "cde")])
        (chars "xy")).2.2 = [5] :=
  ⟨fun _ _ => rfl, by decide, by decide, by decide,
    ((resizing_calls_and_resizes 0 (chars "xy")
      (fun m buf => cat m buf [to_chars_text (chars "ab"), to_chars_text (chars "cde")])).2.2.2.1
      5 (fun _ _ => rfl)).1⟩

end c4

namespace c4

namespace detail.base64

/-! ## The reads of `decode` after its loop -/

/-- On a text without padding that fills its array, the test `d[2] == '='` after the loop
of `decode` reads outside the array, whatever the number of quartets. -/
theorem decode_unpadded_reads_outside (asserts : Bool) (m : Mem) (out : base64_wrapper)
    (qs : List (Nat × Nat × Nat × Nat)) (hqs : ∀ q ∈ qs, quartet_ok q) :
    decode asserts m ⟨quartets_text qs, 4 * qs.length⟩ out = .error Err.out_of_bounds := by
  have hl := quartets_text_length qs
  obtain ⟨m', hm'⟩ := decode_loop_quartets asserts ⟨quartets_text qs, 4 * qs.length⟩ out qs
    [] [] 0 0 m hqs (by simp) (by simp)
  simp only [List.length_nil, Nat.add_zero, Nat.zero_add] at hm'
  rw [decode_loop_exit _ _ _ _ _ _ (by simp)] at hm'
  have hdiv : (4 * qs.length) / 4 = qs.length := by omega
  have hmod : (4 * qs.length) % 4 = 0 := by omega
  have hr : rd ⟨quartets_text qs, 4 * qs.length⟩ (4 * qs.length + 2)
      = .error Err.out_of_bounds := by
    simp only [rd]
    rw [List.getElem?_eq_none (by omega)]
    rfl
  simp only [decode, hdiv, hmod, ne_eq, not_true_eq_false, if_false, hm', ok_bind,
    decode_padded, hr]
  rfl

/-- C25: after its loop `decode` tests `d[2]`, and then `d[3]`, without testing that `d`
is before the end of the text.  For the empty text and for a text without padding, `d` is
then at the end of the text, and the test reads the positions `len + 2` and `len + 3`:
outside the array when the text fills it; and when the array goes on, what `decode`
returns and stores depends on the characters after the text (the empty text at the start
of `QQ==` gives one byte, the text `QUJD` gives three bytes in `QUJDQUJD` and four in
`QUJDQQ==`). -/
theorem decode_reads_past_input_end :
    (∀ (asserts : Bool) (m : Mem) (out : base64_wrapper),
      decode asserts m ⟨[], 0⟩ out = .error Err.out_of_bounds) ∧
    (∀ (asserts : Bool) (m : Mem) (out : base64_wrapper),
      decode asserts m ⟨chars "QUJD", 4⟩ out = .error Err.out_of_bounds) ∧
    (decode false (fun _ => 1) ⟨chars "QQ==", 0⟩ ⟨100, 3⟩).map
      (fun r => (r.1.slice 100 2, r.2)) = .ok (chars "A" ++ [1], 1) ∧
    (decode false (fun _ => 1) ⟨chars "QUJDQUJD", 4⟩ ⟨100, 8⟩).map
      (fun r => (r.1.slice 100 4, r.2)) = .ok (chars "ABC" ++ [1], 3) ∧
    (decode false (fun _ => 1) ⟨chars "QUJDQQ==", 4⟩ ⟨100, 8⟩).map
      (fun r => (r.1.slice 100 4, r.2)) = .ok (chars "ABCA", 4) :=
  ⟨fun _ _ _ => rfl, fun _ _ _ => rfl, rfl, rfl, rfl⟩

end detail.base64

end c4

namespace c4

/-! ## The variants that return a view -/

theorem sub_view_spec (len sz : Nat) :
    (if sz ≤ len then sz else len) = min sz len ∧ (if sz ≤ len then sz else len) ≤ len ∧
      ((if sz ≤ len then sz else len) = sz ↔ sz ≤ len) := by
  split_ifs with h
  · exact ⟨(min_eq_left h).symm, h, by simp [h]⟩
  · exact ⟨(min_eq_right (by omega)).symm, le_refl _, by constructor <;> intro <;> omega⟩

theorem cat_sub_eq (m : Mem) (buf : substr) (args : List Ser) :
    cat_sub m buf args
      = ((cat m buf args).1,
          ⟨buf.str, if (cat m buf args).2 ≤ buf.len then (cat m buf args).2 else buf.len⟩) :=
  rfl

theorem catsep_sub_eq (m : Mem) (buf : substr) (sep a : Ser) (more : List Ser) :
    catsep_sub m buf sep a more
      = ((catsep m buf sep a more).1,
          ⟨buf.str, if (catsep m buf sep a more).2 ≤ buf.len then (catsep m buf sep a more).2
            else buf.len⟩) :=
  rfl

theorem format_sub_eq (m : Mem) (buf : substr) (fmt : List Nat) (args : List Ser) :
    format_sub m buf fmt args
      = ((format m buf fmt args).1,
          ⟨buf.str, if (format m buf fmt args).2 ≤ buf.len then (format m buf fmt args).2
            else buf.len⟩) :=
  rfl

/-- C26: `cat_sub`, `catsep_sub` and `format_sub` leave the memory that `cat`, `catsep` and
`format` leave and return a view that starts at the start of the buffer and has the length
`min(required, buf.len)`, required being what `cat`, `catsep` and `format` return.  The
view is inside the buffer, and its length is the required length exactly when the required
length is no larger than the buffer; then, with well-behaved serializers, the characters
of the view are the whole output. -/
theorem sub_variants_return_clamped_view (m : Mem) (buf : substr) :
    (∀ args : List Ser,
      (cat_sub m buf args).1 = (cat m buf args).1 ∧
      (cat_sub m buf args).2.str = buf.str ∧
      (cat_sub m buf args).2.len = min (cat m buf args).2 buf.len ∧
      (cat_sub m buf args).2.len ≤ buf.len ∧
      ((cat_sub m buf args).2.len = (cat m buf args).2 ↔ (cat m buf args).2 ≤ buf.len)) ∧
    (∀ (sep a : Ser) (more : List Ser),
      (catsep_sub m buf sep a more).1 = (catsep m buf sep a more).1 ∧
      (catsep_sub m buf sep a more).2.str = buf.str ∧
      (catsep_sub m buf sep a more).2.len = min (catsep m buf sep a more).2 buf.len ∧
      (catsep_sub m buf sep a more).2.len ≤ buf.len ∧
      ((catsep_sub m buf sep a more).2.len = (catsep m buf sep a more).2
        ↔ (catsep m buf sep a more).2 ≤ buf.len)) ∧
    (∀ (fmt : List Nat) (args : List Ser),
      (format_sub m buf fmt args).1 = (format m buf fmt args).1 ∧
      (format_sub m buf fmt args).2.str = buf.str ∧
      (format_sub m buf fmt args).2.len = min (format m buf fmt args).2 buf.len ∧
      (format_sub m buf fmt args).2.len ≤ buf.len ∧
      ((format_sub m buf fmt args).2.len = (format m buf fmt args).2
        ↔ (format m buf fmt args).2 ≤ buf.len)) ∧
    (∀ args : List (Ser × List Nat), (∀ p ∈ args, p.1.well_behaved p.2) →
      (args.map fun p => p.2).flatten.length ≤ buf.len →
      (cat_sub m buf (args.map fun p => p.1)).1.slice
          (cat_sub m buf (args.map fun p => p.1)).2.str
          (cat_sub m buf (args.map fun p => p.1)).2.len
        = (args.map fun p => p.2).flatten) ∧
    (∀ (sep : Ser) (tsep : List Nat) (a : Ser) (ta : List Nat) (more : List (Ser × List Nat)),
      sep.well_behaved tsep → a.well_behaved ta → (∀ p ∈ more, p.1.well_behaved p.2) →
      (List.intercalate tsep (ta :: more.map fun p => p.2)).length ≤ buf.len →
      (catsep_sub m buf sep a (more.map fun p => p.1)).1.slice
          (catsep_sub m buf sep a (more.map fun p => p.1)).2.str
          (catsep_sub m buf sep a (more.map fun p => p.1)).2.len
        = List.intercalate tsep (ta :: more.map fun p => p.2)) ∧
    (∀ (fmt : List Nat) (args : List (Ser × List Nat)), (∀ p ∈ args, p.1.well_behaved p.2) →
      (substitute fmt (args.map fun p => p.2)).length ≤ buf.len →
      (format_sub m buf fmt (args.map fun p => p.1)).1.slice
          (format_sub m buf fmt (args.map fun p => p.1)).2.str
          (format_sub m buf fmt (args.map fun p => p.1)).2.len
        = substitute fmt (args.map fun p => p.2)) := by
  refine ⟨fun args => ?_, fun sep a more => ?_, fun fmt args => ?_, fun args hwb hfit => ?_,
    fun sep tsep a ta more hsep ha hwb hfit => ?_, fun fmt args hwb hfit => ?_⟩
  · rw [cat_sub_eq]
    obtain ⟨h1, h2, h3⟩ := sub_view_spec buf.len (cat m buf args).2
    exact ⟨rfl, rfl, h1, h2, h3⟩
  · rw [catsep_sub_eq]
    obtain ⟨h1, h2, h3⟩ := sub_view_spec buf.len (catsep m buf sep a more).2
    exact ⟨rfl, rfl, h1, h2, h3⟩
  · rw [format_sub_eq]
    obtain ⟨h1, h2, h3⟩ := sub_view_spec buf.len (format m buf fmt args).2
    exact ⟨rfl, rfl, h1, h2, h3⟩
  · obtain ⟨h1, h2, _⟩ := cat_well_behaved args hwb
    rw [cat_sub_eq]
    simp only [h1, h2 m buf hfit, if_pos hfit]
    exact Mem.slice_write_list _ _ _
  · obtain ⟨h1, h2, _⟩ := catsep_well_behaved sep tsep a ta more hsep ha hwb
    rw [catsep_sub_eq]
    simp only [h1, h2 m buf hfit, if_pos hfit]
    exact Mem.slice_write_list _ _ _
  · obtain ⟨h1, h2, _⟩ := format_well_behaved fmt args hwb
    rw [format_sub_eq]
    simp only [h1, h2 m buf hfit, if_pos hfit]
    exact Mem.slice_write_list _ _ _

/-- The example of C26: `cat_sub` of `ab` and `cde` into a buffer of 8 characters returns
the view of the 5 characters `abcde` at the start of the buffer; into a buffer of 3
characters it returns the whole buffer, which holds `abc`. -/
theorem sub_variants_return_clamped_view_witness :
    (∀ p ∈ [(to_chars_text (chars "ab"), chars "ab"), (to_chars_text (chars "cde"), chars "cde")],
      p.1.well_behaved p.2) ∧
    (cat_sub (fun _ => 0) ⟨10, 8⟩ [to_chars_text (chars "ab"), to_chars_text (chars "cde")]).2
      = ⟨10, 5⟩ ∧
    (cat_sub (fun _ => 0) ⟨10, 8⟩ [to_chars_text (chars "ab"), to_chars_text (chars "cde")]).1.slice
        10 8 = chars "abcde" ++ [0, 0, 0] ∧
    (cat_sub (fun _ => 0) ⟨10, 3⟩ [to_chars_text (chars "ab"), to_chars_text (chars "cde")]).2
      = ⟨10, 3⟩ ∧
    (cat_sub (fun _ => 0) ⟨10, 3⟩ [to_chars_text (chars "ab"), to_chars_text (chars "cde")]).1.slice
        10 4 = chars "abc" ++ [0] ∧
    (cat_sub (fun _ => 0) ⟨10, 8⟩
        ([(to_chars_text (chars "ab"), chars "ab"),
          (to_chars_text (chars "cde"), chars "cde")].map fun p => p.1)).1.slice
        (cat_sub (fun _ => 0) ⟨10, 8⟩
          ([(to_chars_text (chars "ab"), chars "ab"),
            (to_chars_text (chars "cde"), chars "cde")].map fun p => p.1)).2.str
        (cat_sub (fun _ => 0) ⟨10, 8⟩
          ([(to_chars_text (chars "ab"), chars "ab"),
            (to_chars_text (chars "cde"), chars "cde")].map fun p => p.1)).2.len
      = ([(to_chars_text (chars "ab"), chars "ab"),
          (to_chars_text (chars "cde"), chars "cde")].map fun p => p.2).flatten :=
  have hwb : ∀ p ∈ [(to_chars_text (chars "ab"), chars "ab"),
      (to_chars_text (chars "cde"), chars "cde")], p.1.well_behaved p.2 := by
    intro p hp
    simp only [List.mem_cons, List.mem_singleton, List.not_mem_nil, or_false] at hp
    rcases hp with rfl | rfl <;> exact to_chars_text_well_behaved _
  ⟨hwb, by decide, by decide, by decide, by decide,
    (sub_variants_return_clamped_view (fun _ => 0) ⟨10, 8⟩).2.2.2.1
      [(to_chars_text (chars "ab"), chars "ab"), (to_chars_text (chars "cde"), chars "cde")]
      hwb (by decide)⟩

end c4
